import Mathlib

/-!
# Streaming chat relay: `ResponseCollector.Write` and `LLMClient.StreamChat`

A shallow embedding of the streaming request path of the backend
(`controllers/chat.go`, `config/stream.go`, `models/chat_history.go`) and of the
history list of `controllers/history.go`.

* Go `[]byte` and `string` values are byte sequences (`Bytes`).
* The effects of the code (reads of the upstream body, writes to and flushes of
  the client writer, statements sent to the database, identifiers drawn from
  `uuid.New`) are returned as a list of `Event`s in the order in which the code
  performs them.
* What the code cannot decide by itself is an oracle of the environment `Env`:
  the JSON codec, the identifier source, database faults and the client writer.
  The general theorems hold for every environment; `goEnv` is a concrete one.
* The codec of `encoding/json` is modelled in full (`unmarshalObject`,
  `marshalObject`, `marshalMessages`): strings as UTF-8 with the substitution of
  U+FFFD, numbers as `float64` with the text `strconv` writes for them. What the
  rewritten last chunk and the stored transcript read back as is stated for that
  codec.
-/

set_option autoImplicit false

namespace ChatRelay

/-- A Go byte slice or string. -/
abbrev Bytes := List UInt8

/-- The UTF-8 bytes of a string literal. -/
def utf8 (s : String) : Bytes := s.toUTF8.data.toList

/-! ## JSON values, as `encoding/json` decodes them into `interface{}` -/

/-- A decoded JSON value: `nil`, `bool`, `float64` (kept as the text
`json.Marshal` writes for it, which names the `float64`), `string`,
`[]interface{}` and `map[string]interface{}`. -/
inductive JValue where
  | null
  | bool (b : Bool)
  | num (lit : Bytes)
  | str (s : Bytes)
  | arr (xs : List JValue)
  | obj (kvs : List (Bytes × JValue))
deriving Inhabited

/-- A Go `map[string]interface{}`: keys are unique, the order is immaterial. -/
abbrev JObject := List (Bytes × JValue)

/-- Map index `m[k]`: the value and whether the key is present. -/
def JObject.get? : JObject → Bytes → Option JValue
  | [], _ => none
  | (k', v) :: rest, k => if k' = k then some v else JObject.get? rest k

/-- Map assignment `m[k] = v`. -/
def JObject.set : JObject → Bytes → JValue → JObject
  | [], k, v => [(k, v)]
  | (k', v') :: rest, k, v =>
    if k' = k then (k, v) :: rest else (k', v') :: JObject.set rest k v

/-! ## A model of `json.Unmarshal` into a `map[string]interface{}` -/

/-- JSON insignificant whitespace: space, tab, line feed, carriage return. -/
def isWS (b : UInt8) : Bool := b = 0x20 || b = 0x09 || b = 0x0a || b = 0x0d

def isDigit (b : UInt8) : Bool := 0x30 ≤ b && b ≤ 0x39

def skipWS : Bytes → Bytes
  | [] => []
  | b :: rest => if isWS b then skipWS rest else b :: rest

def hexVal (b : UInt8) : Option Nat :=
  if 0x30 ≤ b && b ≤ 0x39 then some (b.toNat - 0x30)
  else if 0x61 ≤ b && b ≤ 0x66 then some (b.toNat - 0x61 + 10)
  else if 0x41 ≤ b && b ≤ 0x46 then some (b.toNat - 0x41 + 10)
  else none

/-- The four hex digits after a `\u`, as `getu4` reads them. -/
def getu4 : Bytes → Option (Nat × Bytes)
  | a :: b :: c :: d :: rest =>
    match hexVal a, hexVal b, hexVal c, hexVal d with
    | some x, some y, some z, some w => some (((x * 16 + y) * 16 + z) * 16 + w, rest)
    | _, _, _, _ => none
  | _ => none

/-- The UTF-8 encoding of a code point (`utf8.EncodeRune`). -/
def encodeRune (c : Nat) : Bytes :=
  if c < 0x80 then [UInt8.ofNat c]
  else if c < 0x800 then [UInt8.ofNat (0xC0 + c / 64), UInt8.ofNat (0x80 + c % 64)]
  else if c < 0x10000 then
    [UInt8.ofNat (0xE0 + c / 4096), UInt8.ofNat (0x80 + c / 64 % 64), UInt8.ofNat (0x80 + c % 64)]
  else
    [UInt8.ofNat (0xF0 + c / 262144), UInt8.ofNat (0x80 + c / 4096 % 64),
     UInt8.ofNat (0x80 + c / 64 % 64), UInt8.ofNat (0x80 + c % 64)]

/-- The rune a `\uXXXX` escape stands for and the input left after it: a high
surrogate followed by an escaped low surrogate is one rune, a lone surrogate is
U+FFFD. -/
def unescapeU (rr : Nat) (rest : Bytes) : Nat × Bytes :=
  if 0xD800 ≤ rr && rr < 0xE000 then
    match rest with
    | 0x5c :: 0x75 :: rest1 =>
      match getu4 rest1 with
      | some (rr1, rest2) =>
        if rr < 0xDC00 && 0xDC00 ≤ rr1 && rr1 < 0xE000 then
          ((rr - 0xD800) * 1024 + (rr1 - 0xDC00) + 0x10000, rest2)
        else (0xFFFD, rest)
      | none => (0xFFFD, rest)
    | _ => (0xFFFD, rest)
  else (rr, rest)

/-- Whether a byte is a continuation byte, `0x80` to `0xBF`. -/
def isCont (n : Nat) : Bool := 0x80 ≤ n && n ≤ 0xBF

/-- The rune at the head of the input and its width (`utf8.DecodeRune`): one
byte for ASCII, two to four for a well-formed encoding (shortest form, no
surrogate, at most U+10FFFF), and `(U+FFFD, 1)` for anything else. -/
def decodeRune : Bytes → Nat × Nat
  | [] => (0xFFFD, 0)
  | b0 :: rest =>
    if b0.toNat < 0x80 then (b0.toNat, 1)
    else if 0xC2 ≤ b0.toNat && b0.toNat ≤ 0xDF then
      match rest with
      | b1 :: _ =>
        if isCont b1.toNat then ((b0.toNat - 0xC0) * 64 + (b1.toNat - 0x80), 2)
        else (0xFFFD, 1)
      | _ => (0xFFFD, 1)
    else if 0xE0 ≤ b0.toNat && b0.toNat ≤ 0xEF then
      match rest with
      | b1 :: b2 :: _ =>
        if (if b0.toNat = 0xE0 then 0xA0 else 0x80) ≤ b1.toNat
            && b1.toNat ≤ (if b0.toNat = 0xED then 0x9F else 0xBF) && isCont b2.toNat then
          ((b0.toNat - 0xE0) * 4096 + (b1.toNat - 0x80) * 64 + (b2.toNat - 0x80), 3)
        else (0xFFFD, 1)
      | _ => (0xFFFD, 1)
    else if 0xF0 ≤ b0.toNat && b0.toNat ≤ 0xF4 then
      match rest with
      | b1 :: b2 :: b3 :: _ =>
        if (if b0.toNat = 0xF0 then 0x90 else 0x80) ≤ b1.toNat
            && b1.toNat ≤ (if b0.toNat = 0xF4 then 0x8F else 0xBF) && isCont b2.toNat
            && isCont b3.toNat then
          ((b0.toNat - 0xF0) * 262144 + (b1.toNat - 0x80) * 4096 + (b2.toNat - 0x80) * 64
            + (b3.toNat - 0x80), 4)
        else (0xFFFD, 1)
      | _ => (0xFFFD, 1)
    else (0xFFFD, 1)

/-- The body of a string literal, after the opening quote: the decoded bytes and
the input after the closing quote. Bytes outside ASCII are decoded as runes and
written back, so that an ill-formed encoding becomes U+FFFD. -/
def parseString : Nat → Bytes → Bytes → Option (Bytes × Bytes)
  | 0, _, _ => none
  | _ + 1, [], _ => none
  | fuel + 1, b :: rest, acc =>
    if b = 0x22 then some (acc, rest)
    else if b = 0x5c then
      match rest with
      | [] => none
      | e :: rest1 =>
        if e = 0x22 || e = 0x5c || e = 0x2f then parseString fuel rest1 (acc ++ [e])
        else if e = 0x62 then parseString fuel rest1 (acc ++ [0x08])
        else if e = 0x66 then parseString fuel rest1 (acc ++ [0x0c])
        else if e = 0x6e then parseString fuel rest1 (acc ++ [0x0a])
        else if e = 0x72 then parseString fuel rest1 (acc ++ [0x0d])
        else if e = 0x74 then parseString fuel rest1 (acc ++ [0x09])
        else if e = 0x75 then
          match getu4 rest1 with
          | some (rr, rest2) =>
            parseString fuel (unescapeU rr rest2).2 (acc ++ encodeRune (unescapeU rr rest2).1)
          | none => none
        else none
    else if b < 0x20 then none
    else if b < 0x80 then parseString fuel rest (acc ++ [b])
    else
      parseString fuel (rest.drop ((decodeRune (b :: rest)).2 - 1))
        (acc ++ encodeRune (decodeRune (b :: rest)).1)

/-- A run of one or more digits. -/
def digits1 (bs : Bytes) : Option (Bytes × Bytes) :=
  match bs.span isDigit with
  | ([], _) => none
  | (ds, rest) => some (ds, rest)

/-- A number literal `-? (0 | [1-9][0-9]*) (. [0-9]+)? ([eE] [+-]? [0-9]+)?`. -/
def parseNumber (bs : Bytes) : Option (Bytes × Bytes) :=
  let (sign, bs1) := match bs with
    | 0x2d :: r => ([(0x2d : UInt8)], r)
    | _ => ([], bs)
  let intPart : Option (Bytes × Bytes) := match bs1 with
    | 0x30 :: r => some ([0x30], r)
    | _ => digits1 bs1
  match intPart with
  | none => none
  | some (ip, bs2) =>
    let frac : Option (Bytes × Bytes) := match bs2 with
      | 0x2e :: r => (digits1 r).map (fun p => (0x2e :: p.1, p.2))
      | _ => some ([], bs2)
    match frac with
    | none => none
    | some (fp, bs3) =>
      let ex : Option (Bytes × Bytes) := match bs3 with
        | e :: r =>
          if e = 0x65 || e = 0x45 then
            match r with
            | s :: r1 =>
              if s = 0x2b || s = 0x2d then (digits1 r1).map (fun p => (e :: s :: p.1, p.2))
              else (digits1 r).map (fun p => (e :: p.1, p.2))
            | [] => none
          else some ([], bs3)
        | [] => some ([], bs3)
      match ex with
      | none => none
      | some (xp, bs4) => some (sign ++ ip ++ fp ++ xp, bs4)

/-! ### Numbers: `strconv.ParseFloat` and the `float64` encoder -/

/-- A finite `float64`: `mant * 2 ^ exp`, negated for `neg`, with `mant < 2 ^ 53`,
and `2 ^ 52 ≤ mant` unless `exp = -1074`; zero has `mant = 0` and `exp = 0`. -/
structure F64 where
  neg : Bool
  mant : Nat
  exp : Int
deriving DecidableEq

/-- The number a run of decimal digits writes. -/
def natOfDigits (ds : Bytes) : Nat := ds.foldl (fun n b => 10 * n + (b.toNat - 0x30)) 0

/-- The decimal digits of a number. -/
def digitsOf (n : Nat) : Bytes := (Nat.toDigits 10 n).map (fun c => UInt8.ofNat c.toNat)

/-- The number of binary digits of a number. -/
def bitLength (n : Nat) : Nat := (Nat.toDigits 2 n).length

/-- The `float64` nearest to `num / den`, ties to the even mantissa; `none` when
it is beyond the largest finite one. -/
def roundToF64 (neg : Bool) (num den : Nat) : Option F64 :=
  if num = 0 then some { neg := neg, mant := 0, exp := 0 }
  else
    let t : Int := (bitLength num : Int) - (bitLength den : Int)
    let ge : Bool := if 0 ≤ t then den * 2 ^ t.toNat ≤ num else den ≤ num * 2 ^ (-t).toNat
    let lg : Int := if ge then t else t - 1
    let e : Int := max (lg - 52) (-1074)
    let n1 : Nat := if 0 ≤ e then num else num * 2 ^ (-e).toNat
    let d1 : Nat := if 0 ≤ e then den * 2 ^ e.toNat else den
    let q : Nat := n1 / d1
    let r : Nat := n1 % d1
    let q1 : Nat := if d1 < 2 * r || (2 * r = d1 && q % 2 = 1) then q + 1 else q
    let m : Nat := if q1 = 2 ^ 53 then 2 ^ 52 else q1
    let e1 : Int := if q1 = 2 ^ 53 then e + 1 else e
    if 971 < e1 then none
    else some { neg := neg, mant := m, exp := if m = 0 then 0 else e1 }

/-- The call `strconv.ParseFloat(lit, 64)` on a JSON number literal: the nearest
`float64`, `none` for the range error. -/
def decodeNumber (lit : Bytes) : Option F64 :=
  let neg : Bool := lit.head? = some 0x2d
  let body : Bytes := if neg then lit.drop 1 else lit
  let ip : Bytes := body.takeWhile isDigit
  let r1 : Bytes := body.dropWhile isDigit
  let fp : Bytes := match r1 with
    | 0x2e :: r => r.takeWhile isDigit
    | _ => []
  let r2 : Bytes := match r1 with
    | 0x2e :: r => r.dropWhile isDigit
    | _ => r1
  let ex : Int := match r2 with
    | _ :: 0x2d :: r => -(natOfDigits r : Int)
    | _ :: 0x2b :: r => (natOfDigits r : Int)
    | _ :: r => (natOfDigits r : Int)
    | [] => 0
  let e10 : Int := ex - (fp.length : Int)
  if 0 ≤ e10 then roundToF64 neg (natOfDigits (ip ++ fp) * 10 ^ e10.toNat) 1
  else roundToF64 neg (natOfDigits (ip ++ fp)) (10 ^ (-e10).toNat)

/-- Digits without the zeros at their end. -/
def stripZeros (ds : Bytes) : Bytes := (ds.reverse.dropWhile (fun b => b = 0x30)).reverse

/-- The exact decimal expansion of a non-zero `float64`: its digits `d1 d2 ...`
and the position `dp` of the decimal point, the value being
`0.d1d2... * 10 ^ dp`. -/
def exactDecimal (f : F64) : Bytes × Int :=
  if 0 ≤ f.exp then
    (stripZeros (digitsOf (f.mant * 2 ^ f.exp.toNat)),
      ((digitsOf (f.mant * 2 ^ f.exp.toNat)).length : Int))
  else
    (stripZeros (digitsOf (f.mant * 5 ^ (-f.exp).toNat)),
      ((digitsOf (f.mant * 5 ^ (-f.exp).toNat)).length : Int) + f.exp)

/-- The first `n` digits, kept as they are (`decimal.RoundDown`). -/
def roundDown (d : Bytes × Int) (n : Nat) : Bytes × Int := (stripZeros (d.1.take n), d.2)

/-- The first `n` digits plus one in the last place (`decimal.RoundUp`). -/
def roundUp (d : Bytes × Int) (n : Nat) : Bytes × Int :=
  (stripZeros (digitsOf (natOfDigits (d.1.take n) + 1)),
    if n < (digitsOf (natOfDigits (d.1.take n) + 1)).length then d.2 + 1 else d.2)

/-- Whether rounding to `n` digits goes up (`shouldRoundUp`): on the next digit,
an exact half going to the even digit. -/
def shouldRoundUp (ds : Bytes) (n : Nat) : Bool :=
  if ds.length ≤ n then false
  else if ds.getD n 0x30 = 0x35 && n + 1 = ds.length then
    (ds.getD (n - 1) 0x30).toNat % 2 = 1
  else 0x35 ≤ ds.getD n 0x30

/-- The exponent of the `e` format: a sign and at least two digits. -/
def exponentText (x : Int) : Bytes :=
  (if x < 0 then 0x2d else 0x2b) ::
    (if x.natAbs < 10 then 0x30 :: digitsOf x.natAbs else digitsOf x.natAbs)

/-- The `e` format of `strconv` for the digits at hand: `d.ddde±xx`. -/
def formatE (neg : Bool) (d : Bytes × Int) : Bytes :=
  (if neg then [0x2d] else []) ++ d.1.take 1 ++
    (if 1 < d.1.length then 0x2e :: d.1.drop 1 else []) ++ 0x65 :: exponentText (d.2 - 1)

/-- The `f` format of `strconv` for the digits at hand: no exponent, zeros
filled in. -/
def formatF (neg : Bool) (d : Bytes × Int) : Bytes :=
  (if neg then [0x2d] else []) ++
    (if 0 < d.2 then d.1.take d.2.toNat ++ List.replicate (d.2.toNat - d.1.length) 0x30
     else [0x30]) ++
    (if d.2 < (d.1.length : Int) then
      0x2e :: (List.replicate (-d.2).toNat 0x30 ++ d.1.drop d.2.toNat)
     else [])

/-- Whether `|a| < |b|`. -/
def F64.absLt (a b : F64) : Bool :=
  a.mant * 2 ^ (a.exp - min a.exp b.exp).toNat < b.mant * 2 ^ (b.exp - min a.exp b.exp).toNat

/-- The text the `float64` encoder of `encoding/json` writes for a value whose
shortest digits are at hand: format `e` below `1e-6` and from `1e21` on, with
`e-09` cleaned up to `e-9`; format `f` otherwise. -/
def renderFloat (f : F64) (d : Bytes × Int) : Bytes :=
  if f.absLt { neg := false, mant := 4722366482869645, exp := -72 }
      || !f.absLt { neg := false, mant := 476837158203125, exp := 21 } then
    let b := formatE f.neg d
    match b.reverse with
    | x :: 0x30 :: 0x2d :: 0x65 :: r => (x :: 0x2d :: 0x65 :: r).reverse
    | _ => b
  else formatF f.neg d

/-- A number token: a literal that `parseNumber` reads to its end. -/
def isNumberToken (t : Bytes) : Bool :=
  match parseNumber t with
  | some (lit, rest) => lit = t && rest.isEmpty
  | none => false

/-- Whether the digits at hand, written out, are a number that reads back as
the `float64`: the decimal lies in the rounding interval of the value. -/
def readsBack (f : F64) (d : Bytes × Int) : Bool :=
  isNumberToken (renderFloat f d) && decodeNumber (renderFloat f d) = some f

/-- The shortest digits that read back (`roundShortest`): the first length `n`
at which the first `n` digits, or they plus one in the last place, lie in the
rounding interval; the nearer of the two when both do. -/
def shortest (f : F64) (d : Bytes × Int) : Nat → Nat → Option (Bytes × Int)
  | 0, _ => none
  | fuel + 1, n =>
    if d.1.length ≤ n then (if readsBack f d then some d else none)
    else if readsBack f (roundDown d n) && readsBack f (roundUp d n) then
      some (if shouldRoundUp d.1 n then roundUp d n else roundDown d n)
    else if readsBack f (roundDown d n) then some (roundDown d n)
    else if readsBack f (roundUp d n) then some (roundUp d n)
    else shortest f d fuel (n + 1)

/-- The text `json.Marshal` writes for a `float64`; `none` stands for a search
that finds no digits, which the exact expansion rules out. -/
def formatFloat (f : F64) : Option Bytes :=
  if f.mant = 0 then some (if f.neg then [0x2d, 0x30] else [0x30])
  else
    (shortest f (exactDecimal f) ((exactDecimal f).1.length + 1) 1).map (renderFloat f)

/-- A number literal as it is decoded and held: the text of the `float64`
nearest to it; `none` when the literal is out of range. -/
def canonNumber (lit : Bytes) : Option Bytes := (decodeNumber lit).bind formatFloat

mutual
/-- One JSON value at the head of the input (leading whitespace skipped). -/
def parseValue : Nat → Bytes → Option (JValue × Bytes)
  | 0, _ => none
  | fuel + 1, bs =>
    match skipWS bs with
    | [] => none
    | b :: rest =>
      if b = 0x7b then
        match skipWS rest with
        | [] => none
        | c :: rest1 =>
          if c = 0x7d then some (JValue.obj [], rest1) else parseMembers fuel (c :: rest1) []
      else if b = 0x5b then
        match skipWS rest with
        | [] => none
        | c :: rest1 =>
          if c = 0x5d then some (JValue.arr [], rest1) else parseElements fuel (c :: rest1) []
      else if b = 0x22 then
        (parseString (rest.length + 1) rest []).map (fun p => (JValue.str p.1, p.2))
      else if b = 0x74 then
        match rest with
        | 0x72 :: 0x75 :: 0x65 :: rest1 => some (JValue.bool true, rest1)
        | _ => none
      else if b = 0x66 then
        match rest with
        | 0x61 :: 0x6c :: 0x73 :: 0x65 :: rest1 => some (JValue.bool false, rest1)
        | _ => none
      else if b = 0x6e then
        match rest with
        | 0x75 :: 0x6c :: 0x6c :: rest1 => some (JValue.null, rest1)
        | _ => none
      else
        match parseNumber (b :: rest) with
        | some (lit, rest1) => (canonNumber lit).map (fun t => (JValue.num t, rest1))
        | none => none
/-- The members of an object after `{`, up to and including the closing `}`; a
key that occurs again replaces the earlier value. -/
def parseMembers : Nat → Bytes → JObject → Option (JValue × Bytes)
  | 0, _, _ => none
  | fuel + 1, bs, acc =>
    match skipWS bs with
    | [] => none
    | b :: rest =>
      if b = 0x22 then
        match parseString (rest.length + 1) rest [] with
        | none => none
        | some (k, r1) =>
          match skipWS r1 with
          | [] => none
          | c :: r2 =>
            if c = 0x3a then
              match parseValue fuel r2 with
              | none => none
              | some (v, r3) =>
                match skipWS r3 with
                | [] => none
                | d :: r4 =>
                  if d = 0x2c then parseMembers fuel r4 (acc.set k v)
                  else if d = 0x7d then some (JValue.obj (acc.set k v), r4)
                  else none
            else none
      else none
/-- The elements of an array after `[`, up to and including the closing `]`. -/
def parseElements : Nat → Bytes → List JValue → Option (JValue × Bytes)
  | 0, _, _ => none
  | fuel + 1, bs, acc =>
    match parseValue fuel bs with
    | none => none
    | some (v, r1) =>
      match skipWS r1 with
      | [] => none
      | d :: r2 =>
        if d = 0x2c then parseElements fuel r2 (acc ++ [v])
        else if d = 0x5d then some (JValue.arr (acc ++ [v]), r2)
        else none
end

/-- The call `json.Unmarshal(data, &jsonData)` with `jsonData` a nil
`map[string]interface{}`: `some m` when `err == nil`, with `m` the contents of
`jsonData`. The input must be one JSON value, surrounded by whitespace only, and
that value must be an object or `null` (which leaves the map nil, read as
empty). Every nested call consumes a byte, so the fuel never runs out. A number
literal out of the range of `float64` is an error. -/
def unmarshalObject (data : Bytes) : Option JObject :=
  match parseValue (data.length + 1) data with
  | some (JValue.obj kvs, rest) => if (skipWS rest).isEmpty then some kvs else none
  | some (JValue.null, rest) => if (skipWS rest).isEmpty then some [] else none
  | _ => none

/-! ## A model of `json.Marshal` -/

def hexDigit (n : Nat) : UInt8 :=
  if n < 10 then UInt8.ofNat (0x30 + n) else UInt8.ofNat (0x61 + (n - 10))

/-- An ASCII byte as `json.Marshal` writes it inside a string (HTML escaping
on): quote and backslash are escaped, control characters and `<`, `>`, `&`
become `\u00XX`, with the short forms for backspace, form feed, line feed,
carriage return and tab. -/
def escapeByte (b : UInt8) : Bytes :=
  if b = 0x22 || b = 0x5c then [0x5c, b]
  else if b = 0x08 then [0x5c, 0x62]
  else if b = 0x0c then [0x5c, 0x66]
  else if b = 0x0a then [0x5c, 0x6e]
  else if b = 0x0d then [0x5c, 0x72]
  else if b = 0x09 then [0x5c, 0x74]
  else if b < 0x20 || b = 0x3c || b = 0x3e || b = 0x26 then
    [0x5c, 0x75, 0x30, 0x30, hexDigit (b.toNat / 16), hexDigit (b.toNat % 16)]
  else [b]

/-- The loop of the string encoder, rune by rune: an ill-formed byte is written
as the escape of U+FFFD, U+2028 and U+2029 are escaped, any other rune is copied. -/
def escapeRunes : Nat → Bytes → Bytes
  | 0, _ => []
  | _ + 1, [] => []
  | fuel + 1, b :: rest =>
    if b < 0x80 then escapeByte b ++ escapeRunes fuel rest
    else if (decodeRune (b :: rest)).1 = 0xFFFD && (decodeRune (b :: rest)).2 = 1 then
      utf8 "\\ufffd" ++ escapeRunes fuel rest
    else if (decodeRune (b :: rest)).1 = 0x2028 then
      utf8 "\\u2028" ++ escapeRunes fuel (rest.drop ((decodeRune (b :: rest)).2 - 1))
    else if (decodeRune (b :: rest)).1 = 0x2029 then
      utf8 "\\u2029" ++ escapeRunes fuel (rest.drop ((decodeRune (b :: rest)).2 - 1))
    else
      (b :: rest).take (decodeRune (b :: rest)).2 ++
        escapeRunes fuel (rest.drop ((decodeRune (b :: rest)).2 - 1))

/-- The body of a string as `json.Marshal` writes it. -/
def escapeString (s : Bytes) : Bytes := escapeRunes s.length s

/-- A string literal: the escaped body between quotes. -/
def quoteString (s : Bytes) : Bytes := 0x22 :: escapeString s ++ [0x22]

/-- Byte-wise lexicographic order of Go strings, `a < b`. -/
def bytesLt : Bytes → Bytes → Bool
  | _, [] => false
  | [], _ :: _ => true
  | a :: as, b :: bs => a < b || (a = b && bytesLt as bs)

/-- Insertion of a rendered member into a list sorted by key. -/
def insertMember (m : Bytes × Bytes) : List (Bytes × Bytes) → List (Bytes × Bytes)
  | [] => [m]
  | m' :: rest => if bytesLt m'.1 m.1 then m' :: insertMember m rest else m :: m' :: rest

/-- The text between the brackets, from the rendered items. -/
def joinComma : List Bytes → Bytes
  | [] => []
  | [x] => x
  | x :: y :: rest => x ++ 0x2c :: joinComma (y :: rest)

mutual
/-- A decoded value as `json.Marshal` writes it: compact, object keys sorted; a
number is held as the text of its `float64` and written as that. -/
def marshalValue : JValue → Bytes
  | JValue.null => utf8 "null"
  | JValue.bool true => utf8 "true"
  | JValue.bool false => utf8 "false"
  | JValue.num lit => lit
  | JValue.str s => quoteString s
  | JValue.arr xs => 0x5b :: joinComma (marshalList xs) ++ [0x5d]
  | JValue.obj kvs =>
    0x7b :: joinComma (((marshalMembers kvs).foldr insertMember []).map
      (fun m => quoteString m.1 ++ 0x3a :: m.2)) ++ [0x7d]
def marshalList : List JValue → List Bytes
  | [] => []
  | v :: rest => marshalValue v :: marshalList rest
def marshalMembers : List (Bytes × JValue) → List (Bytes × Bytes)
  | [] => []
  | (k, v) :: rest => (k, marshalValue v) :: marshalMembers rest
end

/-- The call `json.Marshal(jsonData)` on a `map[string]interface{}`; it has no
failing case for a map that was decoded from JSON. -/
def marshalObject (m : JObject) : Option Bytes := some (marshalValue (JValue.obj m))

/-! ## Messages and the conversation store -/

/-- The struct `config.Message`. -/
structure Message where
  Role : Bytes
  Content : Bytes
deriving DecidableEq

/-- One message as `json.Marshal` writes the struct: fields in declaration
order under their `json` tags. -/
def marshalMessage (m : Message) : Bytes :=
  utf8 "\x7b\"role\":" ++ quoteString m.Role ++ utf8 ",\"content\":" ++ quoteString m.Content
    ++ utf8 "\x7d"

/-- The call `json.Marshal(messages)` on a non-nil `[]config.Message`; it has
no failing case. -/
def marshalMessages (ms : List Message) : Option Bytes :=
  some (0x5b :: joinComma (ms.map marshalMessage) ++ [0x5d])

/-- A row of `models.ChatHistory`. Of the embedded `gorm.Model` the primary key
and whether `DeletedAt` is set are kept; the two other timestamps are not. -/
structure ChatHistory where
  ID : Nat
  Deleted : Bool
  HistoryID : Bytes
  UserID : Nat
  ModelName : Bytes
  Messages : Bytes
deriving DecidableEq

/-- The table behind `models.DB`: the rows in primary-key order and the next
value of the auto-increment key. -/
structure DB where
  rows : List ChatHistory
  nextID : Nat
deriving DecidableEq

/-- What a `Write` call returns: the byte count and whether the error is
non-nil. -/
structure WriteResult where
  n : Nat
  failed : Bool
deriving DecidableEq

/-- The error of a `resp.Body.Read`: `io.EOF` or anything else. -/
inductive ReadErr where
  | eof
  | other
deriving DecidableEq

/-- One return of `resp.Body.Read(buffer)`: the bytes `buffer[:n]` and the
error. The buffer holds 1024 bytes, so `data` is never longer. -/
structure ReadResult where
  data : Bytes
  err : Option ReadErr
deriving DecidableEq

/-- What the inference backend does with the request: `json.Marshal`,
`http.NewRequest` or `Client.Do` fails with a message, or a response arrives
with a status code and a body that is read piece by piece. A body whose list of
reads is used up returns `(0, io.EOF)` from then on. -/
inductive Upstream where
  | marshalError (msg : Bytes)
  | newRequestError (msg : Bytes)
  | doError (msg : Bytes)
  | response (status : Nat) (body : List ReadResult)

/-- What the code does not decide by itself. -/
structure Env where
  /-- The call `json.Unmarshal(data, &jsonData)`: the map when `err == nil`. -/
  unmarshal : Bytes → Option JObject
  /-- The call `json.Marshal(jsonData)`: the bytes when `err == nil`. -/
  marshal : JObject → Option Bytes
  /-- The call `json.Marshal(messages)`: the bytes when `err == nil`. -/
  marshalMessages : List Message → Option Bytes
  /-- The identifier the `n`-th call of `uuid.New().String()` gives. -/
  uuid : Nat → Bytes
  /-- Whether the `n`-th statement sent to the database fails for a reason
  outside the table (connection lost, timeout). -/
  dbFault : Nat → Bool
  /-- What the `n`-th `Write` on the client's `gin` writer returns for these
  bytes. -/
  client : Nat → Bytes → WriteResult

/-- The state outside the collector: the table and how often each oracle has
been asked. -/
structure World where
  db : DB
  uuids : Nat
  dbCalls : Nat
  clientWrites : Nat
deriving DecidableEq

/-- The effects of the code, in the order in which it performs them. The two
`call` events mark the entry into the persistence functions with the arguments
they are given. -/
inductive Event where
  | read (r : ReadResult)
  | setHeaders
  | clientWrite (data : Bytes) (res : WriteResult)
  | clientFlush
  | callCreate (userID : Nat) (modelName : Bytes) (userMessages : List Message)
      (aiMessage : Message)
  | callUpdate (historyID : Bytes) (userMessages : List Message) (aiMessage : Message)
  | uuidNew (id : Bytes)
  | dbCreate (row : ChatHistory) (ok : Bool)
  | dbFirst (historyID : Bytes) (found : Option ChatHistory)
  | dbSave (row : ChatHistory) (ok : Bool)
  | jsonResponse (status : Nat)
deriving DecidableEq

/-- The statement `DB.Create(&history)`: the row gets the next primary key and is
inserted, unless the statement fails or `history_id` (declared `unique`) is
already taken. -/
def dbCreate (env : Env) (w : World) (row : ChatHistory) : Bool × World × List Event :=
  let stored := { row with ID := w.db.nextID }
  let ok := !env.dbFault w.dbCalls && !w.db.rows.any (fun r => r.HistoryID = row.HistoryID)
  let db := if ok then { rows := w.db.rows ++ [stored], nextID := w.db.nextID + 1 } else w.db
  (ok, { w with db := db, dbCalls := w.dbCalls + 1 }, [Event.dbCreate stored ok])

/-- The row `DB.Where("history_id = ?", historyID).First(&history)` finds: the
first one in primary-key order that is not soft-deleted. -/
def DB.first (db : DB) (historyID : Bytes) : Option ChatHistory :=
  db.rows.find? (fun r => !r.Deleted && r.HistoryID = historyID)

/-- The function `models.GetChatHistoryByHistoryID`: the row, or `none` for a
non-nil error (no such row, or the statement failed). -/
def GetChatHistoryByHistoryID (env : Env) (w : World) (historyID : Bytes) :
    Option ChatHistory × World × List Event :=
  let found := if env.dbFault w.dbCalls then none else w.db.first historyID
  (found, { w with dbCalls := w.dbCalls + 1 }, [Event.dbFirst historyID found])

/-- The statement `DB.Save(history)` for a row with its primary key set: an
update of all columns of the live row with that key. An update that matches no
row changes nothing; the code saves a row it has just loaded. -/
def dbSave (env : Env) (w : World) (row : ChatHistory) : Bool × World × List Event :=
  let ok := !env.dbFault w.dbCalls
  let rows := if ok then w.db.rows.map (fun r => if r.ID = row.ID && !r.Deleted then row else r)
    else w.db.rows
  (ok, { w with db := { w.db with rows := rows }, dbCalls := w.dbCalls + 1 },
    [Event.dbSave row ok])

/-- The call `rc.Writer.Write(data)` on the client's writer. -/
def clientWrite (env : Env) (w : World) (data : Bytes) : WriteResult × World × List Event :=
  (env.client w.clientWrites data, { w with clientWrites := w.clientWrites + 1 },
    [Event.clientWrite data (env.client w.clientWrites data)])

/-! ## `controllers/chat.go` -/

/-- The struct `ResponseCollector`. Its `Writer` is the client's writer of the
environment; `CollectContent` is the closure the handler installs. -/
structure ResponseCollector where
  UserID : Nat
  ModelName : Bytes
  UserMessages : List Message
  HistoryID : Bytes
  LastDoneData : Option Bytes
  ResponseContent : Bytes
deriving DecidableEq

/-- The closure `responseCollector.CollectContent`: appends to
`ResponseContent` (and to a local of the handler that is never read). -/
def ResponseCollector.CollectContent (rc : ResponseCollector) (content : Bytes) :
    ResponseCollector :=
  { rc with ResponseContent := rc.ResponseContent ++ content }

/-- The function `createChatHistoryFromStream`: the new history identifier, or
the empty string. -/
def createChatHistoryFromStream (env : Env) (w : World) (userID : Nat) (modelName : Bytes)
    (userMessages : List Message) (aiMessage : Message) : Bytes × World × List Event :=
  let messages := userMessages ++ [aiMessage]
  let id := env.uuid w.uuids
  let w1 := { w with uuids := w.uuids + 1 }
  let history : ChatHistory :=
    { ID := 0, Deleted := false, HistoryID := id, UserID := userID, ModelName := modelName,
      Messages := [] }
  let entry := [Event.callCreate userID modelName userMessages aiMessage, Event.uuidNew id]
  match env.marshalMessages messages with
  | some messagesJSON =>
    let history := { history with Messages := messagesJSON }
    let result := dbCreate env w1 history
    if result.1 then (history.HistoryID, result.2.1, entry ++ result.2.2)
    else ([], result.2.1, entry ++ result.2.2)
  | none => ([], w1, entry)

/-- The function `updateChatHistoryFromStream`: whether the update succeeded. -/
def updateChatHistoryFromStream (env : Env) (w : World) (historyID : Bytes)
    (userMessages : List Message) (aiMessage : Message) : Bool × World × List Event :=
  let entry := [Event.callUpdate historyID userMessages aiMessage]
  let got := GetChatHistoryByHistoryID env w historyID
  match got.1 with
  | none => (false, got.2.1, entry ++ got.2.2)
  | some history =>
    let messages := userMessages ++ [aiMessage]
    match env.marshalMessages messages with
    | none => (false, got.2.1, entry ++ got.2.2)
    | some messagesJSON =>
      let history := { history with Messages := messagesJSON }
      let result := dbSave env got.2.1 history
      (result.1, result.2.1, entry ++ got.2.2 ++ result.2.2)

/-- What one call of `ResponseCollector.Write` leaves behind. -/
structure WriteOut where
  rc : ResponseCollector
  world : World
  result : WriteResult
  events : List Event

/-- The tail of `Write`: `return rc.Writer.Write(data)`. -/
def forward (env : Env) (rc : ResponseCollector) (w : World) (pre : List Event)
    (data : Bytes) : WriteOut :=
  let r := clientWrite env w data
  { rc := rc, world := r.2.1, result := r.1, events := pre ++ r.2.2 }

/-- The string under `message.content`: `jsonData["message"]` asserted to be a
map, then its `"content"` asserted to be a string. -/
def messageContent (jsonData : JObject) : Option Bytes :=
  match jsonData.get? (utf8 "message") with
  | some (JValue.obj message) =>
    match JObject.get? message (utf8 "content") with
    | some (JValue.str content) => some content
    | _ => none
  | _ => none

/-- The test `done, ok := jsonData["done"].(bool); ok && done`. -/
def doneTrue (jsonData : JObject) : Bool :=
  match jsonData.get? (utf8 "done") with
  | some (JValue.bool done) => done
  | _ => false

/-- The body of `if done, ok := ...; ok && done` in `Write`: what is done with
the last message, from the point where `LastDoneData` has been set. -/
def ResponseCollector.finish (env : Env) (rc : ResponseCollector) (w : World) (data : Bytes)
    (jsonData : JObject) : WriteOut :=
  if 0 < rc.UserID && rc.LastDoneData.isSome then
    let aiMessage : Message := { Role := utf8 "assistant", Content := rc.ResponseContent }
    let persisted : Bytes × World × List Event :=
      if rc.HistoryID = [] then
        createChatHistoryFromStream env w rc.UserID rc.ModelName rc.UserMessages aiMessage
      else
        let u := updateChatHistoryFromStream env w rc.HistoryID rc.UserMessages aiMessage
        (rc.HistoryID, u.2.1, u.2.2)
    if persisted.1 ≠ [] then
      match env.marshal (jsonData.set (utf8 "history_id") (JValue.str persisted.1)) with
      | some newJSONContent =>
        forward env rc persisted.2.1 persisted.2.2 (newJSONContent ++ utf8 "\n\n")
      | none => forward env rc persisted.2.1 persisted.2.2 data
    else forward env rc persisted.2.1 persisted.2.2 data
  else forward env rc w [] data

/-- The method `ResponseCollector.Write`. -/
def ResponseCollector.Write (env : Env) (rc : ResponseCollector) (w : World) (data : Bytes) :
    WriteOut :=
  match env.unmarshal data with
  | some jsonData =>
    let rc1 :=
      match messageContent jsonData with
      | some content => rc.CollectContent content
      | none => rc
    if doneTrue jsonData then
      ResponseCollector.finish env { rc1 with LastDoneData := some data } w data jsonData
    else forward env rc1 w [] data
  | none => forward env rc w [] data

/-- The method `ResponseCollector.Flush`; the client's `gin` writer is an
`http.Flusher`. -/
def ResponseCollector.Flush : List Event := [Event.clientFlush]

/-! ## `config/stream.go` -/

/-- What the pump leaves behind. -/
structure PumpOut where
  rc : ResponseCollector
  world : World
  events : List Event

/-- The loop of `LLMClient.StreamChat`, one iteration per read of the body. -/
def pump (env : Env) : List ReadResult → ResponseCollector → World → PumpOut
  | [], rc, w => { rc := rc, world := w, events := [Event.read { data := [], err := some ReadErr.eof }] }
  | r :: rest, rc, w =>
    if 0 < r.data.length then
      let o := rc.Write env w r.data
      if o.result.failed then
        { rc := o.rc, world := o.world, events := Event.read r :: o.events }
      else if r.err.isSome then
        { rc := o.rc, world := o.world,
          events := Event.read r :: o.events ++ ResponseCollector.Flush }
      else
        let p := pump env rest o.rc o.world
        { p with events := Event.read r :: o.events ++ ResponseCollector.Flush ++ p.events }
    else if r.err.isSome then { rc := rc, world := w, events := [Event.read r] }
    else
      let p := pump env rest rc w
      { p with events := Event.read r :: p.events }

/-- The bytes `io.ReadAll(resp.Body)` collects: everything up to the first
error. -/
def readAll : List ReadResult → Bytes
  | [] => []
  | r :: rest => if r.err.isSome then r.data else r.data ++ readAll rest

/-- What `LLMClient.StreamChat` leaves behind; `err` is the message of the error
returned, `none` for `nil`. -/
structure StreamOut where
  err : Option Bytes
  rc : ResponseCollector
  world : World
  events : List Event

/-- The method `LLMClient.StreamChat`, called with the collector as its
writer. The reads `io.ReadAll` makes for the text of the status error are not
listed among the events. -/
def LLMClient.StreamChat (env : Env) (rc : ResponseCollector) (w : World) (up : Upstream) :
    StreamOut :=
  match up with
  | Upstream.marshalError msg =>
    { err := some (utf8 "序列化请求失败: " ++ msg), rc := rc, world := w, events := [] }
  | Upstream.newRequestError msg =>
    { err := some (utf8 "创建请求失败: " ++ msg), rc := rc, world := w, events := [] }
  | Upstream.doError msg =>
    { err := some (utf8 "发送请求失败: " ++ msg), rc := rc, world := w, events := [] }
  | Upstream.response status body =>
    if status ≠ 200 then
      { err := some (utf8 "API请求失败，状态码: " ++ utf8 (toString status) ++ utf8 ", 响应: "
          ++ readAll body),
        rc := rc, world := w, events := [] }
    else
      let p := pump env body rc w
      { err := none, rc := p.rc, world := p.world, events := Event.setHeaders :: p.events }

/-! ## The handler `StreamChat` of `controllers/chat.go` -/

/-- The value under `user_id` in the request context. -/
inductive CtxUser where
  | absent
  | notUint
  | uint (id : Nat)

/-- The struct `ChatInput` after binding; `Options` only goes into the request
sent to the backend. -/
structure ChatInput where
  Messages : List Message
  Model : Bytes
  HistoryID : Bytes

/-- The collector the handler builds for a request. -/
def newCollector (userID : Nat) (input : ChatInput) : ResponseCollector :=
  { UserID := userID, ModelName := input.Model, UserMessages := input.Messages,
    HistoryID := input.HistoryID, LastDoneData := none, ResponseContent := [] }

/-- The in-band error event the handler writes when `StreamChat` returns an
error. -/
def errorMarker (err : Bytes) : Bytes :=
  utf8 "event: error\ndata: \x7b\"error\": \"模型请求失败: " ++ err ++ utf8 "\"\x7d\n\n"

/-- The handler `StreamChat`; `input` is `none` when binding the request body
fails. -/
def StreamChat (env : Env) (w : World) (user : CtxUser) (input : Option ChatInput)
    (up : Upstream) : World × List Event :=
  match user with
  | CtxUser.absent => (w, [Event.jsonResponse 401])
  | CtxUser.notUint => (w, [Event.jsonResponse 500])
  | CtxUser.uint userID =>
    match input with
    | none => (w, [Event.jsonResponse 400])
    | some input =>
      let o := LLMClient.StreamChat env (newCollector userID input) w up
      match o.err with
      | some err =>
        let r := clientWrite env o.world (errorMarker err)
        (r.2.1, Event.setHeaders :: o.events ++ r.2.2 ++ [Event.clientFlush])
      | none => (o.world, Event.setHeaders :: o.events)

/-! ## A concrete environment -/

/-- An identifier in the layout of a UUID, numbered by the call. -/
def sampleUUID (n : Nat) : Bytes :=
  utf8 "00000000-0000-4000-8000-" ++
    List.replicate (12 - (toString n).length) 0x30 ++ utf8 (toString n)

/-- The environment with the codec of `encoding/json` as modelled above, a
database without faults and a client that takes every write. -/
def goEnv : Env where
  unmarshal := unmarshalObject
  marshal := marshalObject
  marshalMessages := marshalMessages
  uuid := sampleUUID
  dbFault := fun _ => false
  client := fun _ data => { n := data.length, failed := false }

/-- A database with no rows. -/
def emptyWorld : World :=
  { db := { rows := [], nextID := 1 }, uuids := 0, dbCalls := 0, clientWrites := 0 }

/-! ## Vocabulary of the statements -/

/-- The string at `message.content` of a chunk, empty when the chunk does not
parse or has no such string. -/
def contentOf (env : Env) (data : Bytes) : Bytes :=
  match env.unmarshal data with
  | some jsonData => (messageContent jsonData).getD []
  | none => []

/-- Whether a chunk parses as a JSON object whose `done` is the boolean
`true`. -/
def isTerminal (env : Env) (data : Bytes) : Bool :=
  match env.unmarshal data with
  | some jsonData => doneTrue jsonData
  | none => false

/-- What a run of `Write` calls leaves behind. -/
structure RunOut where
  rc : ResponseCollector
  world : World
  results : List WriteResult
  events : List Event

/-- The chunks passed to `Write` one after the other. -/
def writeAll (env : Env) : List Bytes → ResponseCollector → World → RunOut
  | [], rc, w => { rc := rc, world := w, results := [], events := [] }
  | c :: rest, rc, w =>
    let o := rc.Write env w c
    let p := writeAll env rest o.rc o.world
    { p with results := o.result :: p.results, events := o.events ++ p.events }

/-- The assistant message each call of a persistence function is given. -/
def persistCalls : List Event → List Message
  | [] => []
  | Event.callCreate _ _ _ ai :: rest => ai :: persistCalls rest
  | Event.callUpdate _ _ ai :: rest => ai :: persistCalls rest
  | _ :: rest => persistCalls rest

/-- The chunks written to the client. -/
def relayed : List Event → List Bytes
  | [] => []
  | Event.clientWrite data _ :: rest => data :: relayed rest
  | _ :: rest => relayed rest

/-- Identifier generation and statements sent to the database. -/
def Event.isStore : Event → Bool
  | Event.uuidNew _ => true
  | Event.dbCreate _ _ => true
  | Event.dbFirst _ _ => true
  | Event.dbSave _ _ => true
  | _ => false

/-- A write to the client that returned an error. -/
def Event.isFailedWrite : Event → Bool
  | Event.clientWrite _ res => res.failed
  | _ => false

/-- The chunks the upstream delivers: the non-empty reads up to the end of the
stream (the first read with an error). -/
def delivered : List ReadResult → List Bytes
  | [] => []
  | r :: rest =>
    if r.err.isSome then (if 0 < r.data.length then [r.data] else [])
    else if 0 < r.data.length then r.data :: delivered rest else delivered rest

/-- Entry into a persistence function, identifier generation, or a statement
sent to the database. -/
def Event.isPersist : Event → Bool
  | Event.callCreate _ _ _ _ => true
  | Event.callUpdate _ _ _ => true
  | e => e.isStore

/-- How a relayed chunk may relate to the upstream chunk it comes from: the same
bytes, or, for a chunk with `done = true`, the serialization of its object with
`history_id` set, followed by a blank line. -/
def Relays (env : Env) (data out : Bytes) : Prop :=
  out = data ∨
    (isTerminal env data = true ∧ ∃ obj hid j, env.unmarshal data = some obj ∧
      env.marshal (obj.set (utf8 "history_id") (JValue.str hid)) = some j ∧
      out = j ++ utf8 "\n\n")

/-- The reads of the upstream body that were performed. -/
def readsOf : List Event → List ReadResult
  | [] => []
  | Event.read r :: rest => r :: readsOf rest
  | _ :: rest => readsOf rest

/-- The reads an upstream body answers until it has ended: up to the first one
with an error, or the `(0, io.EOF)` after the last one. -/
def consumed : List ReadResult → List ReadResult
  | [] => [{ data := [], err := some ReadErr.eof }]
  | r :: rest => if r.err.isSome then [r] else r :: consumed rest

/-- No event but the last is a failed write to the client. -/
def stopsAtFailure : List Event → Bool
  | [] => true
  | [_] => true
  | e :: e' :: rest => !e.isFailedWrite && stopsAtFailure (e' :: rest)

/-! ## Sample data -/

/-- A content chunk, in the shape the backend streams. -/
def chunkHe : Bytes :=
  utf8 "\x7b\"message\":\x7b\"role\":\"assistant\",\"content\":\"He\"\x7d,\"done\":false\x7d\n"

/-- A second content chunk. -/
def chunkLlo : Bytes :=
  utf8 "\x7b\"message\":\x7b\"role\":\"assistant\",\"content\":\"llo\"\x7d,\"done\":false\x7d\n"

/-- A last chunk without content. -/
def chunkDone : Bytes := utf8 "\x7b\"done\":true\x7d\n"

/-- A last chunk that carries content. -/
def chunkDoneX : Bytes :=
  utf8 "\x7b\"message\":\x7b\"role\":\"assistant\",\"content\":\"x\"\x7d,\"done\":true\x7d\n"

/-- A request that starts a session. -/
def sampleInput : ChatInput :=
  { Messages := [{ Role := utf8 "user", Content := utf8 "hi" }], Model := utf8 "deepseek-r1:7b",
    HistoryID := [] }

/-- A request that continues a session nobody has stored. -/
def continuingInput : ChatInput := { sampleInput with HistoryID := utf8 "h-404" }

/-- An upstream body of three chunks that ends regularly. -/
def sampleBody : List ReadResult :=
  [{ data := chunkHe, err := none }, { data := chunkLlo, err := none },
   { data := chunkDone, err := none }, { data := [], err := some ReadErr.eof }]

/-- An upstream body whose second read fails with an error that is not
`io.EOF`. -/
def truncatedBody : List ReadResult :=
  [{ data := chunkHe, err := none }, { data := [], err := some ReadErr.other }]

/-- An upstream body that ends without a chunk with `done = true`. -/
def openBody : List ReadResult :=
  [{ data := chunkHe, err := none }, { data := chunkLlo, err := some ReadErr.eof }]

/-- The collector of a new session that has accumulated the reply. -/
def helloCollector : ResponseCollector :=
  { newCollector 1 sampleInput with ResponseContent := utf8 "Hello" }

/-- The row that session stores. -/
def sampleRow : ChatHistory :=
  { ID := 1, Deleted := false, HistoryID := sampleUUID 0, UserID := 1,
    ModelName := utf8 "deepseek-r1:7b",
    Messages := utf8 ("[\x7b\"role\":\"user\",\"content\":\"hi\"\x7d," ++
      "\x7b\"role\":\"assistant\",\"content\":\"Hello\"\x7d]") }

/-- A table that holds that row with an earlier transcript. -/
def storedWorld : World :=
  { db := { rows := [{ sampleRow with Messages := utf8 "[]" }], nextID := 2 }, uuids := 1,
    dbCalls := 1, clientWrites := 0 }

/-- An environment whose first database statement fails. -/
def faultyDbEnv : Env := { goEnv with dbFault := fun n => n == 0 }

/-- An environment whose client is gone at the second write. -/
def flakyClientEnv : Env :=
  { goEnv with client := fun n d => { n := if n = 1 then 0 else d.length, failed := n == 1 } }

/-! ## The last chunk, in the terms of `Write` -/

/-- The persistence call `Write` makes for the last message of a signed-in
user: `createChatHistoryFromStream` for an empty `HistoryID`, else
`updateChatHistoryFromStream`, whose result is dropped. The first component is
the local `historyID`. -/
def ResponseCollector.persist (env : Env) (rc : ResponseCollector) (w : World) :
    Bytes × World × List Event :=
  if rc.HistoryID = [] then
    createChatHistoryFromStream env w rc.UserID rc.ModelName rc.UserMessages
      { Role := utf8 "assistant", Content := rc.ResponseContent }
  else
    (rc.HistoryID,
      (updateChatHistoryFromStream env w rc.HistoryID rc.UserMessages
        { Role := utf8 "assistant", Content := rc.ResponseContent }).2.1,
      (updateChatHistoryFromStream env w rc.HistoryID rc.UserMessages
        { Role := utf8 "assistant", Content := rc.ResponseContent }).2.2)

/-- The bytes `Write` sends for the last message once `historyID` is known. -/
def outgoing (env : Env) (jsonData : JObject) (historyID data : Bytes) : Bytes :=
  if historyID ≠ [] then
    match env.marshal (jsonData.set (utf8 "history_id") (JValue.str historyID)) with
    | some newJSONContent => newJSONContent ++ utf8 "\n\n"
    | none => data
  else data

/-- The collector as `Write` leaves it after a chunk with `done = true`. -/
def ResponseCollector.atDone (env : Env) (rc : ResponseCollector) (data : Bytes) :
    ResponseCollector :=
  { rc.CollectContent (contentOf env data) with LastDoneData := some data }

/-- Persistence succeeded with the identifier `h`: a row with that `history_id`
was inserted or saved. -/
def PersistedAs (events : List Event) (h : Bytes) : Prop :=
  ∃ row, row.HistoryID = h ∧
    (Event.dbCreate row true ∈ events ∨ Event.dbSave row true ∈ events)

/-! ## `controllers/history.go` -/

/-- ASCII upper-case letters mapped to lower case. -/
def asciiLower (s : Bytes) : Bytes :=
  s.map (fun b => if 0x41 ≤ b && b ≤ 0x5a then b + 0x20 else b)

/-- The members of a JSON object decoded into a `config.Message`, in the order
of the object: a key that matches a `json` tag (letter case ignored) sets the
field from a string, leaves it for `null` and is an error for any other value;
other keys are skipped. -/
def decodeFields : List (Bytes × JValue) → Message → Option Message
  | [], m => some m
  | (k, v) :: rest, m =>
    if asciiLower k = utf8 "role" then
      match v with
      | JValue.str s => decodeFields rest { m with Role := s }
      | JValue.null => decodeFields rest m
      | _ => none
    else if asciiLower k = utf8 "content" then
      match v with
      | JValue.str s => decodeFields rest { m with Content := s }
      | JValue.null => decodeFields rest m
      | _ => none
    else decodeFields rest m

/-- One element of the array decoded into a `config.Message`. -/
def decodeMessage : JValue → Option Message
  | JValue.obj kvs => decodeFields kvs { Role := [], Content := [] }
  | JValue.null => some { Role := [], Content := [] }
  | _ => none

/-- The elements of the array, decoded in order. -/
def decodeMessages : List JValue → Option (List Message)
  | [] => some []
  | v :: rest =>
    match decodeMessage v, decodeMessages rest with
    | some m, some ms => some (m :: ms)
    | _, _ => none

/-- The call `json.Unmarshal([]byte(history.Messages), &messages)` with
`messages` a nil `[]config.Message`: the slice when `err == nil`. The input must
be one JSON array of objects, or `null`.
Not modelled: a key repeated with different letter case (Go takes the last in
the text) and case folding outside ASCII. -/
def unmarshalMessages (data : Bytes) : Option (List Message) :=
  match parseValue (data.length + 1) data with
  | some (JValue.arr xs, rest) => if (skipWS rest).isEmpty then decodeMessages xs else none
  | some (JValue.null, rest) => if (skipWS rest).isEmpty then some [] else none
  | _ => none

/-- The function `models.GetChatHistoriesByUserID`: the live rows of the user,
newest first (rows are created in the order of their keys), or `none` for a
non-nil error. -/
def GetChatHistoriesByUserID (db : DB) (fault : Bool) (userID : Nat) :
    Option (List ChatHistory) :=
  if fault then none
  else some (db.rows.filter (fun r => !r.Deleted && r.UserID = userID)).reverse

/-- One element of `responseHistories`, without the two timestamps. -/
structure HistoryEntry where
  id : Nat
  history_id : Bytes
  model : Bytes
  title : Bytes
deriving DecidableEq

/-- The title the loop of `GetUserChatHistories` computes from the parsed
messages: `len(content) > 30` and `content[:30]` count bytes. -/
def titleOf (messages : List Message) : Bytes :=
  match messages with
  | [] => utf8 "新对话"
  | first :: _ =>
    if 30 < first.Content.length then first.Content.take 30 ++ utf8 "..."
    else first.Content

/-- The loop of `GetUserChatHistories`: a record whose messages do not parse is
skipped. -/
def responseHistories (unmarshal : Bytes → Option (List Message)) :
    List ChatHistory → List HistoryEntry
  | [] => []
  | history :: rest =>
    match unmarshal history.Messages with
    | none => responseHistories unmarshal rest
    | some messages =>
      { id := history.ID, history_id := history.HistoryID, model := history.ModelName,
        title := titleOf messages } :: responseHistories unmarshal rest

/-- The handler `GetUserChatHistories`: the status code and the list sent. -/
def GetUserChatHistories (unmarshal : Bytes → Option (List Message)) (db : DB) (fault : Bool)
    (user : CtxUser) : Nat × List HistoryEntry :=
  match user with
  | CtxUser.absent => (401, [])
  | CtxUser.notUint => (500, [])
  | CtxUser.uint userID =>
    match GetChatHistoriesByUserID db fault userID with
    | none => (500, [])
    | some histories => (200, responseHistories unmarshal histories)

/-- The number of characters of a UTF-8 string: its bytes that are not
continuation bytes. -/
def runeCount (s : Bytes) : Nat := (s.filter (fun b => !(0x80 ≤ b && b < 0xC0))).length

/-- The first `n` characters of a UTF-8 string. -/
def takeRunes : Nat → Bytes → Bytes
  | _, [] => []
  | n, b :: rest =>
    if 0x80 ≤ b && b < 0xC0 then b :: takeRunes n rest
    else
      match n with
      | 0 => []
      | m + 1 => b :: takeRunes m rest

/-- The title as the comment in the handler describes it, by characters: the
content itself up to 30 characters, else its first 30 characters and `...`. -/
def titleByCharacters (content : Bytes) : Bytes :=
  if runeCount content ≤ 30 then content else takeRunes 30 content ++ utf8 "..."

/-! ## More sample data -/

/-- A chunk that ends in the middle of an event. -/
def brokenChunk : Bytes := utf8 "\x7b\"message\":\x7b\"role\":\"assistant\",\"content\":\"He"

/-- The collector of a request without a signed-in user. -/
def anonymousCollector : ResponseCollector := { helloCollector with UserID := 0 }

/-- The collector of user 2, which names the record user 1 owns. -/
def otherUserCollector : ResponseCollector :=
  { helloCollector with UserID := 2, HistoryID := sampleUUID 0 }

/-- A first message of eleven characters, three bytes each. -/
def elevenCharacters : Bytes := utf8 "你好你好你好你好你好你"

/-- A table with one record of user 1 that starts with that message. -/
def cjkDB : DB :=
  { rows := [{ ID := 1, Deleted := false, HistoryID := sampleUUID 0, UserID := 1,
               ModelName := utf8 "deepseek-r1:7b",
               Messages := utf8 ("[\x7b\"role\":\"user\",\"content\":\"你好你好你好你好你好你\"\x7d," ++
                 "\x7b\"role\":\"assistant\",\"content\":\"Hello\"\x7d]") }],
    nextID := 2 }

/-! ## Vocabulary of the codec: what `json.Unmarshal` builds and reads back -/

/-- A Unicode scalar value: a code point that is not a surrogate. -/
def validRune (r : Nat) : Bool := r < 0xD800 || (0xE000 ≤ r && r < 0x110000)

/-- The UTF-8 encoding of a sequence of code points. -/
def encodeRunes : List Nat → Bytes
  | [] => []
  | r :: rs => encodeRune r ++ encodeRunes rs

/-- Well-formed UTF-8: the encoding of a sequence of Unicode scalar values. -/
def WellFormed (s : Bytes) : Prop :=
  ∃ rs : List Nat, (∀ r ∈ rs, validRune r = true) ∧ s = encodeRunes rs

/-- A number text that `json.Marshal` writes: a number literal that decodes to
the `float64` it is the text of. -/
def Stable (t : Bytes) : Prop := isNumberToken t = true ∧ canonNumber t = some t

/-- The integer part of a number literal, as `parseNumber` reads it. -/
def numberInt (bs : Bytes) : Option (Bytes × Bytes) :=
  match bs with
  | 0x30 :: r => some ([0x30], r)
  | _ => digits1 bs

/-- The fraction of a number literal, as `parseNumber` reads it. -/
def numberFrac (bs : Bytes) : Option (Bytes × Bytes) :=
  match bs with
  | 0x2e :: r => (digits1 r).map (fun p => (0x2e :: p.1, p.2))
  | _ => some ([], bs)

/-- The exponent of a number literal, as `parseNumber` reads it. -/
def numberExp (bs : Bytes) : Option (Bytes × Bytes) :=
  match bs with
  | e :: r =>
    if e = 0x65 || e = 0x45 then
      match r with
      | s :: r1 =>
        if s = 0x2b || s = 0x2d then (digits1 r1).map (fun p => (e :: s :: p.1, p.2))
        else (digits1 r).map (fun p => (e :: p.1, p.2))
      | [] => none
    else some ([], bs)
  | [] => some ([], bs)

/-- A number literal after its sign, as `parseNumber` reads it. -/
def numberBody (sign bs : Bytes) : Option (Bytes × Bytes) :=
  match numberInt bs with
  | none => none
  | some (ip, bs2) =>
    match numberFrac bs2 with
    | none => none
    | some (fp, bs3) =>
      match numberExp bs3 with
      | none => none
      | some (xp, bs4) => some (sign ++ ip ++ fp ++ xp, bs4)

/-- The input goes on with something that no number literal continues with. -/
def delimited : Bytes → Bool
  | [] => true
  | b :: _ => !(isDigit b || b = 0x2e || b = 0x65 || b = 0x45)

/-- Insertion of a member into a list sorted by key. -/
def insertKV (m : Bytes × JValue) : JObject → JObject
  | [] => [m]
  | m' :: rest => if bytesLt m'.1 m.1 then m' :: insertKV m rest else m :: m' :: rest

/-- The members of a map in the order of their keys, the order `json.Marshal`
writes them in. -/
def sortKV (kvs : JObject) : JObject := kvs.foldr insertKV []

mutual
/-- A decoded value with the members of every map in the order of their keys: a
Go map has no order of its own, so this is the same value. -/
def canon : JValue → JValue
  | JValue.null => JValue.null
  | JValue.bool b => JValue.bool b
  | JValue.num lit => JValue.num lit
  | JValue.str s => JValue.str s
  | JValue.arr xs => JValue.arr (canonList xs)
  | JValue.obj kvs => JValue.obj (sortKV (canonMembers kvs))
def canonList : List JValue → List JValue
  | [] => []
  | v :: rest => canon v :: canonList rest
def canonMembers : List (Bytes × JValue) → List (Bytes × JValue)
  | [] => []
  | (k, v) :: rest => (k, canon v) :: canonMembers rest
end

mutual
/-- A value as `json.Unmarshal` builds it: strings are well-formed UTF-8, a
number is the text of a `float64`, the keys of a map are distinct. -/
def Decoded : JValue → Prop
  | JValue.null => True
  | JValue.bool _ => True
  | JValue.num lit => Stable lit
  | JValue.str s => WellFormed s
  | JValue.arr xs => DecodedList xs
  | JValue.obj kvs => DecodedMembers kvs ∧ (kvs.map Prod.fst).Nodup
def DecodedList : List JValue → Prop
  | [] => True
  | v :: rest => Decoded v ∧ DecodedList rest
def DecodedMembers : List (Bytes × JValue) → Prop
  | [] => True
  | (k, v) :: rest => (WellFormed k ∧ Decoded v) ∧ DecodedMembers rest
end

/-- The text parses to the value, whatever follows it. -/
def ParsesTo (txt : Bytes) (v : JValue) : Prop :=
  ∀ (fuel : Nat) (rest : Bytes), txt.length ≤ fuel → delimited rest = true →
    parseValue fuel (txt ++ rest) = some (v, rest)

/-- The chunk `out` is the chunk `data` rewritten with the identifier `h`: the
text `json.Marshal` gives for the object of `data` with `history_id` set to `h`,
and a blank line. Read back as JSON it is that object: `history_id` is the
string `h`, and every other key has the value it has in `data`, or is absent as
it is in `data`. -/
def Rewritten (data out h : Bytes) : Prop :=
  ∃ obj back, unmarshalObject data = some obj ∧
    out = marshalValue (JValue.obj (obj.set (utf8 "history_id") (JValue.str h))) ++
      utf8 "\n\n" ∧
    unmarshalObject out = some back ∧
    back.get? (utf8 "history_id") = some (JValue.str h) ∧
    ∀ k, k ≠ utf8 "history_id" → back.get? k = (obj.get? k).map canon

/-- The object `json.Unmarshal` reads from the text of one message. -/
def messageValue (m : Message) : JValue :=
  JValue.obj [(utf8 "role", JValue.str m.Role), (utf8 "content", JValue.str m.Content)]

/-- What the relay may make of a chunk: the chunk itself, or, for a chunk with
`done = true`, the chunk rewritten with some identifier. -/
def RelaysRewritten (env : Env) (data out : Bytes) : Prop :=
  out = data ∨ (isTerminal env data = true ∧ ∃ h, Rewritten data out h)

/-- What `Write` makes of a chunk, with the identifier named: the chunk itself,
or, for a chunk with `done = true`, what the serializer gives for its object
with `history_id` set (followed by a blank line), the identifier being the one
of the session or a new one. -/
def RelaysAs (env : Env) (session : Bytes) (data out : Bytes) : Prop :=
  out = data ∨ (isTerminal env data = true ∧ ∃ obj h j, env.unmarshal data = some obj ∧
    (h = session ∨ ∃ n, h = env.uuid n) ∧
    env.marshal (obj.set (utf8 "history_id") (JValue.str h)) = some j ∧
    out = j ++ utf8 "\n\n")

/-! ## Sample data: a last chunk with counters, an earlier transcript -/

/-- A last chunk as the upstream sends it, with a reason and counters. -/
def ollamaDone : Bytes :=
  utf8 ("\x7b\"model\":\"deepseek-r1:7b\",\"message\":\x7b\"role\":\"assistant\"," ++
    "\"content\":\"\"\x7d,\"done_reason\":\"stop\",\"done\":true," ++
    "\"total_duration\":4883583458,\"eval_count\":282\x7d\n")

/-- That chunk as it is relayed in the sample session: keys in order, also
inside `message`, the identifier among them, and a blank line at the end. -/
def ollamaDoneRelayed : Bytes :=
  utf8 ("\x7b\"done\":true,\"done_reason\":\"stop\",\"eval_count\":282," ++
    "\"history_id\":\"00000000-0000-4000-8000-000000000000\"," ++
    "\"message\":\x7b\"content\":\"\",\"role\":\"assistant\"\x7d," ++
    "\"model\":\"deepseek-r1:7b\",\"total_duration\":4883583458\x7d\n\n")

/-- An upstream body that ends with that chunk. -/
def ollamaBody : List ReadResult :=
  [{ data := chunkHe, err := none }, { data := chunkLlo, err := none },
   { data := ollamaDone, err := none }, { data := [], err := some ReadErr.eof }]

/-- The row of the sample session with the transcript of an earlier exchange. -/
def earlierRow : ChatHistory :=
  { sampleRow with
    Messages := utf8 ("[\x7b\"role\":\"user\",\"content\":\"first question\"\x7d," ++
      "\x7b\"role\":\"assistant\",\"content\":\"first answer\"\x7d]") }

/-- A table that holds that row. -/
def earlierWorld : World :=
  { db := { rows := [earlierRow], nextID := 2 }, uuids := 1, dbCalls := 1, clientWrites := 0 }

/-! ## Lemmas on `Write` -/

theorem collect_nil (rc : ResponseCollector) : rc.CollectContent [] = rc := by
  cases rc; simp [ResponseCollector.CollectContent]

theorem Write_of_not_terminal (env : Env) (rc : ResponseCollector) (w : World) (data : Bytes)
    (h : isTerminal env data = false) :
    rc.Write env w data = forward env (rc.CollectContent (contentOf env data)) w [] data := by
  unfold ResponseCollector.Write
  cases hu : env.unmarshal data with
  | none => simp [contentOf, hu, collect_nil]
  | some obj =>
    simp only [isTerminal, hu] at h
    cases hm : messageContent obj <;> simp [h, contentOf, hu, hm, collect_nil]

theorem Write_of_terminal (env : Env) (rc : ResponseCollector) (w : World) (data : Bytes)
    (h : isTerminal env data = true) :
    ∃ obj, env.unmarshal data = some obj ∧ doneTrue obj = true ∧
    rc.Write env w data =
      ResponseCollector.finish env
        { rc.CollectContent (contentOf env data) with LastDoneData := some data } w data obj := by
  unfold ResponseCollector.Write
  cases hu : env.unmarshal data with
  | none => simp [isTerminal, hu] at h
  | some obj =>
    simp only [isTerminal, hu] at h
    refine ⟨obj, rfl, h, ?_⟩
    cases hm : messageContent obj <;> simp [h, contentOf, hu, hm, collect_nil]

theorem persistCalls_append (a b : List Event) :
    persistCalls (a ++ b) = persistCalls a ++ persistCalls b := by
  induction a with
  | nil => rfl
  | cons e a ih => cases e <;> simp [persistCalls, ih]

theorem relayed_append (a b : List Event) : relayed (a ++ b) = relayed a ++ relayed b := by
  induction a with
  | nil => rfl
  | cons e a ih => cases e <;> simp [relayed, ih]

theorem relayed_of_persist (pre : List Event) (h : pre.all Event.isPersist = true) :
    relayed pre = [] := by
  induction pre with
  | nil => rfl
  | cons e pre ih =>
    simp only [List.all_cons, Bool.and_eq_true] at h
    cases e <;> simp_all [relayed, Event.isPersist, Event.isStore]

theorem create_events (env : Env) (w : World) (u : Nat) (m : Bytes) (p : List Message)
    (ai : Message) :
    (createChatHistoryFromStream env w u m p ai).2.2.all Event.isPersist = true ∧
    persistCalls (createChatHistoryFromStream env w u m p ai).2.2 = [ai] := by
  cases h : env.marshalMessages (p ++ [ai]) with
  | none => simp [createChatHistoryFromStream, h, persistCalls, Event.isPersist, Event.isStore]
  | some ser =>
    simp only [createChatHistoryFromStream, h, dbCreate]
    split <;> simp [persistCalls, Event.isPersist, Event.isStore]

theorem update_events (env : Env) (w : World) (h : Bytes) (p : List Message)
    (ai : Message) :
    (updateChatHistoryFromStream env w h p ai).2.2.all Event.isPersist = true ∧
    persistCalls (updateChatHistoryFromStream env w h p ai).2.2 = [ai] := by
  simp only [updateChatHistoryFromStream, GetChatHistoryByHistoryID]
  split
  · simp [persistCalls, Event.isPersist, Event.isStore]
  · split <;> simp [persistCalls, Event.isPersist, Event.isStore, dbSave]

theorem finish_forward (env : Env) (rc : ResponseCollector) (w : World) (data : Bytes)
    (obj : JObject) (hu : env.unmarshal data = some obj) (hd : doneTrue obj = true)
    (hl : rc.LastDoneData.isSome = true) :
    ∃ w1 pre out, rc.finish env w data obj = forward env rc w1 pre out ∧
      pre.all Event.isPersist = true ∧ Relays env data out ∧
      persistCalls pre =
        (if 0 < rc.UserID then [{ Role := utf8 "assistant", Content := rc.ResponseContent }]
         else []) := by
  have hterm : isTerminal env data = true := by simp [isTerminal, hu, hd]
  unfold ResponseCollector.finish
  by_cases hpos : 0 < rc.UserID
  · simp only [hpos, hl, decide_True, Bool.and_self, if_true]
    by_cases hid : rc.HistoryID = []
    · simp only [hid, if_true]
      obtain ⟨h1, h2⟩ := create_events env w rc.UserID rc.ModelName rc.UserMessages
        { Role := utf8 "assistant", Content := rc.ResponseContent }
      split
      · split
        · rename_i j hj
          exact ⟨_, _, _, rfl, h1, Or.inr ⟨hterm, obj, _, j, hu, hj, rfl⟩, h2⟩
        · exact ⟨_, _, _, rfl, h1, Or.inl rfl, h2⟩
      · exact ⟨_, _, _, rfl, h1, Or.inl rfl, h2⟩
    · simp only [hid, if_false]
      obtain ⟨h1, h2⟩ := update_events env w rc.HistoryID rc.UserMessages
        { Role := utf8 "assistant", Content := rc.ResponseContent }
      simp only [ne_eq, hid, not_false_eq_true, if_true]
      split
      · rename_i j hj
        exact ⟨_, _, _, rfl, h1, Or.inr ⟨hterm, obj, _, j, hu, hj, rfl⟩, h2⟩
      · exact ⟨_, _, _, rfl, h1, Or.inl rfl, h2⟩
  · simp only [hpos, decide_False, Bool.false_and, if_false]
    exact ⟨w, [], data, rfl, rfl, Or.inl rfl, by simp [persistCalls]⟩

theorem forward_rc (env : Env) (rc : ResponseCollector) (w : World) (pre : List Event)
    (out : Bytes) : (forward env rc w pre out).rc = rc := rfl

theorem forward_events (env : Env) (rc : ResponseCollector) (w : World) (pre : List Event)
    (out : Bytes) :
    (forward env rc w pre out).events =
      pre ++ [Event.clientWrite out (forward env rc w pre out).result] := rfl

/-- Every call of `Write` ends in one write to the client; what comes before it
are the effects of persistence, which happen for a chunk with `done = true`
only. -/
theorem Write_forward (env : Env) (rc : ResponseCollector) (w : World) (data : Bytes) :
    ∃ rc1 w1 pre out, rc.Write env w data = forward env rc1 w1 pre out ∧
      rc1.ResponseContent = rc.ResponseContent ++ contentOf env data ∧
      rc1.UserID = rc.UserID ∧
      pre.all Event.isPersist = true ∧ Relays env data out ∧
      persistCalls pre =
        (if isTerminal env data = true ∧ 0 < rc.UserID then
          [{ Role := utf8 "assistant", Content := rc.ResponseContent ++ contentOf env data }]
         else []) ∧
      (isTerminal env data = false → w1 = w ∧ pre = [] ∧ out = data) := by
  cases ht : isTerminal env data with
  | false =>
    refine ⟨_, w, [], data, Write_of_not_terminal env rc w data ht, rfl, rfl, rfl, Or.inl rfl,
      by simp [persistCalls], fun _ => ⟨rfl, rfl, rfl⟩⟩
  | true =>
    obtain ⟨obj, hu, hd, hw⟩ := Write_of_terminal env rc w data ht
    obtain ⟨w1, pre, out, hf, hp, hr, hc⟩ := finish_forward env
      { rc.CollectContent (contentOf env data) with LastDoneData := some data } w data obj hu hd rfl
    refine ⟨_, w1, pre, out, hw.trans hf, rfl, rfl, hp, hr, ?_, fun h => by simp at h⟩
    rw [hc]
    simp [ResponseCollector.CollectContent]

/-- The state of the collector and the persistence calls after a run of
`Write` calls. -/
theorem writeAll_spec (env : Env) (chunks : List Bytes) :
    ∀ (rc : ResponseCollector) (w : World),
      (writeAll env chunks rc w).rc.ResponseContent =
        rc.ResponseContent ++ (chunks.map (contentOf env)).flatten ∧
      (writeAll env chunks rc w).rc.UserID = rc.UserID ∧
      (persistCalls (writeAll env chunks rc w).events).length =
        (if 0 < rc.UserID then (chunks.filter (isTerminal env)).length else 0) ∧
      ((∀ c ∈ chunks, isTerminal env c = false) →
        persistCalls (writeAll env chunks rc w).events = []) := by
  induction chunks with
  | nil => intro rc w; simp [writeAll, persistCalls]
  | cons c rest ih =>
    intro rc w
    obtain ⟨rc1, w1, pre, out, hw, hc, hu, -, -, hp, -⟩ := Write_forward env rc w c
    obtain ⟨ih1, ih2, ih3, ih4⟩ := ih (rc.Write env w c).rc (rc.Write env w c).world
    have hrc : (rc.Write env w c).rc = rc1 := by rw [hw]; rfl
    have hev : persistCalls (rc.Write env w c).events = persistCalls pre := by
      rw [hw, forward_events, persistCalls_append]; simp [persistCalls]
    rw [← hrc] at hc hu
    simp only [writeAll, persistCalls_append, List.length_append, List.map_cons,
      List.flatten_cons]
    refine ⟨by rw [ih1, hc, List.append_assoc], by rw [ih2, hu], ?_, ?_⟩
    · rw [ih3, hev, hp, hu]
      by_cases hpos : 0 < rc.UserID <;> cases ht : isTerminal env c <;>
        simp [hpos, ht, List.filter_cons]
      omega
    · intro hall
      have hc0 : isTerminal env c = false := hall c (List.mem_cons_self _ _)
      rw [hev, hp, ih4 (fun x hx => hall x (List.mem_cons_of_mem _ hx))]
      simp [hc0]

theorem writeAll_append (env : Env) (a b : List Bytes) :
    ∀ (rc : ResponseCollector) (w : World),
      (writeAll env (a ++ b) rc w).rc =
        (writeAll env b (writeAll env a rc w).rc (writeAll env a rc w).world).rc ∧
      (writeAll env (a ++ b) rc w).events =
        (writeAll env a rc w).events ++
          (writeAll env b (writeAll env a rc w).rc (writeAll env a rc w).world).events := by
  induction a with
  | nil => intro rc w; simp [writeAll]
  | cons c rest ih =>
    intro rc w
    obtain ⟨h1, h2⟩ := ih (rc.Write env w c).rc (rc.Write env w c).world
    simp only [List.cons_append, writeAll, List.append_eq, h1, h2, List.append_assoc, and_self]

/-- Claim C1: when the chunks passed to `Write` are such that exactly the last one has
`done = true`, the accumulator after the last `Write` is the concatenation, in
arrival order, of the strings at `message.content` of the chunks (the last one
included; a chunk without such a string adds nothing), and the one persistence
call that is made (none when the user ID is 0) is given that same value as the
assistant message's content. -/
theorem accumulator_is_concatenation (env : Env) (userID : Nat) (input : ChatInput)
    (w : World) (init : List Bytes) (last : Bytes)
    (hinit : ∀ c ∈ init, isTerminal env c = false) (hlast : isTerminal env last = true) :
    (writeAll env (init ++ [last]) (newCollector userID input) w).rc.ResponseContent =
        ((init ++ [last]).map (contentOf env)).flatten ∧
      persistCalls (writeAll env (init ++ [last]) (newCollector userID input) w).events =
        (if 0 < userID then
          [{ Role := utf8 "assistant",
             Content := ((init ++ [last]).map (contentOf env)).flatten }]
         else []) := by
  obtain ⟨h1, h2, -, -⟩ := writeAll_spec env (init ++ [last]) (newCollector userID input) w
  obtain ⟨g1, g2, -, g4⟩ := writeAll_spec env init (newCollector userID input) w
  obtain ⟨-, a2⟩ := writeAll_append env init [last] (newCollector userID input) w
  refine ⟨by simpa [newCollector] using h1, ?_⟩
  obtain ⟨rc1, w1, pre, out, hw, -, -, -, -, hp, -⟩ := Write_forward env
    (writeAll env init (newCollector userID input) w).rc
    (writeAll env init (newCollector userID input) w).world last
  rw [a2, persistCalls_append, g4 hinit]
  simp only [writeAll, List.append_nil, List.nil_append]
  rw [hw, forward_events, persistCalls_append, hp, g1, g2]
  simp [persistCalls, newCollector, hlast]

set_option maxRecDepth 100000 in
/-- Claim C1 at the scenario of the specification: the chunks `He`, `llo` and a last
chunk give the accumulator `Hello`, and persistence is called once, with
`Hello`. -/
theorem accumulator_is_concatenation_witness :
    (∀ c ∈ [chunkHe, chunkLlo], isTerminal goEnv c = false) ∧
      isTerminal goEnv chunkDone = true ∧
      (writeAll goEnv ([chunkHe, chunkLlo] ++ [chunkDone]) (newCollector 1 sampleInput)
        emptyWorld).rc.ResponseContent = utf8 "Hello" ∧
      persistCalls (writeAll goEnv ([chunkHe, chunkLlo] ++ [chunkDone])
        (newCollector 1 sampleInput) emptyWorld).events =
        [{ Role := utf8 "assistant", Content := utf8 "Hello" }] :=
  ⟨by decide, by decide,
    (accumulator_is_concatenation goEnv 1 sampleInput emptyWorld [chunkHe, chunkLlo] chunkDone
      (by decide) (by decide)).1.trans (by decide),
    (accumulator_is_concatenation goEnv 1 sampleInput emptyWorld [chunkHe, chunkLlo] chunkDone
      (by decide) (by decide)).2.trans (by decide)⟩

/-- Claim C7 as amended: there is no latch; the persistence call is made once for
each chunk that parses with `done = true` (never for user ID 0), so at most once
when at most one chunk does, and every chunk, whatever came before it, has its
`message.content` appended to the accumulator. -/
theorem persistence_once_per_done_chunk (env : Env) (rc : ResponseCollector) (w : World)
    (chunks : List Bytes) :
    (persistCalls (writeAll env chunks rc w).events).length =
        (if 0 < rc.UserID then (chunks.filter (isTerminal env)).length else 0) ∧
      (writeAll env chunks rc w).rc.ResponseContent =
        rc.ResponseContent ++ (chunks.map (contentOf env)).flatten :=
  ⟨(writeAll_spec env chunks rc w).2.2.1, (writeAll_spec env chunks rc w).1⟩

set_option maxRecDepth 100000 in
/-- Claim C7 refuted as stated: after a first chunk with `done = true` a second one
is examined again; persistence does not fire at most once, the second call is
given the content the second chunk appended, and two rows are stored. -/
theorem no_latch_counterexample :
    ¬ (persistCalls (writeAll goEnv [chunkDone, chunkDoneX] (newCollector 1 sampleInput)
        emptyWorld).events).length ≤ 1 ∧
      persistCalls (writeAll goEnv [chunkDone, chunkDoneX] (newCollector 1 sampleInput)
        emptyWorld).events =
        [{ Role := utf8 "assistant", Content := [] },
         { Role := utf8 "assistant", Content := utf8 "x" }] ∧
      (writeAll goEnv [chunkDone, chunkDoneX] (newCollector 1 sampleInput)
        emptyWorld).world.db.rows.length = 2 ∧
      (writeAll goEnv [chunkDone, chunkDoneX] (newCollector 1 sampleInput)
        emptyWorld).rc.ResponseContent = utf8 "x" := by
  decide

/-! ## The pump -/

theorem Write_shape (env : Env) (rc : ResponseCollector) (w : World) (data : Bytes) :
    ∃ (w1 : World) (pre : List Event) (out : Bytes),
      (rc.Write env w data).events = pre ++ [Event.clientWrite out (rc.Write env w data).result] ∧
      (rc.Write env w data).result = env.client w1.clientWrites out ∧
      pre.all Event.isPersist = true ∧ Relays env data out ∧
      (isTerminal env data = false → pre = [] ∧ out = data ∧
        (rc.Write env w data).world = { w with clientWrites := w.clientWrites + 1 }) := by
  obtain ⟨rc1, w1, pre, out, hw, -, -, hp, hr, -, hn⟩ := Write_forward env rc w data
  refine ⟨w1, pre, out, by rw [hw]; rfl, by rw [hw]; rfl, hp, hr, fun h => ?_⟩
  obtain ⟨h1, h2, h3⟩ := hn h
  subst h1 h2 h3
  exact ⟨rfl, rfl, by rw [hw]; rfl⟩

theorem relayed_Write (env : Env) (rc : ResponseCollector) (w : World) (data : Bytes) :
    ∃ out, relayed (rc.Write env w data).events = [out] ∧ Relays env data out := by
  obtain ⟨w1, pre, out, he, -, hp, hr, -⟩ := Write_shape env rc w data
  exact ⟨out, by rw [he, relayed_append, relayed_of_persist pre hp]; rfl, hr⟩

theorem Write_ok (env : Env) (hclient : ∀ n d, (env.client n d).failed = false)
    (rc : ResponseCollector) (w : World) (data : Bytes) :
    (rc.Write env w data).result.failed = false := by
  obtain ⟨w1, pre, out, -, hres, -, -, -⟩ := Write_shape env rc w data
  rw [hres]; exact hclient _ _

theorem readsOf_append (a b : List Event) : readsOf (a ++ b) = readsOf a ++ readsOf b := by
  induction a with
  | nil => rfl
  | cons e a ih => cases e <;> simp [readsOf, ih]

theorem readsOf_of_persist (pre : List Event) (h : pre.all Event.isPersist = true) :
    readsOf pre = [] := by
  induction pre with
  | nil => rfl
  | cons e pre ih =>
    simp only [List.all_cons, Bool.and_eq_true] at h
    cases e <;> simp_all [readsOf, Event.isPersist, Event.isStore]

theorem readsOf_Write (env : Env) (rc : ResponseCollector) (w : World) (data : Bytes) :
    readsOf (rc.Write env w data).events = [] := by
  obtain ⟨w1, pre, out, he, -, hp, -, -⟩ := Write_shape env rc w data
  rw [he, readsOf_append, readsOf_of_persist pre hp]; rfl

/-- The pump never reads past the end of the upstream, and reads up to it when
no write to the client fails. -/
theorem pump_reads (env : Env) (body : List ReadResult) :
    ∀ (rc : ResponseCollector) (w : World),
      readsOf (pump env body rc w).events <+: consumed body ∧
      ((∀ n d, (env.client n d).failed = false) →
        readsOf (pump env body rc w).events = consumed body) := by
  induction body with
  | nil => intro rc w; simp [pump, consumed, readsOf]
  | cons r rest ih =>
    intro rc w
    have hW := readsOf_Write env rc w r.data
    by_cases hn : 0 < r.data.length <;> by_cases he : r.err.isSome = true
    · cases hf : (rc.Write env w r.data).result.failed <;>
        simp [pump, consumed, hn, he, hf, readsOf, readsOf_append, hW, ResponseCollector.Flush]
    · cases hf : (rc.Write env w r.data).result.failed
      · obtain ⟨i1, i2⟩ := ih (rc.Write env w r.data).rc (rc.Write env w r.data).world
        simp only [pump, consumed, hn, he, hf, readsOf, if_true, if_false, Bool.false_eq_true,
          List.append_eq, readsOf_append, hW, ResponseCollector.Flush, List.nil_append]
        exact ⟨(List.prefix_cons_inj r).2 i1, fun hc => by rw [i2 hc]; rfl⟩
      · refine ⟨?_, fun hc => ?_⟩
        · simp only [pump, consumed, hn, he, hf, readsOf, if_true, if_false,
            Bool.false_eq_true, hW]
          exact ⟨consumed rest, rfl⟩
        · rw [Write_ok env hc rc w r.data] at hf
          cases hf
    · simp [pump, consumed, hn, he, readsOf]
    · obtain ⟨i1, i2⟩ := ih rc w
      simp only [pump, consumed, hn, he, readsOf, if_false, Bool.false_eq_true]
      exact ⟨(List.prefix_cons_inj r).2 i1, fun hc => by rw [i2 hc]⟩

theorem pump_no_persist (env : Env) (body : List ReadResult)
    (h : ∀ r ∈ body, isTerminal env r.data = false) :
    ∀ (rc : ResponseCollector) (w : World),
      (pump env body rc w).events.all (fun e => !e.isPersist) = true ∧
      (pump env body rc w).world.db = w.db ∧
      (pump env body rc w).world.uuids = w.uuids ∧
      (pump env body rc w).world.dbCalls = w.dbCalls := by
  induction body with
  | nil => intro rc w; simp [pump, Event.isPersist, Event.isStore]
  | cons r rest ih =>
    intro rc w
    have hr : isTerminal env r.data = false := h r (List.mem_cons_self _ _)
    have ih := ih (fun x hx => h x (List.mem_cons_of_mem _ hx))
    obtain ⟨w1, pre, out, he, -, -, -, hn⟩ := Write_shape env rc w r.data
    obtain ⟨h1, h2, h3⟩ := hn hr
    subst h1 h2
    simp only [List.nil_append] at he
    obtain ⟨j1, j2, j3, j4⟩ := ih (rc.Write env w r.data).rc (rc.Write env w r.data).world
    obtain ⟨k1, k2, k3, k4⟩ := ih rc w
    have j2 := j2.trans (congrArg World.db h3)
    have j3 := j3.trans (congrArg World.uuids h3)
    have j4 := j4.trans (congrArg World.dbCalls h3)
    simp only [pump]
    split
    · split
      · simp [he, h3, Event.isPersist, Event.isStore]
      · split
        · simp [he, h3, Event.isPersist, Event.isStore, ResponseCollector.Flush]
        · simp only [List.append_eq, List.all_cons, List.all_append, he, j1, j2, j3, j4]
          simp [Event.isPersist, Event.isStore, ResponseCollector.Flush]
    · split
      · simp [Event.isPersist, Event.isStore]
      · simp only [List.all_cons, k1, k2, k3, k4]
        simp [Event.isPersist, Event.isStore]

theorem StreamChat_ok (env : Env) (rc : ResponseCollector) (w : World)
    (body : List ReadResult) :
    LLMClient.StreamChat env rc w (Upstream.response 200 body) =
      { err := none, rc := (pump env body rc w).rc, world := (pump env body rc w).world,
        events := Event.setHeaders :: (pump env body rc w).events } := by
  simp [LLMClient.StreamChat]

/-- Claim C8: when no chunk of the upstream parses with `done = true`, `StreamChat`
returns nil, no identifier is generated, no statement reaches the database and
the table is unchanged; the reads stop at the end of the upstream, which is
reached when no write to the client fails. -/
theorem no_done_no_persistence (env : Env) (rc : ResponseCollector) (w : World)
    (body : List ReadResult) (h : ∀ r ∈ body, isTerminal env r.data = false) :
    (LLMClient.StreamChat env rc w (Upstream.response 200 body)).err = none ∧
      (∀ e ∈ (LLMClient.StreamChat env rc w (Upstream.response 200 body)).events,
        e.isPersist = false) ∧
      (LLMClient.StreamChat env rc w (Upstream.response 200 body)).world.db = w.db ∧
      (LLMClient.StreamChat env rc w (Upstream.response 200 body)).world.uuids = w.uuids ∧
      (LLMClient.StreamChat env rc w (Upstream.response 200 body)).world.dbCalls = w.dbCalls ∧
      readsOf (LLMClient.StreamChat env rc w (Upstream.response 200 body)).events
        <+: consumed body ∧
      ((∀ n d, (env.client n d).failed = false) →
        readsOf (LLMClient.StreamChat env rc w (Upstream.response 200 body)).events
          = consumed body) := by
  obtain ⟨h1, h2, h3, h4⟩ := pump_no_persist env body h rc w
  obtain ⟨r1, r2⟩ := pump_reads env body rc w
  rw [StreamChat_ok]
  refine ⟨rfl, ?_, h2, h3, h4, r1, r2⟩
  intro e he
  rcases List.mem_cons.1 he with rfl | he
  · rfl
  · simpa using (List.all_eq_true.1 h1) e he

theorem stops_of_all (l : List Event) (h : l.all (fun e => !e.isFailedWrite) = true) :
    stopsAtFailure l = true := by
  induction l with
  | nil => rfl
  | cons e rest ih =>
    simp only [List.all_cons, Bool.and_eq_true] at h
    cases rest with
    | nil => rfl
    | cons e' rest' => simp [stopsAtFailure, h.1, ih h.2]

theorem stops_append (a b : List Event) (ha : a.all (fun e => !e.isFailedWrite) = true)
    (hb : stopsAtFailure b = true) : stopsAtFailure (a ++ b) = true := by
  induction a with
  | nil => exact hb
  | cons e rest ih =>
    simp only [List.all_cons, Bool.and_eq_true] at ha
    have := ih ha.2
    cases hr : rest ++ b with
    | nil => simp [hr, stopsAtFailure]
    | cons e' l => rw [List.cons_append, hr, stopsAtFailure, ← hr, this, ha.1]; rfl

theorem persist_not_failed (pre : List Event) (h : pre.all Event.isPersist = true) :
    pre.all (fun e => !e.isFailedWrite) = true := by
  induction pre with
  | nil => rfl
  | cons e pre ih =>
    simp only [List.all_cons, Bool.and_eq_true] at h
    cases e <;> simp_all [Event.isFailedWrite, Event.isPersist, Event.isStore]

theorem pump_stops (env : Env) (body : List ReadResult) :
    ∀ (rc : ResponseCollector) (w : World),
      stopsAtFailure (pump env body rc w).events = true := by
  induction body with
  | nil => intro rc w; rfl
  | cons r rest ih =>
    intro rc w
    obtain ⟨w1, pre, out, he, -, hp, -, -⟩ := Write_shape env rc w r.data
    have hpre := persist_not_failed pre hp
    simp only [pump]
    split
    · split
      · rw [he, ← List.cons_append]
        exact stops_append _ _ (by simpa [Event.isFailedWrite] using hpre) rfl
      · rename_i hf
        have hall : (Event.read r :: (rc.Write env w r.data).events ++
            ResponseCollector.Flush).all (fun e => !e.isFailedWrite) = true := by
          rw [he]
          simp only [List.cons_append, List.all_cons, List.all_append, hpre]
          simpa [Event.isFailedWrite, ResponseCollector.Flush] using hf
        split
        · exact stops_of_all _ hall
        · exact stops_append
            (Event.read r :: (rc.Write env w r.data).events ++ ResponseCollector.Flush) _ hall
            (ih _ _)
    · split
      · rfl
      · exact stops_append [Event.read r] _ rfl (ih _ _)

theorem stops_index (l : List Event) (h : stopsAtFailure l = true) :
    ∀ (k : Nat) (e : Event), l[k]? = some e → e.isFailedWrite = true → l.length = k + 1 := by
  induction l with
  | nil => intro k e hk; simp at hk
  | cons e0 rest ih =>
    intro k e hk hf
    cases rest with
    | nil =>
      cases k with
      | zero => rfl
      | succ k => simp at hk
    | cons e1 rest' =>
      simp only [stopsAtFailure, Bool.and_eq_true, Bool.not_eq_true'] at h
      cases k with
      | zero =>
        simp only [List.getElem?_cons_zero, Option.some.injEq] at hk
        rw [hk, hf] at h
        exact absurd h.1 (by simp)
      | succ k =>
        simp only [List.getElem?_cons_succ] at hk
        have := ih h.2 k e hk hf
        simp only [List.length_cons] at this ⊢
        omega

/-- Claim C10: in `StreamChat`, a write to the client that fails is the last thing
that happens: if the `k`-th effect is a failed write, there are `k + 1` effects
in all, so no second attempt, no further read of the upstream, no further
`Write` and no persistence follows it. -/
theorem failed_write_ends_stream (env : Env) (rc : ResponseCollector) (w : World)
    (body : List ReadResult) (k : Nat) (e : Event)
    (hk : (LLMClient.StreamChat env rc w (Upstream.response 200 body)).events[k]? = some e)
    (hf : e.isFailedWrite = true) :
    (LLMClient.StreamChat env rc w (Upstream.response 200 body)).events.length = k + 1 := by
  have hs : stopsAtFailure
      (LLMClient.StreamChat env rc w (Upstream.response 200 body)).events = true := by
    rw [StreamChat_ok]
    exact stops_append [Event.setHeaders] _ rfl (pump_stops env body rc w)
  exact stops_index _ hs k e hk hf

/-! ## Persistence -/

theorem create_success (env : Env) (w : World) (u : Nat) (m : Bytes) (p : List Message)
    (ai : Message) (row : ChatHistory)
    (h : Event.dbCreate row true ∈ (createChatHistoryFromStream env w u m p ai).2.2) :
    env.marshalMessages (p ++ [ai]) = some row.Messages ∧ row.UserID = u ∧
      row.ModelName = m ∧ row.HistoryID = env.uuid w.uuids ∧ row.Deleted = false ∧
      (createChatHistoryFromStream env w u m p ai).1 = row.HistoryID ∧
      (createChatHistoryFromStream env w u m p ai).2.1.db.rows = w.db.rows ++ [row] ∧
      (createChatHistoryFromStream env w u m p ai).2.2 =
        [Event.callCreate u m p ai, Event.uuidNew (env.uuid w.uuids),
          Event.dbCreate row true] := by
  cases hm : env.marshalMessages (p ++ [ai]) with
  | none => simp [createChatHistoryFromStream, hm] at h
  | some ser =>
    simp only [createChatHistoryFromStream, hm, dbCreate] at h ⊢
    split at h
    · rename_i hok
      simp only [List.cons_append, List.nil_append, List.mem_cons, List.mem_singleton,
        Event.dbCreate.injEq, reduceCtorEq, false_or, List.not_mem_nil, or_false] at h
      obtain ⟨hrow, -⟩ := h
      subst hrow
      simp [hok]
    · rename_i hok
      simp only [List.cons_append, List.nil_append, List.mem_cons, List.mem_singleton,
        Event.dbCreate.injEq, reduceCtorEq, false_or, List.not_mem_nil, or_false] at h
      exact absurd h.2.symm hok

theorem create_failure (env : Env) (w : World) (u : Nat) (m : Bytes) (p : List Message)
    (ai : Message) (row : ChatHistory)
    (h : Event.dbCreate row false ∈ (createChatHistoryFromStream env w u m p ai).2.2) :
    (createChatHistoryFromStream env w u m p ai).1 = [] ∧
      (createChatHistoryFromStream env w u m p ai).2.1.db = w.db := by
  cases hm : env.marshalMessages (p ++ [ai]) with
  | none => simp [createChatHistoryFromStream, hm] at h
  | some ser =>
    simp only [createChatHistoryFromStream, hm, dbCreate] at h ⊢
    split at h
    · rename_i hok
      simp only [List.cons_append, List.nil_append, List.mem_cons, List.mem_singleton,
        Event.dbCreate.injEq, reduceCtorEq, false_or, List.not_mem_nil, or_false] at h
      rw [← h.2] at hok
      cases hok
    · rename_i hok
      simp [hok]

theorem create_clientWrites (env : Env) (w : World) (u : Nat) (m : Bytes)
    (p : List Message) (ai : Message) :
    (createChatHistoryFromStream env w u m p ai).2.1.clientWrites = w.clientWrites := by
  cases hm : env.marshalMessages (p ++ [ai]) with
  | none => simp [createChatHistoryFromStream, hm]
  | some ser =>
    simp only [createChatHistoryFromStream, hm, dbCreate]
    split <;> rfl

/-- The last message of a new session, for a signed-in user: the effects of
`createChatHistoryFromStream`, then one write to the client, of the original
bytes when no identifier came back. -/
theorem finish_new (env : Env) (rc : ResponseCollector) (w : World) (data : Bytes)
    (obj : JObject) (hpos : 0 < rc.UserID) (hid : rc.HistoryID = [])
    (hl : rc.LastDoneData.isSome = true) :
    ∃ out, rc.finish env w data obj =
        forward env rc
          (createChatHistoryFromStream env w rc.UserID rc.ModelName rc.UserMessages
            { Role := utf8 "assistant", Content := rc.ResponseContent }).2.1
          (createChatHistoryFromStream env w rc.UserID rc.ModelName rc.UserMessages
            { Role := utf8 "assistant", Content := rc.ResponseContent }).2.2 out ∧
      ((createChatHistoryFromStream env w rc.UserID rc.ModelName rc.UserMessages
            { Role := utf8 "assistant", Content := rc.ResponseContent }).1 = [] →
        out = data) := by
  unfold ResponseCollector.finish
  simp only [hpos, hl, decide_True, Bool.and_self, if_true, hid]
  split
  · rename_i hne
    split
    · exact ⟨_, rfl, fun h => absurd h hne⟩
    · exact ⟨_, rfl, fun _ => rfl⟩
  · exact ⟨_, rfl, fun _ => rfl⟩

/-- The write of a chunk with `done = true` in a new session of a signed-in
user. -/
theorem Write_new (env : Env) (rc : ResponseCollector) (w : World) (data : Bytes)
    (hterm : isTerminal env data = true) (huser : 0 < rc.UserID) (hnew : rc.HistoryID = []) :
    ∃ out, rc.Write env w data =
        forward env { rc.CollectContent (contentOf env data) with LastDoneData := some data }
          (createChatHistoryFromStream env w rc.UserID rc.ModelName rc.UserMessages
            { Role := utf8 "assistant",
              Content := rc.ResponseContent ++ contentOf env data }).2.1
          (createChatHistoryFromStream env w rc.UserID rc.ModelName rc.UserMessages
            { Role := utf8 "assistant",
              Content := rc.ResponseContent ++ contentOf env data }).2.2 out ∧
      ((createChatHistoryFromStream env w rc.UserID rc.ModelName rc.UserMessages
            { Role := utf8 "assistant",
              Content := rc.ResponseContent ++ contentOf env data }).1 = [] →
        out = data) := by
  obtain ⟨obj, -, -, hw⟩ := Write_of_terminal env rc w data hterm
  obtain ⟨out, hf, ho⟩ := finish_new env
    { rc.CollectContent (contentOf env data) with LastDoneData := some data } w data obj
    huser hnew rfl
  exact ⟨out, hw.trans hf, ho⟩

/-- Claim C3, new session: when a chunk with `done = true` is written for a user
ID > 0 with an empty `HistoryID` and the insert succeeds, the table has gained
exactly that one row; its `messages` column is the serialization of the prompt
followed by one assistant message holding the accumulated content, and it
carries the session's user ID and model name and the identifier that
`createChatHistoryFromStream` returns. -/
theorem new_session_creates_one_record (env : Env) (rc : ResponseCollector) (w : World)
    (data : Bytes) (row : ChatHistory)
    (hterm : isTerminal env data = true) (huser : 0 < rc.UserID) (hnew : rc.HistoryID = [])
    (hok : Event.dbCreate row true ∈ (rc.Write env w data).events) :
    env.marshalMessages (rc.UserMessages ++
        [{ Role := utf8 "assistant", Content := (rc.Write env w data).rc.ResponseContent }]) =
        some row.Messages ∧
      row.UserID = rc.UserID ∧ row.ModelName = rc.ModelName ∧
      row.HistoryID = (createChatHistoryFromStream env w rc.UserID rc.ModelName rc.UserMessages
        { Role := utf8 "assistant",
          Content := (rc.Write env w data).rc.ResponseContent }).1 ∧
      (rc.Write env w data).world.db.rows = w.db.rows ++ [row] ∧
      (rc.Write env w data).events.filter (fun e => e.isPersist) =
        [Event.callCreate rc.UserID rc.ModelName rc.UserMessages
            { Role := utf8 "assistant", Content := (rc.Write env w data).rc.ResponseContent },
          Event.uuidNew row.HistoryID, Event.dbCreate row true] := by
  obtain ⟨out, hw, -⟩ := Write_new env rc w data hterm huser hnew
  have hA : (rc.Write env w data).rc.ResponseContent =
      rc.ResponseContent ++ contentOf env data := by rw [hw]; rfl
  rw [hA]
  rw [hw, forward_events] at hok
  have hin : Event.dbCreate row true ∈
      (createChatHistoryFromStream env w rc.UserID rc.ModelName rc.UserMessages
        { Role := utf8 "assistant",
          Content := rc.ResponseContent ++ contentOf env data }).2.2 := by
    simpa using hok
  obtain ⟨c1, c2, c3, c4, -, c6, c7, c8⟩ := create_success env w _ _ _ _ row hin
  refine ⟨c1, c2, c3, c6.symm, ?_, ?_⟩
  · rw [hw]; exact c7
  · rw [hw, forward_events, c8, c4]
    simp [Event.isPersist, Event.isStore]

/-- Claim C6, new session, persistence failure: when the insert fails, the chunk with
`done = true` is written to the client exactly once, with the bytes that came
from the upstream; `Write` returns what the client's writer returned for them,
and the table is as before. -/
theorem new_session_create_failure (env : Env) (rc : ResponseCollector) (w : World)
    (data : Bytes) (row : ChatHistory)
    (hterm : isTerminal env data = true) (huser : 0 < rc.UserID) (hnew : rc.HistoryID = [])
    (hfail : Event.dbCreate row false ∈ (rc.Write env w data).events) :
    relayed (rc.Write env w data).events = [data] ∧
      (rc.Write env w data).result = env.client w.clientWrites data ∧
      (rc.Write env w data).events.getLast? =
        some (Event.clientWrite data (env.client w.clientWrites data)) ∧
      (rc.Write env w data).world.db = w.db := by
  obtain ⟨out, hw, ho⟩ := Write_new env rc w data hterm huser hnew
  rw [hw, forward_events] at hfail
  have hin : Event.dbCreate row false ∈
      (createChatHistoryFromStream env w rc.UserID rc.ModelName rc.UserMessages
        { Role := utf8 "assistant",
          Content := rc.ResponseContent ++ contentOf env data }).2.2 := by
    simpa using hfail
  obtain ⟨f1, f2⟩ := create_failure env w _ _ _ _ row hin
  have hout := ho f1
  subst hout
  have hres : (rc.Write env w out).result = env.client w.clientWrites out := by
    rw [hw]
    simp only [forward, clientWrite, create_clientWrites]
  have hp := (create_events env w rc.UserID rc.ModelName rc.UserMessages
    { Role := utf8 "assistant", Content := rc.ResponseContent ++ contentOf env out }).1
  refine ⟨?_, hres, ?_, ?_⟩
  · rw [hw, forward_events, relayed_append, relayed_of_persist _ hp]; rfl
  · rw [← hres, hw, forward_events]; simp
  · rw [hw]; exact f2

/-- After the update of all columns of the row that `first` finds, `first` finds
the updated row. -/
theorem first_after_save (rows : List ChatHistory) (h : Bytes) (old : ChatHistory)
    (ser : Bytes)
    (hfind : rows.find? (fun r => !r.Deleted && r.HistoryID = h) = some old) :
    (rows.map (fun r => if r.ID = old.ID && !r.Deleted then { old with Messages := ser }
        else r)).find? (fun r => !r.Deleted && r.HistoryID = h) =
      some { old with Messages := ser } := by
  have hold : old.Deleted = false ∧ old.HistoryID = h := by
    simpa using List.find?_some hfind
  induction rows with
  | nil => simp at hfind
  | cons r rest ih =>
    simp only [List.map_cons, List.find?_cons] at hfind ⊢
    cases hp : (!r.Deleted && decide (r.HistoryID = h)) with
    | true =>
      rw [hp] at hfind
      simp only [Option.some.injEq] at hfind
      subst hfind
      simp [hold.1, hold.2]
    | false =>
      rw [hp] at hfind
      simp only at hfind
      cases hc : (decide (r.ID = old.ID) && !r.Deleted) with
      | true => simp [hold.1, hold.2]
      | false =>
        simp only [Bool.false_eq_true, if_false, hp]
        exact ih hfind

/-- A successful `updateChatHistoryFromStream` for the identifier `h`: the row
that was stored under `h` has all its columns as before except `messages`, which
is now what the serializer gave for the prompt followed by the assistant
message; a read of `h` that follows returns that row; the table has as many rows
as before and no insert was sent. -/
theorem update_row (env : Env) (w : World) (h : Bytes) (P : List Message)
    (ai : Message) (hsucc : (updateChatHistoryFromStream env w h P ai).1 = true) :
    ∃ old ser, w.db.first h = some old ∧ env.marshalMessages (P ++ [ai]) = some ser ∧
      (updateChatHistoryFromStream env w h P ai).2.1.db.first h =
        some { old with Messages := ser } ∧
      (env.dbFault (updateChatHistoryFromStream env w h P ai).2.1.dbCalls = false →
        (GetChatHistoryByHistoryID env (updateChatHistoryFromStream env w h P ai).2.1 h).1 =
          some { old with Messages := ser }) ∧
      (updateChatHistoryFromStream env w h P ai).2.1.db.rows.length = w.db.rows.length ∧
      (updateChatHistoryFromStream env w h P ai).2.2 =
        [Event.callUpdate h P ai, Event.dbFirst h (some old),
          Event.dbSave { old with Messages := ser } true] := by
  cases hf : env.dbFault w.dbCalls with
  | true => simp [updateChatHistoryFromStream, GetChatHistoryByHistoryID, hf] at hsucc
  | false =>
    cases hg : w.db.first h with
    | none => simp [updateChatHistoryFromStream, GetChatHistoryByHistoryID, hf, hg] at hsucc
    | some old =>
      cases hm : env.marshalMessages (P ++ [ai]) with
      | none =>
        simp [updateChatHistoryFromStream, GetChatHistoryByHistoryID, hf, hg, hm] at hsucc
      | some ser =>
        simp only [updateChatHistoryFromStream, GetChatHistoryByHistoryID, hf, hg, hm, dbSave,
          Bool.false_eq_true, if_false, Bool.not_eq_true', ] at hsucc ⊢
        have hfirst := first_after_save w.db.rows h old ser hg
        refine ⟨old, ser, rfl, rfl, ?_, ?_, ?_, ?_⟩
        · simpa [DB.first, hsucc] using hfirst
        · intro hnf
          simpa [DB.first, hsucc, hnf] using hfirst
        · simp [hsucc]
        · simp [hsucc]

/-! ## Instances -/

set_option maxRecDepth 100000 in
/-- Claim C3 at the sample session: the one row stored is `sampleRow`. -/
theorem new_session_creates_one_record_witness :
    isTerminal goEnv chunkDone = true ∧ 0 < helloCollector.UserID ∧
      Event.dbCreate sampleRow true ∈ (helloCollector.Write goEnv emptyWorld chunkDone).events ∧
      (helloCollector.Write goEnv emptyWorld chunkDone).world.db.rows =
        emptyWorld.db.rows ++ [sampleRow] :=
  ⟨by decide, by decide, by decide,
    (new_session_creates_one_record goEnv helloCollector emptyWorld chunkDone sampleRow
      (by decide) (by decide) rfl (by decide)).2.2.2.2.1⟩

set_option maxRecDepth 100000 in
/-- Claim C6 at a database whose insert fails: the last chunk goes out as it came. -/
theorem new_session_create_failure_witness :
    Event.dbCreate sampleRow false ∈
        (helloCollector.Write faultyDbEnv emptyWorld chunkDone).events ∧
      relayed (helloCollector.Write faultyDbEnv emptyWorld chunkDone).events = [chunkDone] :=
  ⟨by decide,
    (new_session_create_failure faultyDbEnv helloCollector emptyWorld chunkDone sampleRow
      (by decide) (by decide) rfl (by decide)).1⟩

set_option maxRecDepth 100000 in
/-- Claim C8 at a body that ends after two content chunks. -/
theorem no_done_no_persistence_witness :
    (∀ r ∈ openBody, isTerminal goEnv r.data = false) ∧
      (LLMClient.StreamChat goEnv (newCollector 1 sampleInput) emptyWorld
        (Upstream.response 200 openBody)).world.db = emptyWorld.db ∧
      readsOf (LLMClient.StreamChat goEnv (newCollector 1 sampleInput) emptyWorld
        (Upstream.response 200 openBody)).events = openBody :=
  ⟨by decide,
    (no_done_no_persistence goEnv (newCollector 1 sampleInput) emptyWorld openBody
      (by decide)).2.2.1,
    ((no_done_no_persistence goEnv (newCollector 1 sampleInput) emptyWorld openBody
      (by decide)).2.2.2.2.2.2 (fun _ _ => rfl)).trans (by decide)⟩

set_option maxRecDepth 100000 in
/-- Claim C10 at a client that fails at the second write: the sixth effect is the
failed write and there is no seventh, although a third chunk was waiting. -/
theorem failed_write_ends_stream_witness :
    (LLMClient.StreamChat flakyClientEnv (newCollector 1 sampleInput) emptyWorld
        (Upstream.response 200 sampleBody)).events[5]? =
        some (Event.clientWrite chunkLlo { n := 0, failed := true }) ∧
      (LLMClient.StreamChat flakyClientEnv (newCollector 1 sampleInput) emptyWorld
        (Upstream.response 200 sampleBody)).events.length = 6 :=
  ⟨by decide,
    failed_write_ends_stream flakyClientEnv (newCollector 1 sampleInput) emptyWorld sampleBody 5
      (Event.clientWrite chunkLlo { n := 0, failed := true }) (by decide) rfl⟩

set_option maxRecDepth 100000 in
/-- Claim C5 at its failing input: the session names an identifier under which
nothing is stored, `updateChatHistoryFromStream` returns false, and the chunk
written to the client is nevertheless the rewritten one with `history_id`. -/
theorem continuing_failure_still_rewrites :
    (updateChatHistoryFromStream goEnv emptyWorld (utf8 "h-404") sampleInput.Messages
        { Role := utf8 "assistant", Content := [] }).1 = false ∧
      relayed ((newCollector 1 continuingInput).Write goEnv emptyWorld chunkDone).events =
        [utf8 "\x7b\"done\":true,\"history_id\":\"h-404\"\x7d\n\n"] := by
  decide

set_option maxRecDepth 100000 in
/-- Claim C9 at its failing input: the second read of the body fails with an error
other than `io.EOF`; `LLMClient.StreamChat` returns nil and the handler writes
nothing after the one chunk, no error event. -/
theorem read_failure_returns_nil :
    (LLMClient.StreamChat goEnv (newCollector 1 sampleInput) emptyWorld
        (Upstream.response 200 truncatedBody)).err = none ∧
      relayed (StreamChat goEnv emptyWorld (CtxUser.uint 1) (some sampleInput)
        (Upstream.response 200 truncatedBody)).2 = [chunkHe] := by
  decide

/-! ## The last chunk in full -/

theorem finish_eq (env : Env) (rc : ResponseCollector) (w : World) (data : Bytes)
    (obj : JObject) (hpos : 0 < rc.UserID) (hl : rc.LastDoneData.isSome = true) :
    rc.finish env w data obj =
      forward env rc (rc.persist env w).2.1 (rc.persist env w).2.2
        (outgoing env obj (rc.persist env w).1 data) := by
  unfold ResponseCollector.finish ResponseCollector.persist outgoing
  simp only [hpos, hl, decide_True, Bool.and_self, if_true]
  by_cases hid : rc.HistoryID = []
  · simp only [hid, if_true]
    split
    · generalize env.marshal _ = m
      cases m <;> rfl
    · rfl
  · simp only [hid, if_false, ne_eq, not_false_eq_true, if_true]
    generalize env.marshal _ = m
    cases m <;> rfl

/-- The write of a chunk with `done = true` for a signed-in user, in full. -/
theorem Write_done (env : Env) (rc : ResponseCollector) (w : World) (data : Bytes)
    (hterm : isTerminal env data = true) (huser : 0 < rc.UserID) :
    ∃ obj, env.unmarshal data = some obj ∧ doneTrue obj = true ∧
      rc.Write env w data =
        forward env (rc.atDone env data) ((rc.atDone env data).persist env w).2.1
          ((rc.atDone env data).persist env w).2.2
          (outgoing env obj ((rc.atDone env data).persist env w).1 data) := by
  obtain ⟨obj, hu, hd, hw⟩ := Write_of_terminal env rc w data hterm
  exact ⟨obj, hu, hd, hw.trans (finish_eq env _ w data obj huser rfl)⟩

theorem persist_events (env : Env) (rc : ResponseCollector) (w : World) :
    (rc.persist env w).2.2.all Event.isPersist = true := by
  unfold ResponseCollector.persist
  split
  · exact (create_events env w _ _ _ _).1
  · exact (update_events env w _ _ _).1

/-- Claim C11: a chunk that does not parse (or is the JSON `null`, which leaves
the map nil) is written to the client as it came, in the one effect of the call;
`Write` returns what the client's writer returned, and the collector, with its
accumulator, the table and the identifier source are as before. -/
theorem unparsed_chunk_is_forwarded (env : Env) (rc : ResponseCollector) (w : World)
    (data : Bytes) (h : env.unmarshal data = none ∨ env.unmarshal data = some []) :
    (rc.Write env w data).events = [Event.clientWrite data (env.client w.clientWrites data)] ∧
      (rc.Write env w data).result = env.client w.clientWrites data ∧
      (rc.Write env w data).rc = rc ∧
      (rc.Write env w data).world = { w with clientWrites := w.clientWrites + 1 } := by
  have hw : rc.Write env w data = forward env rc w [] data := by
    rcases h with h | h <;>
      simp [ResponseCollector.Write, h, messageContent, doneTrue, JObject.get?]
  rw [hw]
  exact ⟨rfl, rfl, rfl, rfl⟩

theorem Write_anonymous (env : Env) (rc : ResponseCollector) (w : World) (data : Bytes)
    (h0 : rc.UserID = 0) : ∃ rc1, rc.Write env w data = forward env rc1 w [] data := by
  cases ht : isTerminal env data with
  | false => exact ⟨_, Write_of_not_terminal env rc w data ht⟩
  | true =>
    obtain ⟨obj, -, -, hw⟩ := Write_of_terminal env rc w data ht
    refine ⟨rc.atDone env data, hw.trans ?_⟩
    simp [ResponseCollector.finish, ResponseCollector.atDone,
      ResponseCollector.CollectContent, h0]

/-- Claim C16: for a collector whose user ID is 0, whatever its `HistoryID` and
accumulator, the one effect of `Write` is the write of the chunk as it came, also
for a chunk with `done = true`: no identifier is generated, no statement reaches
the database and the table is as before. -/
theorem anonymous_user_never_persists (env : Env) (rc : ResponseCollector) (w : World)
    (data : Bytes) (h0 : rc.UserID = 0) :
    (rc.Write env w data).events = [Event.clientWrite data (env.client w.clientWrites data)] ∧
      relayed (rc.Write env w data).events = [data] ∧
      (rc.Write env w data).result = env.client w.clientWrites data ∧
      (rc.Write env w data).world = { w with clientWrites := w.clientWrites + 1 } := by
  obtain ⟨rc1, hw⟩ := Write_anonymous env rc w data h0
  rw [hw]
  exact ⟨rfl, rfl, rfl, rfl⟩

theorem get_set_self (obj : JObject) (k : Bytes) (v : JValue) :
    (obj.set k v).get? k = some v := by
  induction obj with
  | nil => simp [JObject.set, JObject.get?]
  | cons p rest ih =>
    obtain ⟨k', v'⟩ := p
    by_cases hk : k' = k <;> simp [JObject.set, JObject.get?, hk, ih]

theorem get_set_other (obj : JObject) (k k' : Bytes) (v : JValue) (hne : k' ≠ k) :
    (obj.set k v).get? k' = obj.get? k' := by
  induction obj with
  | nil => simp [JObject.set, JObject.get?, Ne.symm hne]
  | cons p rest ih =>
    obtain ⟨k0, v0⟩ := p
    by_cases hk : k0 = k
    · subst hk
      simp [JObject.set, JObject.get?, Ne.symm hne]
    · by_cases hk' : k0 = k'
      · subst hk'
        simp [JObject.set, JObject.get?, hk]
      · simp [JObject.set, JObject.get?, hk, hk', ih]

theorem persist_identifier (env : Env) (rc : ResponseCollector) (w : World) (h : Bytes)
    (hp : PersistedAs (rc.persist env w).2.2 h) : (rc.persist env w).1 = h := by
  obtain ⟨row, hrow, hin⟩ := hp
  unfold ResponseCollector.persist at hin ⊢
  by_cases hid : rc.HistoryID = []
  · simp only [hid, if_true] at hin ⊢
    rcases hin with hin | hin
    · rw [(create_success env w _ _ _ _ row hin).2.2.2.2.2.1, hrow]
    · exfalso
      revert hin
      cases hm : env.marshalMessages (rc.UserMessages ++
          [{ Role := utf8 "assistant", Content := rc.ResponseContent }]) with
      | none => simp [createChatHistoryFromStream, hm]
      | some ser =>
        simp only [createChatHistoryFromStream, hm, dbCreate]
        split <;> simp
  · simp only [hid, if_false] at hin ⊢
    rcases hin with hin | hin
    · exfalso
      revert hin
      simp only [updateChatHistoryFromStream, GetChatHistoryByHistoryID]
      split
      · simp
      · split <;> simp [dbSave]
    · revert hin
      simp only [updateChatHistoryFromStream, GetChatHistoryByHistoryID]
      split
      · simp
      · rename_i old hold
        split
        · simp
        · simp only [dbSave, List.cons_append, List.nil_append, List.mem_cons,
            List.mem_singleton, Event.dbSave.injEq, reduceCtorEq, false_or, List.not_mem_nil,
            or_false]
          rintro ⟨hr, -⟩
          have hfound : w.db.first rc.HistoryID = some old := by
            revert hold
            split <;> simp
          have := List.find?_some hfound
          simp only [Bool.and_eq_true, Bool.not_eq_true', decide_eq_true_eq] at this
          rw [← hrow, hr]
          exact this.2.symm

theorem mem_persist_of_mem (pre : List Event) (out : Bytes) (res : WriteResult) (h : Bytes)
    (hp : PersistedAs (pre ++ [Event.clientWrite out res]) h) : PersistedAs pre h := by
  obtain ⟨row, hrow, hin⟩ := hp
  refine ⟨row, hrow, ?_⟩
  simpa using hin

/-- Claim C13: when a chunk with `done = true` is handled for a signed-in user,
the effects of `Write` are the whole of the persistence call (create, or load
and save) followed by exactly one write to the client, which is the last effect;
every identifier generation and database statement comes before it. -/
theorem persistence_precedes_terminal_write (env : Env) (rc : ResponseCollector) (w : World)
    (data : Bytes) (hterm : isTerminal env data = true) (huser : 0 < rc.UserID) :
    ∃ out, (rc.Write env w data).events =
        ((rc.atDone env data).persist env w).2.2 ++
          [Event.clientWrite out (rc.Write env w data).result] ∧
      persistCalls ((rc.atDone env data).persist env w).2.2 =
        [{ Role := utf8 "assistant", Content := rc.ResponseContent ++ contentOf env data }] ∧
      relayed (rc.Write env w data).events = [out] ∧
      (∀ i e, (rc.Write env w data).events[i]? = some e → e.isStore = true →
        i + 1 < (rc.Write env w data).events.length) := by
  obtain ⟨obj, -, -, hw⟩ := Write_done env rc w data hterm huser
  have hp := persist_events env (rc.atDone env data) w
  refine ⟨_, by rw [hw]; rfl, ?_, ?_, ?_⟩
  · unfold ResponseCollector.persist
    split
    · exact (create_events env w _ _ _ _).2
    · exact (update_events env w _ _ _).2
  · rw [hw, forward_events, relayed_append, relayed_of_persist _ hp]; rfl
  · intro i e hi hs
    rw [hw, forward_events] at hi ⊢
    rw [List.length_append, List.length_singleton]
    by_contra hlt
    have hge : ((rc.atDone env data).persist env w).2.2.length ≤ i := by omega
    rw [List.getElem?_append_right hge] at hi
    cases hi' : i - ((rc.atDone env data).persist env w).2.2.length with
    | zero =>
      rw [hi'] at hi
      simp only [List.getElem?_cons_zero, Option.some.injEq] at hi
      rw [← hi] at hs
      simp [Event.isStore] at hs
    | succ n =>
      rw [hi'] at hi
      simp at hi

/-- A load and a save that are not disturbed replace the `messages` column of
the row found, and nothing else. -/
theorem update_ok (env : Env) (w : World) (h : Bytes) (P : List Message) (ai : Message)
    (old : ChatHistory) (ser : Bytes)
    (hload : env.dbFault w.dbCalls = false) (hold : w.db.first h = some old)
    (hser : env.marshalMessages (P ++ [ai]) = some ser)
    (hsave : env.dbFault (w.dbCalls + 1) = false) :
    (updateChatHistoryFromStream env w h P ai).1 = true ∧
      (updateChatHistoryFromStream env w h P ai).2.1.db.first h =
        some { old with Messages := ser } ∧
      (updateChatHistoryFromStream env w h P ai).2.1.db.rows.length = w.db.rows.length ∧
      (updateChatHistoryFromStream env w h P ai).2.2 =
        [Event.callUpdate h P ai, Event.dbFirst h (some old),
          Event.dbSave { old with Messages := ser } true] := by
  have hfirst := first_after_save w.db.rows h old ser hold
  simp only [updateChatHistoryFromStream, GetChatHistoryByHistoryID, hload, hold, hser, dbSave,
    hsave, Bool.false_eq_true, if_false, Bool.not_false, if_true]
  refine ⟨trivial, ?_, ?_, ?_⟩
  · simpa [DB.first] using hfirst
  · simp
  · simp

/-- Claim C15: for a chunk with `done = true` and a collector that names an
existing record, whoever the signed-in user is and whoever owns the record, an
undisturbed load and save leave the record with `messages` equal to the
serialization of the prompt followed by the assistant message and every other
column as it was; the effects and the resulting state are the same for every
user ID above 0, so no comparison with the owner takes place. -/
theorem continuing_update_ignores_owner (env : Env) (rc : ResponseCollector) (w : World)
    (data : Bytes) (old : ChatHistory) (ser : Bytes)
    (hterm : isTerminal env data = true) (huser : 0 < rc.UserID) (hcont : rc.HistoryID ≠ [])
    (hold : w.db.first rc.HistoryID = some old)
    (hload : env.dbFault w.dbCalls = false) (hsave : env.dbFault (w.dbCalls + 1) = false)
    (hser : env.marshalMessages (rc.UserMessages ++
      [{ Role := utf8 "assistant", Content := rc.ResponseContent ++ contentOf env data }]) =
        some ser) :
    (rc.Write env w data).world.db.first rc.HistoryID = some { old with Messages := ser } ∧
      (rc.Write env w data).world.db.rows.length = w.db.rows.length ∧
      (rc.Write env w data).events.filter (fun e => e.isPersist) =
        [Event.callUpdate rc.HistoryID rc.UserMessages
            { Role := utf8 "assistant", Content := rc.ResponseContent ++ contentOf env data },
          Event.dbFirst rc.HistoryID (some old),
          Event.dbSave { old with Messages := ser } true] ∧
      (∀ u, 0 < u →
        ({ rc with UserID := u }.Write env w data).world = (rc.Write env w data).world ∧
        ({ rc with UserID := u }.Write env w data).events = (rc.Write env w data).events) := by
  obtain ⟨obj, hu, -, hw⟩ := Write_done env rc w data hterm huser
  have hP : (rc.atDone env data).persist env w =
      (rc.HistoryID,
        (updateChatHistoryFromStream env w rc.HistoryID rc.UserMessages
          { Role := utf8 "assistant",
            Content := rc.ResponseContent ++ contentOf env data }).2.1,
        (updateChatHistoryFromStream env w rc.HistoryID rc.UserMessages
          { Role := utf8 "assistant",
            Content := rc.ResponseContent ++ contentOf env data }).2.2) := by
    simp [ResponseCollector.persist, ResponseCollector.atDone,
      ResponseCollector.CollectContent, hcont]
  obtain ⟨-, u2, u3, u4⟩ := update_ok env w rc.HistoryID rc.UserMessages _ old ser hload hold
    hser hsave
  refine ⟨?_, ?_, ?_, ?_⟩
  · rw [hw, hP]; exact u2
  · rw [hw, hP]; exact u3
  · rw [hw, forward_events, hP, u4]
    simp [Event.isPersist, Event.isStore]
  · intro u hu0
    obtain ⟨obj', hu', -, hw'⟩ := Write_done env { rc with UserID := u } w data hterm hu0
    rw [hu] at hu'
    cases hu'
    have hP' : ({ rc with UserID := u }.atDone env data).persist env w =
        (rc.atDone env data).persist env w := by
      simp [ResponseCollector.persist, ResponseCollector.atDone,
        ResponseCollector.CollectContent, hcont]
    rw [hw, hw', hP']
    exact ⟨rfl, rfl⟩

/-! ## Titles of the history list -/

set_option maxRecDepth 100000 in
/-- Claim C14 at its failing input: the first message has eleven characters, yet
the title is cut to its first ten (thirty bytes) with `...` appended, not the
content itself. -/
theorem title_counts_bytes :
    unmarshalMessages (utf8 ("[\x7b\"role\":\"user\",\"content\":\"你好你好你好你好你好你\"\x7d," ++
        "\x7b\"role\":\"assistant\",\"content\":\"Hello\"\x7d]")) =
        some [{ Role := utf8 "user", Content := elevenCharacters },
              { Role := utf8 "assistant", Content := utf8 "Hello" }] ∧
      runeCount elevenCharacters = 11 ∧
      titleByCharacters elevenCharacters = elevenCharacters ∧
      GetUserChatHistories unmarshalMessages cjkDB false (CtxUser.uint 1) =
        (200, [{ id := 1, history_id := sampleUUID 0, model := utf8 "deepseek-r1:7b",
                 title := utf8 "你好你好你好你好你好..." }]) ∧
      utf8 "你好你好你好你好你好..." ≠ titleByCharacters elevenCharacters := by
  decide

theorem runeCount_ascii (s : Bytes) (h : ∀ b ∈ s, b < 0x80) : runeCount s = s.length := by
  unfold runeCount
  rw [List.filter_eq_self.2]
  intro b hb
  have := h b hb
  simp only [Bool.not_eq_true', Bool.and_eq_false_imp, decide_eq_true_eq, decide_eq_false_iff_not]
  intro h1
  exact absurd this (UInt8.not_lt.2 h1)

theorem takeRunes_ascii (s : Bytes) (h : ∀ b ∈ s, b < 0x80) :
    ∀ n, takeRunes n s = s.take n := by
  induction s with
  | nil => intro n; simp [takeRunes]
  | cons b rest ih =>
    intro n
    have hb : b < 0x80 := h b (List.mem_cons_self _ _)
    have hnc : (decide (0x80 ≤ b) && decide (b < 0xC0)) = false := by
      simp only [Bool.and_eq_false_imp, decide_eq_true_eq, decide_eq_false_iff_not]
      intro h1
      exact absurd hb (UInt8.not_lt.2 h1)
    cases n with
    | zero => simp [takeRunes, hnc]
    | succ m =>
      simp only [takeRunes, hnc, Bool.false_eq_true, if_false, List.take_succ_cons]
      rw [ih (fun x hx => h x (List.mem_cons_of_mem _ hx))]

/-- For a first message made of ASCII characters the title is the one the comment
describes. -/
theorem title_ascii (first : Message) (rest : List Message)
    (h : ∀ b ∈ first.Content, b < 0x80) :
    titleOf (first :: rest) = titleByCharacters first.Content := by
  simp only [titleOf, titleByCharacters, runeCount_ascii _ h, takeRunes_ascii _ h]
  by_cases hl : 30 < first.Content.length
  · simp [hl, Nat.not_le.2 hl]
  · simp [hl, Nat.le_of_not_lt hl]

/-! ## More instances -/

set_option maxRecDepth 100000 in
/-- Claim C11 at a chunk that holds half an event. -/
theorem unparsed_chunk_is_forwarded_witness :
    (goEnv.unmarshal brokenChunk = none ∨ goEnv.unmarshal brokenChunk = some []) ∧
      (helloCollector.Write goEnv emptyWorld brokenChunk).events =
        [Event.clientWrite brokenChunk (goEnv.client emptyWorld.clientWrites brokenChunk)] ∧
      (helloCollector.Write goEnv emptyWorld brokenChunk).rc = helloCollector :=
  ⟨Or.inl rfl,
    (unparsed_chunk_is_forwarded goEnv helloCollector emptyWorld brokenChunk (Or.inl rfl)).1,
    (unparsed_chunk_is_forwarded goEnv helloCollector emptyWorld brokenChunk (Or.inl rfl)).2.2.1⟩

set_option maxRecDepth 100000 in
/-- Claim C13 at the sample session: identifier, insert, then the one write. -/
theorem persistence_precedes_terminal_write_witness :
    isTerminal goEnv chunkDone = true ∧ 0 < helloCollector.UserID ∧
      ∃ out, (helloCollector.Write goEnv emptyWorld chunkDone).events =
          ((helloCollector.atDone goEnv chunkDone).persist goEnv emptyWorld).2.2 ++
            [Event.clientWrite out (helloCollector.Write goEnv emptyWorld chunkDone).result] ∧
        relayed (helloCollector.Write goEnv emptyWorld chunkDone).events = [out] :=
  ⟨by decide, by decide,
    let ⟨out, h1, _, h3, _⟩ := persistence_precedes_terminal_write goEnv helloCollector
      emptyWorld chunkDone (by decide) (by decide)
    ⟨out, h1, h3⟩⟩

set_option maxRecDepth 100000 in
/-- Claim C15 at user 2 finishing a session under the identifier of user 1: the
record of user 1 gets the new transcript and stays with user 1. -/
theorem continuing_update_ignores_owner_witness :
    isTerminal goEnv chunkDone = true ∧ 0 < otherUserCollector.UserID ∧
      storedWorld.db.first otherUserCollector.HistoryID =
        some { sampleRow with Messages := utf8 "[]" } ∧
      (otherUserCollector.Write goEnv storedWorld chunkDone).world.db.first (sampleUUID 0) =
        some sampleRow :=
  ⟨by decide, by decide, by decide,
    (continuing_update_ignores_owner goEnv otherUserCollector storedWorld chunkDone
      { sampleRow with Messages := utf8 "[]" } sampleRow.Messages (by decide) (by decide)
      (by decide) (by decide) rfl rfl (by decide)).1⟩

set_option maxRecDepth 100000 in
/-- Claim C16 at a last chunk for user ID 0. -/
theorem anonymous_user_never_persists_witness :
    anonymousCollector.UserID = 0 ∧
      (anonymousCollector.Write goEnv emptyWorld chunkDone).events =
        [Event.clientWrite chunkDone (goEnv.client emptyWorld.clientWrites chunkDone)] ∧
      (anonymousCollector.Write goEnv emptyWorld chunkDone).world =
        { emptyWorld with clientWrites := emptyWorld.clientWrites + 1 } :=
  ⟨rfl, (anonymous_user_never_persists goEnv anonymousCollector emptyWorld chunkDone rfl).1,
    (anonymous_user_never_persists goEnv anonymousCollector emptyWorld chunkDone rfl).2.2.2⟩

/-! ## The codec: what is written reads back -/

theorem u8_lt (a b : UInt8) : a < b ↔ a.toNat < b.toNat := by
  rw [UInt8.lt_def, BitVec.lt_def]; rfl
theorem u8_le (a b : UInt8) : a ≤ b ↔ a.toNat ≤ b.toNat := by
  rw [UInt8.le_def, BitVec.le_def]; rfl
theorem u8_eq (a b : UInt8) : a = b ↔ a.toNat = b.toNat := ⟨fun h => h ▸ rfl, UInt8.ext⟩
theorem u8_ofNat (n : Nat) : (UInt8.ofNat n).toNat = n % 256 := by
  simp [UInt8.ofNat, UInt8.toNat]

theorem pair_eq {a c : Nat} {b d : Nat} (h1 : a = c) (h2 : b = d) : (a, b) = (c, d) := by
  rw [h1, h2]

theorem decodeRune_encodeRune (r : Nat) (hv : validRune r = true) (h : 0x80 ≤ r) (X : Bytes) :
    decodeRune (encodeRune r ++ X) = (r, (encodeRune r).length) := by
  unfold validRune at hv
  simp only [Bool.or_eq_true, Bool.and_eq_true, decide_eq_true_eq] at hv
  unfold encodeRune
  by_cases h1 : r < 0x800
  · rw [if_neg (by omega), if_pos h1]
    simp only [List.cons_append, List.nil_append, decodeRune, u8_ofNat, isCont, List.length_cons,
      List.length_nil]
    rw [if_neg (by omega), if_pos (by simp; omega)]
    simp only [Bool.and_eq_true, decide_eq_true_eq]
    rw [if_pos (by omega)]
    exact pair_eq (by omega) (by omega)
  · by_cases h2 : r < 0x10000
    · rw [if_neg (by omega), if_neg h1, if_pos h2]
      simp only [List.cons_append, List.nil_append, decodeRune, u8_ofNat, isCont, List.length_cons,
        List.length_nil]
      rw [if_neg (by omega), if_neg (by simp; omega), if_pos (by simp; omega)]
      simp only [Bool.and_eq_true, decide_eq_true_eq]
      rw [if_pos (by split_ifs <;> omega)]
      exact pair_eq (by omega) (by omega)
    · rw [if_neg (by omega), if_neg h1, if_neg h2]
      simp only [List.cons_append, List.nil_append, decodeRune, u8_ofNat, isCont, List.length_cons,
        List.length_nil]
      rw [if_neg (by omega), if_neg (by simp; omega), if_neg (by simp; omega),
        if_pos (by simp; omega)]
      simp only [Bool.and_eq_true, decide_eq_true_eq]
      rw [if_pos (by split_ifs <;> omega)]
      exact pair_eq (by omega) (by omega)

theorem encodeRune_head (r : Nat) (h : 0x80 ≤ r) (hv : validRune r = true) :
    ∃ b t, encodeRune r = b :: t ∧ ¬ b < 0x80 ∧ b ≠ 0x22 ∧ b ≠ 0x5c ∧ ¬ b < 0x20 := by
  unfold validRune at hv
  simp only [Bool.or_eq_true, Bool.and_eq_true, decide_eq_true_eq] at hv
  have key : ∀ n : Nat, 0x80 ≤ n → n < 256 →
      ¬ UInt8.ofNat n < 0x80 ∧ UInt8.ofNat n ≠ 0x22 ∧ UInt8.ofNat n ≠ 0x5c ∧
        ¬ UInt8.ofNat n < 0x20 := by
    intro n h1 h2
    have e1 : (UInt8.ofNat n).toNat = n := by rw [u8_ofNat]; omega
    refine ⟨?_, ?_, ?_, ?_⟩
    · rw [u8_lt, e1]; show ¬ n < 128; omega
    · rw [Ne, u8_eq, e1]; show ¬ n = 34; omega
    · rw [Ne, u8_eq, e1]; show ¬ n = 92; omega
    · rw [u8_lt, e1]; show ¬ n < 32; omega
  unfold encodeRune
  by_cases h1 : r < 0x800
  · rw [if_neg (by omega), if_pos h1]
    exact ⟨_, _, rfl, key _ (by omega) (by omega)⟩
  · by_cases h2 : r < 0x10000
    · rw [if_neg (by omega), if_neg h1, if_pos h2]
      exact ⟨_, _, rfl, key _ (by omega) (by omega)⟩
    · rw [if_neg (by omega), if_neg h1, if_neg h2]
      exact ⟨_, _, rfl, key _ (by omega) (by omega)⟩

theorem encodeRune_length (r : Nat) : 1 ≤ (encodeRune r).length := by
  unfold encodeRune
  split_ifs <;> simp

theorem hexVal_hexDigit : ∀ n, n < 16 → hexVal (hexDigit n) = some n := by decide

theorem getu4_hex (hi lo : Nat) (h1 : hi < 16) (h2 : lo < 16) (X : Bytes) :
    getu4 (0x30 :: 0x30 :: hexDigit hi :: hexDigit lo :: X) = some (hi * 16 + lo, X) := by
  have h0 : hexVal 0x30 = some 0 := by decide
  simp only [getu4, h0, hexVal_hexDigit hi h1, hexVal_hexDigit lo h2]
  simp

theorem parseString_u00 (hi lo : Nat) (h1 : hi < 16) (h2 : lo < 16) (pf : Nat) (X acc : Bytes) :
    parseString (pf + 1) (0x5c :: 0x75 :: 0x30 :: 0x30 :: hexDigit hi :: hexDigit lo :: X) acc =
      parseString pf X (acc ++ encodeRune (hi * 16 + lo)) := by
  have e1 : unescapeU (hi * 16 + lo) X = (hi * 16 + lo, X) := by
    unfold unescapeU
    rw [if_neg]
    simp only [Bool.and_eq_true, decide_eq_true_eq]
    omega
  rw [parseString]
  simp only [getu4_hex hi lo h1 h2, e1]
  simp

theorem parseString_escapeByte (b : UInt8) (hb : b < 0x80) (pf : Nat) (X acc : Bytes) :
    parseString (pf + 1) (escapeByte b ++ X) acc = parseString pf X (acc ++ [b]) := by
  by_cases c1 : b = 0x22
  · subst c1; simp [escapeByte, parseString]
  by_cases c2 : b = 0x5c
  · subst c2; simp [escapeByte, parseString]
  by_cases c3 : b = 0x08
  · subst c3; simp [escapeByte, parseString]
  by_cases c4 : b = 0x0c
  · subst c4; simp [escapeByte, parseString]
  by_cases c5 : b = 0x0a
  · subst c5; simp [escapeByte, parseString]
  by_cases c6 : b = 0x0d
  · subst c6; simp [escapeByte, parseString]
  by_cases c7 : b = 0x09
  · subst c7; simp [escapeByte, parseString]
  have hn : b.toNat < 128 := (u8_lt _ _).1 hb
  by_cases c8 : (b < 0x20 || b = 0x3c || b = 0x3e || b = 0x26) = true
  · have e : escapeByte b =
        [0x5c, 0x75, 0x30, 0x30, hexDigit (b.toNat / 16), hexDigit (b.toNat % 16)] := by
      simp only [escapeByte, c1, c2, c3, c4, c5, c6, c7, c8]
      simp
    rw [e]
    simp only [List.cons_append, List.nil_append]
    rw [parseString_u00 _ _ (by omega) (by omega)]
    have e2 : b.toNat / 16 * 16 + b.toNat % 16 = b.toNat := by omega
    have e3 : encodeRune b.toNat = [b] := by
      unfold encodeRune
      rw [if_pos hn]
      congr 1
      apply UInt8.ext
      rw [u8_ofNat]
      omega
    rw [e2, e3]
  · have e : escapeByte b = [b] := by
      simp only [escapeByte, c1, c2, c3, c4, c5, c6, c7, c8]
      simp
    have c9 : ¬ b < 0x20 := by
      intro h
      apply c8
      simp [h]
    rw [e]
    simp only [List.cons_append, List.nil_append]
    simp [parseString, c1, c2, c9, hb]

theorem encodeRune_tail (r : Nat) (h : 0x80 ≤ r) : 2 ≤ (encodeRune r).length := by
  unfold encodeRune
  rw [if_neg (by omega)]
  split_ifs <;> simp

theorem parseString_u (rr : Nat) (a b c d : UInt8) (X : Bytes) (pf : Nat) (acc : Bytes)
    (hg : getu4 (a :: b :: c :: d :: X) = some (rr, X)) (hs : ¬ (0xD800 ≤ rr ∧ rr < 0xE000)) :
    parseString (pf + 1) (0x5c :: 0x75 :: a :: b :: c :: d :: X) acc =
      parseString pf X (acc ++ encodeRune rr) := by
  have e1 : unescapeU rr X = (rr, X) := by
    unfold unescapeU
    rw [if_neg]
    simpa only [Bool.and_eq_true, decide_eq_true_eq] using hs
  rw [parseString]
  simp only [hg, e1]
  simp

theorem parseString_copy (r : Nat) (hv : validRune r = true) (h : 0x80 ≤ r) (pf : Nat)
    (X acc : Bytes) :
    parseString (pf + 1) (encodeRune r ++ X) acc = parseString pf X (acc ++ encodeRune r) := by
  obtain ⟨b, t, he, h1, h2, h3, h4⟩ := encodeRune_head r h hv
  have hd := decodeRune_encodeRune r hv h X
  rw [he] at hd ⊢
  simp only [List.cons_append] at hd ⊢
  simp only [parseString, h1, h2, h3, h4, if_false, List.append_eq]
  simp only [hd, List.length_cons, Nat.add_sub_cancel, List.drop_left]
  rw [← he]

theorem escapeRunes_step (r : Nat) (hv : validRune r = true) (h : 0x80 ≤ r) (ef : Nat)
    (T : Bytes) :
    escapeRunes (ef + 1) (encodeRune r ++ T) =
      (if r = 0x2028 then utf8 "\\u2028" else if r = 0x2029 then utf8 "\\u2029"
        else encodeRune r) ++ escapeRunes ef T := by
  obtain ⟨b, t, he, h1, h2, h3, h4⟩ := encodeRune_head r h hv
  have hd := decodeRune_encodeRune r hv h T
  have hl := encodeRune_tail r h
  rw [he] at hd hl
  simp only [List.cons_append] at hd
  have hne : ¬ (t.length + 1 = 1) := by
    simp only [List.length_cons] at hl
    omega
  rw [he]
  simp only [List.cons_append, escapeRunes, h1, if_false, List.append_eq]
  simp only [hd, List.length_cons,
    Nat.add_sub_cancel, List.drop_left, hne, decide_False, Bool.and_false, Bool.false_eq_true,
    if_false]
  by_cases c1 : r = 0x2028
  · simp only [c1, if_true]
  · by_cases c2 : r = 0x2029
    · subst c2
      simp
    · simp only [c1, c2, if_false]
      rw [← List.cons_append, List.take_left' (by simp)]

theorem parseString_escapeRunes (rs : List Nat) (hrs : ∀ r ∈ rs, validRune r = true) :
    ∀ (ef pf : Nat) (acc rest : Bytes), (encodeRunes rs).length ≤ ef → rs.length < pf →
      parseString pf (escapeRunes ef (encodeRunes rs) ++ 0x22 :: rest) acc =
        some (acc ++ encodeRunes rs, rest) := by
  induction rs with
  | nil =>
    intro ef pf acc rest _ hpf
    obtain ⟨pf, rfl⟩ : ∃ k, pf = k + 1 := ⟨pf - 1, by simp at hpf; omega⟩
    have : escapeRunes ef (encodeRunes []) = [] := by
      cases ef <;> simp [escapeRunes, encodeRunes]
    rw [this]
    simp [parseString, encodeRunes]
  | cons r rs ih =>
    intro ef pf acc rest hef hpf
    have hv := hrs r (List.mem_cons_self _ _)
    have hrs1 : ∀ x ∈ rs, validRune x = true := fun x hx => hrs x (List.mem_cons_of_mem _ hx)
    have hl1 := encodeRune_length r
    simp only [encodeRunes, List.length_append] at hef ⊢
    obtain ⟨ef, rfl⟩ : ∃ k, ef = k + 1 := ⟨ef - 1, by omega⟩
    obtain ⟨pf, rfl⟩ : ∃ k, pf = k + 1 := ⟨pf - 1, by simp at hpf; omega⟩
    have hpf1 : rs.length < pf := by simp at hpf; omega
    by_cases c : r < 0x80
    · have e : encodeRune r = [UInt8.ofNat r] := by unfold encodeRune; rw [if_pos c]
      have hb : UInt8.ofNat r < 0x80 := by
        rw [u8_lt, u8_ofNat]; show r % 256 < 128; omega
      rw [e] at hef ⊢
      simp only [List.cons_append, List.nil_append, escapeRunes, hb, if_true, List.append_assoc,
        List.append_eq]
      rw [parseString_escapeByte _ hb, ih hrs1 ef pf _ rest (by simp at hef; omega) hpf1]
      simp
    · have c1 : 0x80 ≤ r := by omega
      have hl2 := encodeRune_tail r c1
      rw [escapeRunes_step r hv c1, List.append_assoc]
      have key : ∀ Y, parseString (pf + 1)
          ((if r = 0x2028 then utf8 "\\u2028" else if r = 0x2029 then utf8 "\\u2029"
            else encodeRune r) ++ Y) acc = parseString pf Y (acc ++ encodeRune r) := by
        intro Y
        by_cases d1 : r = 0x2028
        · subst d1
          have : utf8 "\\u2028" = [0x5c, 0x75, 0x32, 0x30, 0x32, 0x38] := by decide
          simp only [if_true, this, List.cons_append, List.nil_append]
          exact parseString_u _ _ _ _ _ _ _ _ (by simp [getu4, hexVal, UInt8.size]) (by omega)
        · by_cases d2 : r = 0x2029
          · subst d2
            have : utf8 "\\u2029" = [0x5c, 0x75, 0x32, 0x30, 0x32, 0x39] := by decide
            simp only [if_true, this, List.cons_append, List.nil_append]
            exact parseString_u _ _ _ _ _ _ _ _ (by simp [getu4, hexVal, UInt8.size]) (by omega)
          · simp only [d1, d2, if_false]
            exact parseString_copy r hv c1 pf Y acc
      rw [key, ih hrs1 ef pf _ rest (by omega) hpf1]
      simp

theorem shortest_sound (f : F64) (d : Bytes × Int) :
    ∀ (fuel n : Nat) (r : Bytes × Int), shortest f d fuel n = some r → readsBack f r = true := by
  intro fuel
  induction fuel with
  | zero => intro n r h; simp [shortest] at h
  | succ k ih =>
    intro n r h
    rw [shortest] at h
    split_ifs at h with c1 c2 c3 c4 c5 c6
    · cases h; exact c2
    · simp only [Bool.and_eq_true] at c3
      cases h; exact c3.2
    · simp only [Bool.and_eq_true] at c3
      cases h; exact c3.1
    · cases h; exact c5
    · cases h; exact c6
    · exact ih _ _ h

set_option maxRecDepth 100000 in
theorem stable_zero : Stable [0x30] ∧ Stable [0x2d, 0x30] := by
  unfold Stable
  decide

theorem canonNumber_stable (lit t : Bytes) (h : canonNumber lit = some t) : Stable t := by
  unfold canonNumber at h
  cases hf : decodeNumber lit with
  | none => rw [hf] at h; simp at h
  | some f =>
    rw [hf] at h
    simp only [Option.some_bind] at h
    unfold formatFloat at h
    split_ifs at h with c1 c2
    · cases h; exact stable_zero.2
    · cases h; exact stable_zero.1
    · cases hs : shortest f (exactDecimal f) ((exactDecimal f).1.length + 1) 1 with
      | none => rw [hs] at h; simp at h
      | some d =>
        rw [hs] at h
        simp only [Option.map_some', Option.some.injEq] at h
        have hr := shortest_sound f _ _ _ _ hs
        unfold readsBack at hr
        simp only [Bool.and_eq_true, decide_eq_true_eq] at hr
        rw [h] at hr
        refine ⟨hr.1, ?_⟩
        unfold canonNumber
        rw [hr.2]
        simp only [Option.some_bind]
        unfold formatFloat
        rw [if_neg c1, hs]
        simp [h]

theorem parseNumber_minus (r : Bytes) : parseNumber (0x2d :: r) = numberBody [0x2d] r := rfl

theorem parseNumber_plain (bs : Bytes) (h : ∀ r, bs ≠ 0x2d :: r) :
    parseNumber bs = numberBody [] bs := by
  unfold parseNumber
  split
  rename_i sign bs1 heq
  split at heq
  · exact absurd rfl (h _)
  · cases heq
    rfl

theorem digits1_eq (bs : Bytes) :
    digits1 bs = if bs.takeWhile isDigit = [] then none
      else some (bs.takeWhile isDigit, bs.dropWhile isDigit) := by
  unfold digits1
  rw [List.span_eq_take_drop]
  cases h : bs.takeWhile isDigit <;> simp

theorem takeWhile_delimited (l rest : Bytes) (h : delimited rest = true) :
    (l ++ rest).takeWhile isDigit = l.takeWhile isDigit ∧
      (l ++ rest).dropWhile isDigit = l.dropWhile isDigit ++ rest := by
  induction l with
  | nil =>
    cases rest with
    | nil => simp
    | cons b r =>
      have hb : isDigit b = false := by
        simp only [delimited, Bool.not_eq_true', Bool.or_eq_false_iff] at h
        exact h.1.1.1
      simp [List.takeWhile_cons, List.dropWhile_cons, hb]
  | cons a l ih =>
    cases ha : isDigit a <;> simp [List.takeWhile_cons, List.dropWhile_cons, ha, ih]

theorem digits1_append (l rest x r : Bytes) (h : digits1 l = some (x, r))
    (hd : delimited rest = true) : digits1 (l ++ rest) = some (x, r ++ rest) := by
  rw [digits1_eq] at h ⊢
  rw [(takeWhile_delimited l rest hd).1, (takeWhile_delimited l rest hd).2]
  split_ifs at h ⊢ with c
  cases h
  rfl

theorem digits1_head (l x r : Bytes) (h : digits1 l = some (x, r)) :
    ∃ b l', l = b :: l' ∧ isDigit b = true := by
  rw [digits1_eq] at h
  split_ifs at h with c
  cases l with
  | nil => simp at c
  | cons b l' =>
    refine ⟨b, l', rfl, ?_⟩
    cases hb : isDigit b
    · simp [List.takeWhile_cons, hb] at c
    · rfl

theorem numberInt_ne (b : UInt8) (l : Bytes) (h : b ≠ 0x30) :
    numberInt (b :: l) = digits1 (b :: l) := by
  unfold numberInt
  split
  · rename_i heq
    cases heq
    exact absurd rfl h
  · rfl

theorem numberInt_append (l rest x r : Bytes) (h : numberInt l = some (x, r))
    (hd : delimited rest = true) : numberInt (l ++ rest) = some (x, r ++ rest) := by
  cases l with
  | nil => simp [numberInt, digits1_eq] at h
  | cons b l' =>
    by_cases c : b = 0x30
    · subst c
      simp only [numberInt, Option.some.injEq, Prod.mk.injEq] at h
      obtain ⟨rfl, rfl⟩ := h
      rfl
    · rw [numberInt_ne b l' c] at h
      rw [List.cons_append, numberInt_ne b _ c, ← List.cons_append]
      exact digits1_append _ _ _ _ h hd

theorem numberInt_head (l x r : Bytes) (h : numberInt l = some (x, r)) :
    ∃ b l', l = b :: l' ∧ isDigit b = true := by
  cases l with
  | nil => simp [numberInt, digits1_eq] at h
  | cons b l' =>
    by_cases c : b = 0x30
    · subst c
      exact ⟨_, _, rfl, by decide⟩
    · rw [numberInt_ne b l' c] at h
      exact digits1_head _ _ _ h

theorem numberFrac_ne (b : UInt8) (l : Bytes) (h : b ≠ 0x2e) :
    numberFrac (b :: l) = some ([], b :: l) := by
  unfold numberFrac
  split
  · rename_i heq
    cases heq
    exact absurd rfl h
  · rfl

theorem numberFrac_append (l rest x r : Bytes) (h : numberFrac l = some (x, r))
    (hd : delimited rest = true) : numberFrac (l ++ rest) = some (x, r ++ rest) := by
  cases l with
  | nil =>
    simp only [numberFrac, Option.some.injEq, Prod.mk.injEq] at h
    obtain ⟨rfl, rfl⟩ := h
    cases rest with
    | nil => rfl
    | cons b r =>
      have hb : b ≠ 0x2e := by
        simp only [delimited, Bool.not_eq_true', Bool.or_eq_false_iff, decide_eq_false_iff_not] at hd
        exact hd.1.1.2
      exact numberFrac_ne b r hb
  | cons b l' =>
    by_cases c : b = 0x2e
    · subst c
      simp only [numberFrac] at h ⊢
      cases hq : digits1 l' with
      | none => rw [hq] at h; simp at h
      | some p =>
        rw [hq] at h
        simp only [Option.map_some', Option.some.injEq, Prod.mk.injEq] at h
        obtain ⟨rfl, rfl⟩ := h
        simp only [List.cons_append]
        rw [digits1_append l' rest p.1 p.2 hq hd]
        rfl
    · rw [numberFrac_ne b l' c] at h
      simp only [Option.some.injEq, Prod.mk.injEq] at h
      obtain ⟨rfl, rfl⟩ := h
      exact numberFrac_ne b _ c

theorem numberExp_append (l rest x r : Bytes) (h : numberExp l = some (x, r))
    (hd : delimited rest = true) : numberExp (l ++ rest) = some (x, r ++ rest) := by
  cases l with
  | nil =>
    simp only [numberExp, Option.some.injEq, Prod.mk.injEq] at h
    obtain ⟨rfl, rfl⟩ := h
    cases rest with
    | nil => rfl
    | cons b r =>
      have hb : (b = 0x65 || b = 0x45) = false := by
        simp only [delimited, Bool.not_eq_true', Bool.or_eq_false_iff] at hd
        simp [hd.1.2, hd.2]
      simp [numberExp, hb]
  | cons e l1 =>
    cases he : (e = 0x65 || e = 0x45) with
    | false =>
      simp only [numberExp, he, Bool.false_eq_true, if_false, Option.some.injEq,
        Prod.mk.injEq] at h
      obtain ⟨rfl, rfl⟩ := h
      simp [numberExp, he]
    | true =>
      cases l1 with
      | nil => simp [numberExp, he] at h
      | cons s l2 =>
        cases hs : (s = 0x2b || s = 0x2d) with
        | true =>
          simp only [numberExp, he, hs, if_true] at h
          cases hq : digits1 l2 with
          | none => rw [hq] at h; simp at h
          | some p =>
            rw [hq] at h
            simp only [Option.map_some', Option.some.injEq, Prod.mk.injEq] at h
            obtain ⟨rfl, rfl⟩ := h
            simp only [numberExp, he, hs, if_true, List.cons_append]
            rw [digits1_append l2 rest p.1 p.2 hq hd]
            rfl
        | false =>
          simp only [numberExp, he, hs, if_true, Bool.false_eq_true, if_false] at h
          cases hq : digits1 (s :: l2) with
          | none => rw [hq] at h; simp at h
          | some p =>
            rw [hq] at h
            simp only [Option.map_some', Option.some.injEq, Prod.mk.injEq] at h
            obtain ⟨rfl, rfl⟩ := h
            simp only [numberExp, he, hs, if_true, Bool.false_eq_true, if_false,
              List.cons_append]
            rw [← List.cons_append, digits1_append (s :: l2) rest p.1 p.2 hq hd]
            rfl

theorem numberBody_append (sign l rest x r : Bytes) (h : numberBody sign l = some (x, r))
    (hd : delimited rest = true) : numberBody sign (l ++ rest) = some (x, r ++ rest) := by
  unfold numberBody at h ⊢
  cases h1 : numberInt l with
  | none => rw [h1] at h; simp at h
  | some p1 =>
    obtain ⟨ip, bs2⟩ := p1
    rw [h1] at h
    simp only at h
    rw [numberInt_append l rest ip bs2 h1 hd]
    simp only
    cases h2 : numberFrac bs2 with
    | none => rw [h2] at h; simp at h
    | some p2 =>
      obtain ⟨fp, bs3⟩ := p2
      rw [h2] at h
      simp only at h
      rw [numberFrac_append bs2 rest fp bs3 h2 hd]
      simp only
      cases h3 : numberExp bs3 with
      | none => rw [h3] at h; simp at h
      | some p3 =>
        obtain ⟨xp, bs4⟩ := p3
        rw [h3] at h
        simp only [Option.some.injEq, Prod.mk.injEq] at h
        obtain ⟨rfl, rfl⟩ := h
        rw [numberExp_append bs3 rest xp bs4 h3 hd]

theorem numberBody_head (sign l x r : Bytes) (h : numberBody sign l = some (x, r)) :
    ∃ b l', l = b :: l' ∧ isDigit b = true := by
  unfold numberBody at h
  cases h1 : numberInt l with
  | none => rw [h1] at h; simp at h
  | some p1 => exact numberInt_head l p1.1 p1.2 h1

theorem parseNumber_head (l x r : Bytes) (h : parseNumber l = some (x, r)) :
    ∃ b l', l = b :: l' ∧ (b = 0x2d ∨ isDigit b = true) := by
  by_cases c : ∃ t, l = 0x2d :: t
  · obtain ⟨t, rfl⟩ := c
    exact ⟨_, _, rfl, Or.inl rfl⟩
  · rw [parseNumber_plain l (fun t ht => c ⟨t, ht⟩)] at h
    obtain ⟨b, l', h1, h2⟩ := numberBody_head _ _ _ _ h
    exact ⟨b, l', h1, Or.inr h2⟩

theorem parseNumber_append (l rest x r : Bytes) (h : parseNumber l = some (x, r))
    (hd : delimited rest = true) : parseNumber (l ++ rest) = some (x, r ++ rest) := by
  by_cases c : ∃ t, l = 0x2d :: t
  · obtain ⟨t, rfl⟩ := c
    rw [parseNumber_minus] at h
    rw [List.cons_append, parseNumber_minus]
    exact numberBody_append _ _ _ _ _ h hd
  · have c1 : ∀ t, l ≠ 0x2d :: t := fun t ht => c ⟨t, ht⟩
    rw [parseNumber_plain l c1] at h
    obtain ⟨b, l', h1, h2⟩ := numberBody_head _ _ _ _ h
    have c2 : ∀ t, l ++ rest ≠ 0x2d :: t := by
      intro t ht
      rw [h1, List.cons_append] at ht
      cases ht
      exact c1 l' h1
    rw [parseNumber_plain _ c2]
    exact numberBody_append _ _ _ _ _ h hd

theorem stable_parse (t rest : Bytes) (h : Stable t) (hd : delimited rest = true) :
    parseNumber (t ++ rest) = some (t, rest) := by
  have h1 := h.1
  unfold isNumberToken at h1
  cases hp : parseNumber t with
  | none => rw [hp] at h1; simp at h1
  | some p =>
    obtain ⟨lit, r⟩ := p
    rw [hp] at h1
    simp only [Bool.and_eq_true, decide_eq_true_eq, List.isEmpty_iff] at h1
    obtain ⟨rfl, rfl⟩ := h1
    simpa using parseNumber_append _ rest _ _ hp hd

theorem stable_head (t : Bytes) (h : Stable t) :
    ∃ b t', t = b :: t' ∧ (b = 0x2d ∨ isDigit b = true) := by
  have h1 := h.1
  unfold isNumberToken at h1
  cases hp : parseNumber t with
  | none => rw [hp] at h1; simp at h1
  | some p => exact parseNumber_head t p.1 p.2 hp

theorem skipWS_cons (b : UInt8) (r : Bytes) (h : isWS b = false) : skipWS (b :: r) = b :: r := by
  simp [skipWS, h]

theorem escapeRunes_length (rs : List Nat) (hrs : ∀ r ∈ rs, validRune r = true) :
    ∀ ef, (encodeRunes rs).length ≤ ef → rs.length ≤ (escapeRunes ef (encodeRunes rs)).length := by
  induction rs with
  | nil => intro ef _; simp
  | cons r rs ih =>
    intro ef hef
    have hv := hrs r (List.mem_cons_self _ _)
    have hrs1 : ∀ x ∈ rs, validRune x = true := fun x hx => hrs x (List.mem_cons_of_mem _ hx)
    have hl1 := encodeRune_length r
    simp only [encodeRunes, List.length_append] at hef ⊢
    obtain ⟨ef, rfl⟩ : ∃ k, ef = k + 1 := ⟨ef - 1, by omega⟩
    by_cases c : r < 0x80
    · have e : encodeRune r = [UInt8.ofNat r] := by unfold encodeRune; rw [if_pos c]
      have hb : UInt8.ofNat r < 0x80 := by
        rw [u8_lt, u8_ofNat]; show r % 256 < 128; omega
      rw [e] at hef ⊢
      simp only [List.cons_append, List.nil_append, escapeRunes, hb, if_true, List.append_eq,
        List.length_append, List.length_cons]
      have := ih hrs1 ef (by simp at hef; omega)
      have h2 : 1 ≤ (escapeByte (UInt8.ofNat r)).length := by
        unfold escapeByte
        split_ifs <;> simp
      omega
    · have c1 : 0x80 ≤ r := by omega
      have hl2 := encodeRune_tail r c1
      rw [escapeRunes_step r hv c1]
      have := ih hrs1 ef (by omega)
      have h2 : 1 ≤ (if r = 0x2028 then utf8 "\\u2028" else if r = 0x2029 then utf8 "\\u2029"
          else encodeRune r).length := by
        split_ifs
        · decide
        · decide
        · exact hl1
      simp only [List.length_append, List.length_cons]
      omega

theorem parseString_quote (s : Bytes) (hs : WellFormed s) (rest : Bytes) :
    parseString ((escapeString s ++ 0x22 :: rest).length + 1) (escapeString s ++ 0x22 :: rest) [] =
      some (s, rest) := by
  obtain ⟨rs, hrs, rfl⟩ := hs
  unfold escapeString
  have h1 := escapeRunes_length rs hrs _ (Nat.le_refl _)
  have := parseString_escapeRunes rs hrs (encodeRunes rs).length
    ((escapeRunes (encodeRunes rs).length (encodeRunes rs) ++ 0x22 :: rest).length + 1) [] rest
    (Nat.le_refl _) (by simp only [List.length_append, List.length_cons]; omega)
  simpa using this

theorem joinComma_cons2 (x y : Bytes) (l : List Bytes) :
    joinComma (x :: y :: l) = x ++ 0x2c :: joinComma (y :: l) := rfl

theorem parseMembers_join (L : List (Bytes × Bytes × JValue))
    (hL : ∀ i ∈ L, WellFormed i.1 ∧ ParsesTo i.2.1 i.2.2) (hne : L ≠ []) :
    ∀ (fuel : Nat) (acc : JObject) (rest : Bytes),
      (joinComma (L.map (fun i => quoteString i.1 ++ 0x3a :: i.2.1))).length ≤ fuel →
      parseMembers fuel
          (joinComma (L.map (fun i => quoteString i.1 ++ 0x3a :: i.2.1)) ++ 0x7d :: rest) acc =
        some (JValue.obj (L.foldl (fun a i => JObject.set a i.1 i.2.2) acc), rest) := by
  induction L with
  | nil => exact absurd rfl hne
  | cons i L ih =>
    intro fuel acc rest hfuel
    obtain ⟨k, txt, v⟩ := i
    have hk := (hL _ (List.mem_cons_self _ _)).1
    have hv := (hL _ (List.mem_cons_self _ _)).2
    simp only at hk hv
    have hL1 : ∀ i ∈ L, WellFormed i.1 ∧ ParsesTo i.2.1 i.2.2 :=
      fun i hi => hL i (List.mem_cons_of_mem _ hi)
    -- one member, then whatever follows it
    have step : ∀ (fuel : Nat) (tail : Bytes) (d : UInt8) (r4 : Bytes), tail = d :: r4 →
        delimited tail = true → isWS d = false →
        (quoteString k ++ 0x3a :: txt).length ≤ fuel + 1 →
        parseMembers (fuel + 1) ((quoteString k ++ 0x3a :: txt) ++ tail) acc =
          if d = 0x2c then parseMembers fuel r4 (acc.set k v)
          else if d = 0x7d then some (JValue.obj (acc.set k v), r4) else none := by
      intro fuel tail d r4 ht hd hws hf
      have e1 : (quoteString k ++ 0x3a :: txt) ++ tail =
          0x22 :: (escapeString k ++ 0x22 :: (0x3a :: (txt ++ tail))) := by
        simp [quoteString]
      rw [e1, parseMembers, skipWS_cons _ _ (by decide)]
      simp only [if_true]
      rw [parseString_quote k hk]
      simp only
      rw [skipWS_cons _ _ (by decide)]
      simp only [if_true]
      rw [hv fuel tail (by simp [quoteString] at hf; omega) hd]
      simp only
      rw [ht, skipWS_cons _ _ hws]
    cases L with
    | nil =>
      simp only [List.map_cons, List.map_nil, joinComma, List.foldl_cons, List.foldl_nil] at hfuel ⊢
      obtain ⟨fuel, rfl⟩ : ∃ n, fuel = n + 1 := ⟨fuel - 1, by
        simp [quoteString] at hfuel; omega⟩
      rw [step fuel (0x7d :: rest) 0x7d rest rfl rfl (by decide) hfuel]
      simp
    | cons j L =>
      simp only [List.map_cons, joinComma_cons2, List.foldl_cons] at hfuel ⊢
      obtain ⟨fuel, rfl⟩ : ∃ n, fuel = n + 1 := ⟨fuel - 1, by
        simp [quoteString] at hfuel; omega⟩
      have e2 : (quoteString k ++ 0x3a :: txt ++
            0x2c :: joinComma ((quoteString j.1 ++ 0x3a :: j.2.1) ::
              List.map (fun i => quoteString i.1 ++ 0x3a :: i.2.1) L)) ++ 0x7d :: rest =
          (quoteString k ++ 0x3a :: txt) ++ (0x2c :: (joinComma ((quoteString j.1 ++ 0x3a :: j.2.1) ::
              List.map (fun i => quoteString i.1 ++ 0x3a :: i.2.1) L) ++ 0x7d :: rest)) := by
        simp
      rw [e2, step fuel _ 0x2c _ rfl rfl (by decide)
        (by simp only [List.length_append, List.length_cons] at hfuel ⊢; omega)]
      simp only [if_true]
      have := ih hL1 (by simp) fuel (acc.set k v) rest
        (by simp only [List.map_cons, List.length_append, List.length_cons] at hfuel ⊢; omega)
      simpa using this

theorem parseElements_join (L : List (Bytes × JValue))
    (hL : ∀ i ∈ L, ParsesTo i.1 i.2) (hne : L ≠ []) :
    ∀ (fuel : Nat) (acc : List JValue) (rest : Bytes),
      (joinComma (L.map Prod.fst)).length + 1 ≤ fuel →
      parseElements fuel (joinComma (L.map Prod.fst) ++ 0x5d :: rest) acc =
        some (JValue.arr (acc ++ L.map Prod.snd), rest) := by
  induction L with
  | nil => exact absurd rfl hne
  | cons i L ih =>
    intro fuel acc rest hfuel
    obtain ⟨txt, v⟩ := i
    have hv := hL _ (List.mem_cons_self _ _)
    simp only at hv
    have hL1 : ∀ i ∈ L, ParsesTo i.1 i.2 := fun i hi => hL i (List.mem_cons_of_mem _ hi)
    obtain ⟨fuel, rfl⟩ : ∃ n, fuel = n + 1 := ⟨fuel - 1, by omega⟩
    cases L with
    | nil =>
      simp only [List.map_cons, List.map_nil, joinComma] at hfuel ⊢
      rw [parseElements, hv fuel (0x5d :: rest) (by omega) rfl]
      simp only
      rw [skipWS_cons _ _ (by decide)]
      simp
    | cons j L =>
      simp only [List.map_cons, joinComma_cons2, List.length_append, List.length_cons] at hfuel ⊢
      rw [List.append_assoc, parseElements,
        hv fuel (0x2c :: joinComma (j.1 :: List.map Prod.fst L) ++ 0x5d :: rest) (by omega) rfl]
      simp only
      rw [List.cons_append, skipWS_cons 0x2c _ (by decide)]
      simp only [if_true]
      have := ih hL1 (by simp) fuel (acc ++ [v]) rest
        (by simp only [List.map_cons, List.length_append, List.length_cons] at hfuel ⊢; omega)
      simpa using this

theorem parsesTo_null : ParsesTo (utf8 "null") JValue.null := by
  intro fuel rest hf _
  have e : utf8 "null" = [0x6e, 0x75, 0x6c, 0x6c] := by decide
  rw [e] at hf ⊢
  obtain ⟨fuel, rfl⟩ : ∃ n, fuel = n + 1 := ⟨fuel - 1, by simp at hf; omega⟩
  simp [parseValue, skipWS, isWS]

theorem parsesTo_true : ParsesTo (utf8 "true") (JValue.bool true) := by
  intro fuel rest hf _
  have e : utf8 "true" = [0x74, 0x72, 0x75, 0x65] := by decide
  rw [e] at hf ⊢
  obtain ⟨fuel, rfl⟩ : ∃ n, fuel = n + 1 := ⟨fuel - 1, by simp at hf; omega⟩
  simp [parseValue, skipWS, isWS]

theorem parsesTo_false : ParsesTo (utf8 "false") (JValue.bool false) := by
  intro fuel rest hf _
  have e : utf8 "false" = [0x66, 0x61, 0x6c, 0x73, 0x65] := by decide
  rw [e] at hf ⊢
  obtain ⟨fuel, rfl⟩ : ∃ n, fuel = n + 1 := ⟨fuel - 1, by simp at hf; omega⟩
  simp [parseValue, skipWS, isWS]

theorem parsesTo_str (s : Bytes) (hs : WellFormed s) : ParsesTo (quoteString s) (JValue.str s) := by
  intro fuel rest hf _
  obtain ⟨fuel, rfl⟩ : ∃ n, fuel = n + 1 := ⟨fuel - 1, by simp [quoteString] at hf; omega⟩
  have e : quoteString s ++ rest = 0x22 :: (escapeString s ++ 0x22 :: rest) := by
    simp [quoteString]
  rw [e, parseValue, skipWS_cons _ _ (by decide)]
  simp only [show ¬ ((0x22 : UInt8) = 0x7b) by decide, show ¬ ((0x22 : UInt8) = 0x5b) by decide,
    if_false, if_true]
  rw [parseString_quote s hs]
  rfl

theorem number_head (b : UInt8) (h : b = 0x2d ∨ isDigit b = true) :
    isWS b = false ∧ b ≠ 0x7b ∧ b ≠ 0x5b ∧ b ≠ 0x22 ∧ b ≠ 0x74 ∧ b ≠ 0x66 ∧ b ≠ 0x6e ∧
      b ≠ 0x5d ∧ b ≠ 0x7d := by
  rcases h with rfl | h
  · decide
  · simp only [isDigit, Bool.and_eq_true, decide_eq_true_eq, u8_le] at h
    have h1 : 48 ≤ b.toNat := h.1
    have h2 : b.toNat ≤ 57 := h.2
    have ne : ∀ c : UInt8, (c.toNat < 48 ∨ 57 < c.toNat) → b ≠ c := by
      intro c hc hbc
      subst hbc
      omega
    refine ⟨?_, ne _ (by decide), ne _ (by decide), ne _ (by decide), ne _ (by decide),
      ne _ (by decide), ne _ (by decide), ne _ (by decide), ne _ (by decide)⟩
    simp only [isWS, Bool.or_eq_false_iff, decide_eq_false_iff_not]
    exact ⟨⟨⟨ne _ (by decide), ne _ (by decide)⟩, ne _ (by decide)⟩, ne _ (by decide)⟩

theorem parsesTo_num (t : Bytes) (ht : Stable t) : ParsesTo t (JValue.num t) := by
  intro fuel rest hf hd
  obtain ⟨b, t', rfl, hb⟩ := stable_head t ht
  obtain ⟨fuel, rfl⟩ : ∃ n, fuel = n + 1 := ⟨fuel - 1, by simp at hf; omega⟩
  obtain ⟨h0, h1, h2, h3, h4, h5, h6, _, _⟩ := number_head b hb
  rw [List.cons_append, parseValue, skipWS_cons _ _ h0]
  simp only [h1, h2, h3, h4, h5, h6, if_false]
  rw [← List.cons_append, stable_parse _ rest ht hd]
  simp only [ht.2, Option.map_some']

theorem marshalMembers_eq (kvs : List (Bytes × JValue)) :
    marshalMembers kvs = kvs.map (fun p => (p.1, marshalValue p.2)) := by
  induction kvs with
  | nil => simp [marshalMembers]
  | cons p rest ih => obtain ⟨k, v⟩ := p; simp [marshalMembers, ih]

theorem marshalList_eq (xs : List JValue) : marshalList xs = xs.map marshalValue := by
  induction xs with
  | nil => simp [marshalList]
  | cons v rest ih => simp [marshalList, ih]

theorem canonMembers_eq (kvs : List (Bytes × JValue)) :
    canonMembers kvs = kvs.map (fun p => (p.1, canon p.2)) := by
  induction kvs with
  | nil => simp [canonMembers]
  | cons p rest ih => obtain ⟨k, v⟩ := p; simp [canonMembers, ih]

theorem canonList_eq (xs : List JValue) : canonList xs = xs.map canon := by
  induction xs with
  | nil => simp [canonList]
  | cons v rest ih => simp [canonList, ih]

theorem insertMember_map (f : JValue → Bytes) (m : Bytes × JValue) (l : JObject) :
    insertMember (m.1, f m.2) (l.map (fun p => (p.1, f p.2))) =
      (insertKV m l).map (fun p => (p.1, f p.2)) := by
  induction l with
  | nil => rfl
  | cons a l ih =>
    simp only [List.map_cons, insertMember, insertKV]
    split_ifs
    · simp [ih]
    · simp

theorem insertKV_map (f : JValue → JValue) (m : Bytes × JValue) (l : JObject) :
    insertKV (m.1, f m.2) (l.map (fun p => (p.1, f p.2))) =
      (insertKV m l).map (fun p => (p.1, f p.2)) := by
  induction l with
  | nil => rfl
  | cons a l ih =>
    simp only [List.map_cons, insertKV]
    split_ifs
    · simp [ih]
    · simp

theorem sortMembers_map (f : JValue → Bytes) (l : JObject) :
    (l.map (fun p => (p.1, f p.2))).foldr insertMember [] =
      (sortKV l).map (fun p => (p.1, f p.2)) := by
  induction l with
  | nil => rfl
  | cons a l ih =>
    simp only [List.map_cons, List.foldr_cons, sortKV] at ih ⊢
    rw [ih, insertMember_map]

theorem sortKV_map (f : JValue → JValue) (l : JObject) :
    sortKV (l.map (fun p => (p.1, f p.2))) = (sortKV l).map (fun p => (p.1, f p.2)) := by
  induction l with
  | nil => rfl
  | cons a l ih =>
    simp only [List.map_cons, List.foldr_cons, sortKV] at ih ⊢
    rw [ih, insertKV_map]

theorem insertKV_perm (m : Bytes × JValue) (l : JObject) : List.Perm (insertKV m l) (m :: l) := by
  induction l with
  | nil => exact List.Perm.refl _
  | cons a l ih =>
    simp only [insertKV]
    split_ifs
    · exact (List.Perm.cons a ih).trans (List.Perm.swap m a l)
    · exact List.Perm.refl _

theorem sortKV_perm (l : JObject) : List.Perm (sortKV l) l := by
  induction l with
  | nil => exact List.Perm.refl _
  | cons a l ih =>
    simp only [sortKV, List.foldr_cons] at ih ⊢
    exact (insertKV_perm a _).trans (List.Perm.cons a ih)

theorem set_fresh (acc : JObject) (k : Bytes) (v : JValue) (h : k ∉ acc.map Prod.fst) :
    JObject.set acc k v = acc ++ [(k, v)] := by
  induction acc with
  | nil => rfl
  | cons a acc ih =>
    obtain ⟨k', v'⟩ := a
    simp only [List.map_cons, List.mem_cons, not_or] at h
    simp only [JObject.set, if_neg (Ne.symm h.1), List.cons_append]
    rw [ih h.2]

theorem foldl_set_nodup (S : JObject) :
    ∀ acc : JObject, (acc.map Prod.fst ++ S.map Prod.fst).Nodup →
      S.foldl (fun a i => JObject.set a i.1 i.2) acc = acc ++ S := by
  induction S with
  | nil => intro acc _; simp
  | cons p S ih =>
    intro acc h
    obtain ⟨k, v⟩ := p
    have hk : k ∉ acc.map Prod.fst := by
      intro hm
      have := (List.nodup_append.1 h).2.2
      exact this hm (by simp)
    simp only [List.foldl_cons]
    rw [set_fresh acc k v hk, ih]
    · simp
    · simp only [List.map_append, List.map_cons, List.map_nil, List.append_assoc,
        List.singleton_append]
      simpa using h

theorem marshalValue_head (v : JValue) (h : Decoded v) :
    ∃ b t, marshalValue v = b :: t ∧ isWS b = false ∧ b ≠ 0x5d ∧ b ≠ 0x7d := by
  cases v with
  | null => exact ⟨0x6e, [0x75, 0x6c, 0x6c], by decide, by decide, by decide, by decide⟩
  | bool b =>
    cases b
    · exact ⟨0x66, [0x61, 0x6c, 0x73, 0x65], by decide, by decide, by decide, by decide⟩
    · exact ⟨0x74, [0x72, 0x75, 0x65], by decide, by decide, by decide, by decide⟩
  | num t =>
    simp only [Decoded] at h
    obtain ⟨b, t', rfl, hb⟩ := stable_head t h
    obtain ⟨h0, _, _, _, _, _, _, h7, h8⟩ := number_head b hb
    exact ⟨b, t', by rw [marshalValue], h0, h7, h8⟩
  | str s => exact ⟨0x22, _, by rw [marshalValue]; rfl, by decide, by decide, by decide⟩
  | arr xs => exact ⟨0x5b, _, by rw [marshalValue]; rfl, by decide, by decide, by decide⟩
  | obj kvs => exact ⟨0x7b, _, by rw [marshalValue]; rfl, by decide, by decide, by decide⟩

theorem decodedList_mem (xs : List JValue) (h : DecodedList xs) : ∀ x ∈ xs, Decoded x := by
  induction xs with
  | nil => intro x hx; exact absurd hx (List.not_mem_nil _)
  | cons v rest ih =>
    intro x hx
    simp only [DecodedList] at h
    rcases List.mem_cons.1 hx with rfl | hx
    · exact h.1
    · exact ih h.2 x hx

theorem decodedMembers_mem (kvs : List (Bytes × JValue)) (h : DecodedMembers kvs) :
    ∀ p ∈ kvs, WellFormed p.1 ∧ Decoded p.2 := by
  induction kvs with
  | nil => intro x hx; exact absurd hx (List.not_mem_nil _)
  | cons p rest ih =>
    intro x hx
    obtain ⟨k, v⟩ := p
    simp only [DecodedMembers] at h
    rcases List.mem_cons.1 hx with rfl | hx
    · exact h.1
    · exact ih h.2 x hx

theorem parsesTo_arr (xs : List JValue) (hd : DecodedList xs)
    (ih : ∀ x ∈ xs, ParsesTo (marshalValue x) (canon x)) :
    ParsesTo (marshalValue (JValue.arr xs)) (canon (JValue.arr xs)) := by
  intro fuel rest hf _
  rw [marshalValue, marshalList_eq] at hf ⊢
  rw [canon, canonList_eq]
  obtain ⟨fuel, rfl⟩ : ∃ n, fuel = n + 1 := ⟨fuel - 1, by simp at hf; omega⟩
  cases xs with
  | nil =>
    simp [parseValue, skipWS, isWS, joinComma]
  | cons v xs =>
    obtain ⟨b, t, hb, h1, h2, _⟩ := marshalValue_head v (decodedList_mem _ hd v (List.mem_cons_self _ _))
    have e := parseElements_join ((v :: xs).map (fun x => (marshalValue x, canon x)))
      (by
        intro i hi
        obtain ⟨x, hx, rfl⟩ := List.mem_map.1 hi
        exact ih x hx)
      (by simp) fuel [] rest
      (by
        simp only [List.map_map, List.length_cons, List.length_append] at hf ⊢
        have : (Prod.fst ∘ fun x => (marshalValue x, canon x)) = marshalValue := rfl
        rw [this]
        simp only [List.length_nil] at hf
        omega)
    have e1 : (List.map Prod.fst ((v :: xs).map (fun x => (marshalValue x, canon x)))) =
        (v :: xs).map marshalValue := by simp [List.map_map, Function.comp_def]
    have e2 : (List.map Prod.snd ((v :: xs).map (fun x => (marshalValue x, canon x)))) =
        (v :: xs).map canon := by simp [List.map_map, Function.comp_def]
    rw [e1, e2] at e
    have e3 : ∃ tl, joinComma ((v :: xs).map marshalValue) ++ 0x5d :: rest = b :: tl := by
      cases xs with
      | nil => exact ⟨t ++ 0x5d :: rest, by simp [joinComma, hb]⟩
      | cons w xs =>
        exact ⟨t ++ 0x2c :: (joinComma ((w :: xs).map marshalValue) ++ 0x5d :: rest), by
          simp [joinComma_cons2, hb]⟩
    obtain ⟨tl, htl⟩ := e3
    have e4 : (0x5b :: joinComma ((v :: xs).map marshalValue) ++ [0x5d]) ++ rest =
        0x5b :: (joinComma ((v :: xs).map marshalValue) ++ 0x5d :: rest) := by simp
    rw [e4, parseValue, skipWS_cons _ _ (by decide)]
    simp only [show ¬ ((0x5b : UInt8) = 0x7b) by decide, if_false, if_true]
    rw [htl, skipWS_cons _ _ h1]
    simp only [h2, if_false]
    rw [← htl, e]
    simp

theorem parsesTo_obj (kvs : List (Bytes × JValue)) (hd : DecodedMembers kvs)
    (hn : (kvs.map Prod.fst).Nodup)
    (ih : ∀ p ∈ kvs, ParsesTo (marshalValue p.2) (canon p.2)) :
    ParsesTo (marshalValue (JValue.obj kvs)) (canon (JValue.obj kvs)) := by
  intro fuel rest hf _
  rw [marshalValue, marshalMembers_eq, sortMembers_map] at hf ⊢
  rw [canon, canonMembers_eq, sortKV_map]
  obtain ⟨fuel, rfl⟩ : ∃ n, fuel = n + 1 := ⟨fuel - 1, by simp at hf; omega⟩
  have hp := sortKV_perm kvs
  cases hS : sortKV kvs with
  | nil =>
    simp [parseValue, skipWS, isWS, joinComma]
  | cons p S =>
    rw [hS] at hf hp
    have hmem : ∀ q ∈ p :: S, q ∈ kvs := fun q hq => hp.subset hq
    have e := parseMembers_join ((p :: S).map (fun q => (q.1, marshalValue q.2, canon q.2)))
      (by
        intro i hi
        obtain ⟨q, hq, rfl⟩ := List.mem_map.1 hi
        exact ⟨(decodedMembers_mem _ hd q (hmem q hq)).1, ih q (hmem q hq)⟩)
      (by simp) fuel [] rest
      (by
        simp only [List.map_map, List.length_cons, List.length_append, Function.comp_def] at hf ⊢
        simp only [List.length_nil] at hf
        omega)
    simp only [List.map_map, Function.comp_def] at e
    have e0 : List.foldl (fun a i => JObject.set a i.1 i.2.2) []
        ((p :: S).map (fun q => (q.1, marshalValue q.2, canon q.2))) =
        (p :: S).map (fun q => (q.1, canon q.2)) := by
      rw [List.foldl_map]
      have := foldl_set_nodup ((p :: S).map (fun q => (q.1, canon q.2))) []
        (by
          simp only [List.map_nil, List.nil_append, List.map_map, Function.comp_def]
          exact (hp.map Prod.fst).nodup_iff.2 hn)
      rw [List.foldl_map] at this
      simpa using this
    rw [e0] at e
    have e3 : ∃ tl, joinComma ((p :: S).map (fun q => quoteString q.1 ++ 0x3a :: marshalValue q.2))
        ++ 0x7d :: rest = 0x22 :: tl := by
      cases S with
      | nil =>
        exact ⟨escapeString p.1 ++ 0x22 :: 0x3a :: (marshalValue p.2 ++ 0x7d :: rest), by
          simp [joinComma, quoteString]⟩
      | cons w xs =>
        exact ⟨escapeString p.1 ++ 0x22 :: 0x3a :: (marshalValue p.2 ++ 0x2c ::
          (joinComma ((w :: xs).map (fun q => quoteString q.1 ++ 0x3a :: marshalValue q.2))
            ++ 0x7d :: rest)), by
          simp [joinComma_cons2, quoteString]⟩
    obtain ⟨tl, htl⟩ := e3
    simp only [List.map_map, Function.comp_def]
    have e4 : (0x7b :: joinComma ((p :: S).map (fun q => quoteString q.1 ++ 0x3a :: marshalValue q.2))
        ++ [0x7d]) ++ rest =
        0x7b :: (joinComma ((p :: S).map (fun q => quoteString q.1 ++ 0x3a :: marshalValue q.2))
          ++ 0x7d :: rest) := by simp
    rw [e4, parseValue, skipWS_cons _ _ (by decide)]
    simp only [if_true]
    rw [htl, skipWS_cons _ _ (by decide)]
    simp only [show ¬ ((0x22 : UInt8) = 0x7d) by decide, if_false]
    rw [← htl, e]

mutual
theorem parsesTo_value : ∀ v : JValue, Decoded v → ParsesTo (marshalValue v) (canon v)
  | JValue.null, _ => by rw [marshalValue, canon]; exact parsesTo_null
  | JValue.bool true, _ => by rw [marshalValue, canon]; exact parsesTo_true
  | JValue.bool false, _ => by rw [marshalValue, canon]; exact parsesTo_false
  | JValue.num t, h => by
    rw [marshalValue, canon]
    exact parsesTo_num t (by simpa only [Decoded] using h)
  | JValue.str s, h => by
    rw [marshalValue, canon]
    exact parsesTo_str s (by simpa only [Decoded] using h)
  | JValue.arr xs, h =>
    parsesTo_arr xs (by simpa only [Decoded] using h)
      (parsesTo_list xs (by simpa only [Decoded] using h))
  | JValue.obj kvs, h =>
    parsesTo_obj kvs (by simp only [Decoded] at h; exact h.1) (by simp only [Decoded] at h; exact h.2)
      (parsesTo_members kvs (by simp only [Decoded] at h; exact h.1))
theorem parsesTo_list : ∀ xs : List JValue, DecodedList xs →
    ∀ x ∈ xs, ParsesTo (marshalValue x) (canon x)
  | [], _ => fun x hx => absurd hx (List.not_mem_nil _)
  | v :: rest, h => fun x hx => by
    simp only [DecodedList] at h
    rcases List.mem_cons.1 hx with rfl | hx
    · exact parsesTo_value x h.1
    · exact parsesTo_list rest h.2 x hx
theorem parsesTo_members : ∀ kvs : List (Bytes × JValue), DecodedMembers kvs →
    ∀ p ∈ kvs, ParsesTo (marshalValue p.2) (canon p.2)
  | [], _ => fun x hx => absurd hx (List.not_mem_nil _)
  | (k, v) :: rest, h => fun x hx => by
    simp only [DecodedMembers] at h
    rcases List.mem_cons.1 hx with rfl | hx
    · exact parsesTo_value v h.1.2
    · exact parsesTo_members rest h.2 x hx
end

theorem encodeRunes_append (a b : List Nat) :
    encodeRunes (a ++ b) = encodeRunes a ++ encodeRunes b := by
  induction a with
  | nil => rfl
  | cons r a ih => simp [encodeRunes, ih]

theorem wellFormed_nil : WellFormed [] := ⟨[], by simp, rfl⟩

theorem wellFormed_append (a b : Bytes) (ha : WellFormed a) (hb : WellFormed b) :
    WellFormed (a ++ b) := by
  obtain ⟨ra, h1, rfl⟩ := ha
  obtain ⟨rb, h2, rfl⟩ := hb
  refine ⟨ra ++ rb, ?_, (encodeRunes_append ra rb).symm⟩
  intro r hr
  rcases List.mem_append.1 hr with h | h
  · exact h1 r h
  · exact h2 r h

theorem wellFormed_rune (r : Nat) (h : validRune r = true) : WellFormed (encodeRune r) :=
  ⟨[r], by simpa using h, by simp [encodeRunes]⟩

theorem wellFormed_byte (b : UInt8) (h : b < 0x80) : WellFormed [b] := by
  have hn : b.toNat < 128 := (u8_lt _ _).1 h
  have e : encodeRune b.toNat = [b] := by
    unfold encodeRune
    rw [if_pos hn]
    congr 1
    apply UInt8.ext
    rw [u8_ofNat]
    omega
  rw [← e]
  apply wellFormed_rune
  unfold validRune
  simp only [Bool.or_eq_true, decide_eq_true_eq]
  left
  omega

theorem wellFormed_ascii (s : Bytes) (h : ∀ b ∈ s, b < 0x80) : WellFormed s := by
  induction s with
  | nil => exact wellFormed_nil
  | cons b s ih =>
    have := wellFormed_append [b] s (wellFormed_byte b (h b (List.mem_cons_self _ _)))
      (ih (fun x hx => h x (List.mem_cons_of_mem _ hx)))
    simpa using this

theorem validRune_decodeRune (bs : Bytes) : validRune (decodeRune bs).1 = true := by
  rcases bs with _ | ⟨b0, _ | ⟨b1, _ | ⟨b2, _ | ⟨b3, tl⟩⟩⟩⟩
  · decide
  · have h0 := UInt8.toNat_lt b0
    simp only [decodeRune]
    split_ifs <;>
    simp_all only [validRune, isCont, Bool.and_eq_true, Bool.or_eq_true, decide_eq_true_eq,
      not_and_or, not_le, not_lt] <;> omega
  · have h0 := UInt8.toNat_lt b0
    have h1 := UInt8.toNat_lt b1
    simp only [decodeRune]
    split_ifs <;>
    simp_all only [validRune, isCont, Bool.and_eq_true, Bool.or_eq_true, decide_eq_true_eq,
      not_and_or, not_le, not_lt] <;> omega
  · have h0 := UInt8.toNat_lt b0
    have h1 := UInt8.toNat_lt b1
    have h2 := UInt8.toNat_lt b2
    simp only [decodeRune]
    split_ifs <;>
    simp_all only [validRune, isCont, Bool.and_eq_true, Bool.or_eq_true, decide_eq_true_eq,
      not_and_or, not_le, not_lt] <;> omega
  · have h0 := UInt8.toNat_lt b0
    have h1 := UInt8.toNat_lt b1
    have h2 := UInt8.toNat_lt b2
    have h3 := UInt8.toNat_lt b3
    simp only [decodeRune]
    split_ifs <;>
    simp_all only [validRune, isCont, Bool.and_eq_true, Bool.or_eq_true, decide_eq_true_eq,
      not_and_or, not_le, not_lt] <;> omega

theorem hexVal_lt (b : UInt8) (n : Nat) (h : hexVal b = some n) : n < 16 := by
  have := UInt8.toNat_lt b
  unfold hexVal at h
  split_ifs at h with c1 c2 c3
  · simp only [Bool.and_eq_true, decide_eq_true_eq, u8_le] at c1
    have h1 : b.toNat ≤ 57 := c1.2
    cases h; omega
  · simp only [Bool.and_eq_true, decide_eq_true_eq, u8_le] at c2
    have h1 : b.toNat ≤ 102 := c2.2
    have h2 : 97 ≤ b.toNat := c2.1
    cases h; omega
  · simp only [Bool.and_eq_true, decide_eq_true_eq, u8_le] at c3
    have h1 : b.toNat ≤ 70 := c3.2
    have h2 : 65 ≤ b.toNat := c3.1
    cases h; omega

theorem getu4_lt (bs : Bytes) (rr : Nat) (rest : Bytes) (h : getu4 bs = some (rr, rest)) :
    rr < 0x10000 := by
  unfold getu4 at h
  split at h
  · rename_i a b c d rest1
    cases ha : hexVal a with
    | none => simp [ha] at h
    | some x =>
      cases hb : hexVal b with
      | none => simp [ha, hb] at h
      | some y =>
        cases hc : hexVal c with
        | none => simp [ha, hb, hc] at h
        | some z =>
          cases hd : hexVal d with
          | none => simp [ha, hb, hc, hd] at h
          | some w =>
            simp only [ha, hb, hc, hd, Option.some.injEq, Prod.mk.injEq] at h
            have := hexVal_lt _ _ ha
            have := hexVal_lt _ _ hb
            have := hexVal_lt _ _ hc
            have := hexVal_lt _ _ hd
            omega
  · simp at h

theorem validRune_unescapeU (rr : Nat) (rest : Bytes) (h : rr < 0x10000) :
    validRune (unescapeU rr rest).1 = true := by
  have hf : validRune 0xFFFD = true := by decide
  unfold unescapeU
  split_ifs with c
  · simp only [Bool.and_eq_true, decide_eq_true_eq] at c
    split
    · split
      · rename_i rr1 rest2 hg
        have := getu4_lt _ _ _ hg
        split_ifs with d
        · simp only [Bool.and_eq_true, decide_eq_true_eq] at d
          simp only [validRune, Bool.or_eq_true, Bool.and_eq_true, decide_eq_true_eq]
          omega
        · exact hf
      · exact hf
    · exact hf
  · simp only [Bool.and_eq_true, decide_eq_true_eq] at c
    simp only [validRune, Bool.or_eq_true, Bool.and_eq_true, decide_eq_true_eq]
    omega

theorem parseString_sound : ∀ (fuel : Nat) (input acc s rest : Bytes),
    parseString fuel input acc = some (s, rest) → WellFormed acc → WellFormed s := by
  intro fuel
  induction fuel with
  | zero => intro input acc s rest h; simp [parseString] at h
  | succ n ih =>
    intro input acc s rest h hacc
    cases input with
    | nil => simp [parseString] at h
    | cons b r =>
      have app1 : ∀ c : UInt8, c < 0x80 → WellFormed (acc ++ [c]) :=
        fun c hc => wellFormed_append _ _ hacc (wellFormed_byte c hc)
      simp only [parseString] at h
      by_cases c1 : b = 34
      · rw [if_pos c1] at h
        cases h
        exact hacc
      rw [if_neg c1] at h
      by_cases c2 : b = 92
      · rw [if_pos c2] at h
        cases r with
        | nil => simp at h
        | cons e r1 =>
          simp only at h
          by_cases d1 : (decide (e = 34) || decide (e = 92) || decide (e = 47)) = true
          · rw [if_pos d1] at h
            refine ih _ _ _ _ h (app1 e ?_)
            simp only [Bool.or_eq_true, decide_eq_true_eq] at d1
            rcases d1 with (rfl | rfl) | rfl <;> decide
          rw [if_neg d1] at h
          by_cases d2 : e = 98
          · rw [if_pos d2] at h
            exact ih _ _ _ _ h (app1 _ (by decide))
          rw [if_neg d2] at h
          by_cases d3 : e = 102
          · rw [if_pos d3] at h
            exact ih _ _ _ _ h (app1 _ (by decide))
          rw [if_neg d3] at h
          by_cases d4 : e = 110
          · rw [if_pos d4] at h
            exact ih _ _ _ _ h (app1 _ (by decide))
          rw [if_neg d4] at h
          by_cases d5 : e = 114
          · rw [if_pos d5] at h
            exact ih _ _ _ _ h (app1 _ (by decide))
          rw [if_neg d5] at h
          by_cases d6 : e = 116
          · rw [if_pos d6] at h
            exact ih _ _ _ _ h (app1 _ (by decide))
          rw [if_neg d6] at h
          by_cases d7 : e = 117
          · rw [if_pos d7] at h
            cases hg : getu4 r1 with
            | none => simp [hg] at h
            | some p =>
              obtain ⟨rr, rest2⟩ := p
              simp only [hg] at h
              exact ih _ _ _ _ h (wellFormed_append _ _ hacc
                (wellFormed_rune _ (validRune_unescapeU rr rest2 (getu4_lt _ _ _ hg))))
          · rw [if_neg d7] at h
            simp at h
      rw [if_neg c2] at h
      by_cases c3 : b < 32
      · rw [if_pos c3] at h
        simp at h
      rw [if_neg c3] at h
      by_cases c4 : b < 128
      · rw [if_pos c4] at h
        exact ih _ _ _ _ h (app1 b c4)
      · rw [if_neg c4] at h
        exact ih _ _ _ _ h (wellFormed_append _ _ hacc
          (wellFormed_rune _ (validRune_decodeRune _)))

theorem decodedMembers_set (acc : JObject) (k : Bytes) (v : JValue) (hk : WellFormed k)
    (hv : Decoded v) (h : DecodedMembers acc) : DecodedMembers (JObject.set acc k v) := by
  induction acc with
  | nil => simp only [JObject.set, DecodedMembers]; exact ⟨⟨hk, hv⟩, trivial⟩
  | cons a acc ih =>
    obtain ⟨k', v'⟩ := a
    simp only [DecodedMembers] at h
    simp only [JObject.set]
    split_ifs
    · simp only [DecodedMembers]; exact ⟨⟨hk, hv⟩, h.2⟩
    · simp only [DecodedMembers]; exact ⟨h.1, ih h.2⟩

theorem keys_set (acc : JObject) (k : Bytes) (v : JValue) :
    (JObject.set acc k v).map Prod.fst =
      if k ∈ acc.map Prod.fst then acc.map Prod.fst else acc.map Prod.fst ++ [k] := by
  induction acc with
  | nil => simp [JObject.set]
  | cons a acc ih =>
    obtain ⟨k', v'⟩ := a
    simp only [JObject.set]
    by_cases c : k' = k
    · subst c; simp
    · simp only [if_neg c, List.map_cons, ih, List.mem_cons, Ne.symm c, false_or]
      split_ifs <;> simp

theorem keys_set_nodup (acc : JObject) (k : Bytes) (v : JValue)
    (h : (acc.map Prod.fst).Nodup) : ((JObject.set acc k v).map Prod.fst).Nodup := by
  rw [keys_set]
  split_ifs with c
  · exact h
  · exact List.nodup_append.2 ⟨h, List.nodup_singleton _, by
      intro a ha hb
      simp only [List.mem_singleton] at hb
      subst hb
      exact c ha⟩

theorem decodedList_append (acc : List JValue) (v : JValue) (h : DecodedList acc)
    (hv : Decoded v) : DecodedList (acc ++ [v]) := by
  induction acc with
  | nil => simp only [List.nil_append, DecodedList]; exact ⟨hv, trivial⟩
  | cons a acc ih =>
    simp only [DecodedList] at h
    simp only [List.cons_append, DecodedList]
    exact ⟨h.1, ih h.2⟩

theorem parse_sound : ∀ fuel : Nat,
    (∀ bs v rest, parseValue fuel bs = some (v, rest) → Decoded v) ∧
    (∀ bs acc v rest, parseMembers fuel bs acc = some (v, rest) → DecodedMembers acc →
      (acc.map Prod.fst).Nodup → Decoded v) ∧
    (∀ bs acc v rest, parseElements fuel bs acc = some (v, rest) → DecodedList acc →
      Decoded v) := by
  intro fuel
  induction fuel with
  | zero =>
    refine ⟨?_, ?_, ?_⟩
    · intro bs v rest h; simp [parseValue] at h
    · intro bs acc v rest h; simp [parseMembers] at h
    · intro bs acc v rest h; simp [parseElements] at h
  | succ n ih =>
    obtain ⟨ihv, ihm, ihe⟩ := ih
    refine ⟨?_, ?_, ?_⟩
    · intro bs v rest h
      simp only [parseValue] at h
      cases hs : skipWS bs with
      | nil => simp [hs] at h
      | cons b r =>
        simp only [hs] at h
        by_cases c1 : b = 123
        · rw [if_pos c1] at h
          cases hs2 : skipWS r with
          | nil => simp [hs2] at h
          | cons c r1 =>
            simp only [hs2] at h
            by_cases d : c = 125
            · rw [if_pos d] at h
              cases h
              simp only [Decoded, DecodedMembers, List.map_nil, List.nodup_nil, and_self]
            · rw [if_neg d] at h
              exact ihm _ _ _ _ h trivial (by simp)
        rw [if_neg c1] at h
        by_cases c2 : b = 91
        · rw [if_pos c2] at h
          cases hs2 : skipWS r with
          | nil => simp [hs2] at h
          | cons c r1 =>
            simp only [hs2] at h
            by_cases d : c = 93
            · rw [if_pos d] at h
              cases h
              simp only [Decoded, DecodedList]
            · rw [if_neg d] at h
              exact ihe _ _ _ _ h trivial
        rw [if_neg c2] at h
        by_cases c3 : b = 34
        · rw [if_pos c3] at h
          cases hp : parseString (r.length + 1) r [] with
          | none => simp [hp] at h
          | some p =>
            simp only [hp, Option.map_some', Option.some.injEq, Prod.mk.injEq] at h
            obtain ⟨rfl, _⟩ := h
            simp only [Decoded]
            exact parseString_sound _ _ _ _ _ hp wellFormed_nil
        rw [if_neg c3] at h
        by_cases c4 : b = 116
        · rw [if_pos c4] at h
          split at h
          · cases h; trivial
          · simp at h
        rw [if_neg c4] at h
        by_cases c5 : b = 102
        · rw [if_pos c5] at h
          split at h
          · cases h; trivial
          · simp at h
        rw [if_neg c5] at h
        by_cases c6 : b = 110
        · rw [if_pos c6] at h
          split at h
          · cases h; trivial
          · simp at h
        rw [if_neg c6] at h
        cases hp : parseNumber (b :: r) with
        | none => simp [hp] at h
        | some p =>
          obtain ⟨lit, r1⟩ := p
          simp only [hp] at h
          cases hc : canonNumber lit with
          | none => simp [hc] at h
          | some t =>
            simp only [hc, Option.map_some', Option.some.injEq, Prod.mk.injEq] at h
            obtain ⟨rfl, _⟩ := h
            simp only [Decoded]
            exact canonNumber_stable lit t hc
    · intro bs acc v rest h hacc hnd
      simp only [parseMembers] at h
      cases hs : skipWS bs with
      | nil => simp [hs] at h
      | cons b r =>
        simp only [hs] at h
        by_cases c1 : b = 34
        · rw [if_pos c1] at h
          cases hp : parseString (r.length + 1) r [] with
          | none => simp [hp] at h
          | some p =>
            obtain ⟨k, r1⟩ := p
            simp only [hp] at h
            have hk := parseString_sound _ _ _ _ _ hp wellFormed_nil
            cases hs2 : skipWS r1 with
            | nil => simp [hs2] at h
            | cons c r2 =>
              simp only [hs2] at h
              by_cases c2 : c = 58
              · rw [if_pos c2] at h
                cases hv : parseValue n r2 with
                | none => simp [hv] at h
                | some q =>
                  obtain ⟨w, r3⟩ := q
                  simp only [hv] at h
                  have hw := ihv _ _ _ hv
                  cases hs3 : skipWS r3 with
                  | nil => simp [hs3] at h
                  | cons d r4 =>
                    simp only [hs3] at h
                    by_cases c3 : d = 44
                    · rw [if_pos c3] at h
                      exact ihm _ _ _ _ h (decodedMembers_set _ _ _ hk hw hacc)
                        (keys_set_nodup _ _ _ hnd)
                    rw [if_neg c3] at h
                    by_cases c4 : d = 125
                    · rw [if_pos c4] at h
                      cases h
                      simp only [Decoded]
                      exact ⟨decodedMembers_set _ _ _ hk hw hacc, keys_set_nodup _ _ _ hnd⟩
                    · rw [if_neg c4] at h
                      simp at h
              · rw [if_neg c2] at h
                simp at h
        · rw [if_neg c1] at h
          simp at h
    · intro bs acc v rest h hacc
      simp only [parseElements] at h
      cases hv : parseValue n bs with
      | none => simp [hv] at h
      | some q =>
        obtain ⟨w, r1⟩ := q
        simp only [hv] at h
        have hw := ihv _ _ _ hv
        cases hs : skipWS r1 with
        | nil => simp [hs] at h
        | cons d r2 =>
          simp only [hs] at h
          by_cases c3 : d = 44
          · rw [if_pos c3] at h
            exact ihe _ _ _ _ h (decodedList_append _ _ hacc hw)
          rw [if_neg c3] at h
          by_cases c4 : d = 93
          · rw [if_pos c4] at h
            cases h
            simp only [Decoded]
            exact decodedList_append _ _ hacc hw
          · rw [if_neg c4] at h
            simp at h

theorem unmarshal_decoded (data : Bytes) (obj : JObject) (h : unmarshalObject data = some obj) :
    Decoded (JValue.obj obj) := by
  unfold unmarshalObject at h
  cases hp : parseValue (data.length + 1) data with
  | none => simp [hp] at h
  | some p =>
    obtain ⟨v, rest⟩ := p
    have hv := (parse_sound _).1 _ _ _ hp
    rw [hp] at h
    cases v with
    | obj kvs =>
      simp only at h
      split_ifs at h
      cases h
      exact hv
    | null =>
      simp only at h
      split_ifs at h
      cases h
      simp only [Decoded, DecodedMembers, List.map_nil, List.nodup_nil, and_self]
    | bool b => simp at h
    | num t => simp at h
    | str s => simp at h
    | arr xs => simp at h

theorem unmarshal_marshal (kvs : JObject) (h : Decoded (JValue.obj kvs)) :
    unmarshalObject (marshalValue (JValue.obj kvs) ++ utf8 "\n\n") =
      some (sortKV (canonMembers kvs)) := by
  have hp := parsesTo_value (JValue.obj kvs) h
    ((marshalValue (JValue.obj kvs) ++ utf8 "\n\n").length + 1) (utf8 "\n\n")
    (by simp only [List.length_append]; omega) (by decide)
  unfold unmarshalObject
  rw [hp, canon]
  have : (skipWS (utf8 "\n\n")).isEmpty = true := by decide
  simp only [this, if_true]

theorem get?_none_iff (L : JObject) (k : Bytes) :
    L.get? k = none ↔ k ∉ L.map Prod.fst := by
  induction L with
  | nil => simp [JObject.get?]
  | cons p L ih =>
    obtain ⟨k', v'⟩ := p
    by_cases c : k' = k
    · subst c; simp [JObject.get?]
    · simp [JObject.get?, c, ih, Ne.symm c]

theorem get?_some_iff (L : JObject) (hn : (L.map Prod.fst).Nodup) (k : Bytes) (v : JValue) :
    L.get? k = some v ↔ (k, v) ∈ L := by
  induction L with
  | nil => simp [JObject.get?]
  | cons p L ih =>
    obtain ⟨k', v'⟩ := p
    simp only [List.map_cons, List.nodup_cons] at hn
    by_cases c : k' = k
    · subst c
      simp only [JObject.get?, if_true, Option.some.injEq, List.mem_cons, Prod.mk.injEq,
        true_and]
      constructor
      · intro h; exact Or.inl h.symm
      · rintro (h | h)
        · exact h.symm
        · exact absurd (List.mem_map_of_mem Prod.fst h) hn.1
    · simp only [JObject.get?, if_neg c, ih hn.2, List.mem_cons, Prod.mk.injEq]
      constructor
      · intro h; exact Or.inr h
      · rintro (h | h)
        · exact absurd h.1.symm c
        · exact h

theorem get?_perm (L M : JObject) (hp : List.Perm L M) (hn : (M.map Prod.fst).Nodup)
    (k : Bytes) : L.get? k = M.get? k := by
  have hnL : (L.map Prod.fst).Nodup := (hp.map Prod.fst).nodup_iff.2 hn
  cases hM : M.get? k with
  | none =>
    rw [get?_none_iff] at hM ⊢
    intro hk
    exact hM ((hp.map Prod.fst).subset hk)
  | some v =>
    rw [get?_some_iff M hn] at hM
    rw [get?_some_iff L hnL]
    exact hp.symm.subset hM

theorem get?_canonMembers (L : JObject) (k : Bytes) :
    JObject.get? (canonMembers L) k = (JObject.get? L k).map canon := by
  induction L with
  | nil => simp [canonMembers, JObject.get?]
  | cons p L ih =>
    obtain ⟨k', v'⟩ := p
    by_cases c : k' = k
    · subst c; simp [canonMembers, JObject.get?]
    · simp [canonMembers, JObject.get?, c, ih]

theorem keys_canonMembers (L : JObject) :
    (canonMembers L).map Prod.fst = L.map Prod.fst := by
  rw [canonMembers_eq]
  simp [List.map_map, Function.comp_def]

theorem get?_sorted (L : JObject) (hn : (L.map Prod.fst).Nodup) (k : Bytes) :
    JObject.get? (sortKV (canonMembers L)) k = (JObject.get? L k).map canon := by
  rw [get?_perm _ _ (sortKV_perm _) (by rw [keys_canonMembers]; exact hn), get?_canonMembers]

/-- The rewrite of a chunk that parses, with a well-formed identifier. -/
theorem rewritten_of (data : Bytes) (obj : JObject) (h : Bytes)
    (hu : unmarshalObject data = some obj) (hwf : WellFormed h) :
    Rewritten data
      (marshalValue (JValue.obj (obj.set (utf8 "history_id") (JValue.str h))) ++ utf8 "\n\n")
      h := by
  have hd := unmarshal_decoded data obj hu
  simp only [Decoded] at hd
  have hkey : WellFormed (utf8 "history_id") := wellFormed_ascii _ (by decide)
  have hd2 : Decoded (JValue.obj (JObject.set obj (utf8 "history_id") (JValue.str h))) := by
    simp only [Decoded]
    exact ⟨decodedMembers_set _ _ _ hkey (by simpa only [Decoded] using hwf) hd.1,
      keys_set_nodup _ _ _ hd.2⟩
  refine ⟨obj, _, hu, rfl, unmarshal_marshal _ hd2, ?_, ?_⟩
  · rw [get?_sorted _ (keys_set_nodup _ _ _ hd.2), get_set_self]
    simp [canon]
  · intro k hk
    rw [get?_sorted _ (keys_set_nodup _ _ _ hd.2), get_set_other _ _ _ _ hk]

theorem parsesTo_message (m : Message) (hr : WellFormed m.Role) (hc : WellFormed m.Content) :
    ParsesTo (marshalMessage m) (messageValue m) := by
  intro fuel rest hf _
  have e1 : utf8 "\x7b\"role\":" = 0x7b :: (quoteString (utf8 "role") ++ [0x3a]) := by decide
  have e2 : utf8 ",\"content\":" = 0x2c :: (quoteString (utf8 "content") ++ [0x3a]) := by decide
  have e3 : utf8 "\x7d" = [0x7d] := by decide
  have e : marshalMessage m = 0x7b :: joinComma
      ([(utf8 "role", quoteString m.Role, JValue.str m.Role),
        (utf8 "content", quoteString m.Content, JValue.str m.Content)].map
          (fun i => quoteString i.1 ++ 0x3a :: i.2.1)) ++ [0x7d] := by
    simp only [marshalMessage, e1, e2, e3, List.map_cons, List.map_nil, joinComma_cons2,
      joinComma]
    simp
  rw [e] at hf ⊢
  obtain ⟨fuel, rfl⟩ : ∃ n, fuel = n + 1 := ⟨fuel - 1, by simp at hf; omega⟩
  have hm := parseMembers_join
    [(utf8 "role", quoteString m.Role, JValue.str m.Role),
      (utf8 "content", quoteString m.Content, JValue.str m.Content)]
    (by
      intro i hi
      simp only [List.mem_cons, List.mem_singleton, List.not_mem_nil, or_false] at hi
      rcases hi with rfl | rfl
      · exact ⟨wellFormed_ascii (utf8 "role") (by decide), parsesTo_str _ hr⟩
      · exact ⟨wellFormed_ascii (utf8 "content") (by decide), parsesTo_str _ hc⟩)
    (by simp) fuel [] rest
    (by simp only [List.length_cons, List.length_append, List.length_nil] at hf ⊢; omega)
  have e4 : ∃ tl, joinComma
      ([(utf8 "role", quoteString m.Role, JValue.str m.Role),
        (utf8 "content", quoteString m.Content, JValue.str m.Content)].map
          (fun i => quoteString i.1 ++ 0x3a :: i.2.1)) ++ 0x7d :: rest = 0x22 :: tl :=
    ⟨_, by simp only [List.map_cons, joinComma_cons2, quoteString, List.cons_append]; rfl⟩
  obtain ⟨tl, htl⟩ := e4
  have e5 : ∀ x : Bytes, (0x7b :: x ++ [0x7d]) ++ rest = 0x7b :: (x ++ 0x7d :: rest) := by
    intro x; simp
  rw [e5, parseValue, skipWS_cons _ _ (by decide)]
  simp only [if_true]
  rw [htl, skipWS_cons _ _ (by decide)]
  simp only [show ¬ ((0x22 : UInt8) = 0x7d) by decide, if_false]
  rw [← htl, hm]
  have hne : ¬ (utf8 "role" = utf8 "content") := by decide
  simp [messageValue, JObject.set, hne]

theorem decodeMessage_value (m : Message) : decodeMessage (messageValue m) = some m := by
  have h1 : asciiLower (utf8 "role") = utf8 "role" := by decide
  have h2 : asciiLower (utf8 "content") = utf8 "content" := by decide
  have h3 : ¬ (utf8 "content" = utf8 "role") := by decide
  simp [messageValue, decodeMessage, decodeFields, h1, h2, h3]

theorem decodeMessages_values (ms : List Message) :
    decodeMessages (ms.map messageValue) = some ms := by
  induction ms with
  | nil => rfl
  | cons m ms ih => simp [decodeMessages, decodeMessage_value, ih]

/-- The text `json.Marshal` writes for a list of messages, `json.Unmarshal` reads
back as that list. -/
theorem unmarshal_messages_text (ms : List Message)
    (hwf : ∀ m ∈ ms, WellFormed m.Role ∧ WellFormed m.Content) :
    unmarshalMessages (0x5b :: joinComma (ms.map marshalMessage) ++ [0x5d]) = some ms := by
  unfold unmarshalMessages
  cases ms with
  | nil => rfl
  | cons m ms =>
    have he := parseElements_join ((m :: ms).map (fun x => (marshalMessage x, messageValue x)))
      (by
        intro i hi
        obtain ⟨x, hx, rfl⟩ := List.mem_map.1 hi
        exact parsesTo_message x (hwf x hx).1 (hwf x hx).2)
      (by simp) ((joinComma ((m :: ms).map marshalMessage)).length + 2) [] []
      (by simp [List.map_map, Function.comp_def])
    simp only [List.map_map, Function.comp_def, List.nil_append] at he
    have e1 : ∃ tl, joinComma ((m :: ms).map marshalMessage) ++ [0x5d] = 0x7b :: tl := by
      have e0 : ∃ t, marshalMessage m = 0x7b :: t :=
        ⟨utf8 "\"role\":" ++ quoteString m.Role ++ utf8 ",\"content\":" ++
          quoteString m.Content ++ utf8 "\x7d", by
        have : utf8 "\x7b\"role\":" = 0x7b :: utf8 "\"role\":" := by decide
        simp only [marshalMessage, this, List.cons_append]⟩
      obtain ⟨t, ht⟩ := e0
      cases ms with
      | nil => exact ⟨t ++ [0x5d], by simp [joinComma, ht]⟩
      | cons w xs =>
        exact ⟨t ++ 0x2c :: (joinComma ((w :: xs).map marshalMessage) ++ [0x5d]), by
          simp [joinComma_cons2, ht]⟩
    obtain ⟨tl, htl⟩ := e1
    have e2 : (0x5b :: joinComma ((m :: ms).map marshalMessage) ++ [0x5d]).length + 1 =
        ((joinComma ((m :: ms).map marshalMessage)).length + 2) + 1 := by simp
    have e3 : (0x5b :: joinComma ((m :: ms).map marshalMessage) ++ [0x5d]) =
        0x5b :: (joinComma ((m :: ms).map marshalMessage) ++ [0x5d]) := by simp
    rw [e2, e3, parseValue, skipWS_cons _ _ (by decide)]
    simp only [show ¬ ((0x5b : UInt8) = 0x7b) by decide, if_false, if_true]
    rw [htl, skipWS_cons _ _ (by decide)]
    simp only [show ¬ ((0x7b : UInt8) = 0x5d) by decide, if_false]
    rw [← htl, he]
    simp only [List.isEmpty_nil, skipWS, if_true]
    exact decodeMessages_values _

theorem Write_historyID (env : Env) (rc : ResponseCollector) (w : World) (data : Bytes) :
    (rc.Write env w data).rc.HistoryID = rc.HistoryID := by
  cases ht : isTerminal env data with
  | false => rw [Write_of_not_terminal env rc w data ht]; rfl
  | true =>
    rcases Nat.eq_zero_or_pos rc.UserID with h0 | hpos
    · obtain ⟨obj, -, -, hw⟩ := Write_of_terminal env rc w data ht
      have : rc.Write env w data = forward env (rc.atDone env data) w [] data := by
        refine hw.trans ?_
        simp [ResponseCollector.finish, ResponseCollector.atDone,
          ResponseCollector.CollectContent, h0]
      rw [this]
      rfl
    · obtain ⟨obj, -, -, hw⟩ := Write_done env rc w data ht hpos
      rw [hw]
      rfl

theorem persist_cases (env : Env) (rc : ResponseCollector) (w : World) :
    (rc.persist env w).1 = [] ∨ (rc.persist env w).1 = rc.HistoryID ∨
      ∃ n, (rc.persist env w).1 = env.uuid n := by
  unfold ResponseCollector.persist
  by_cases hid : rc.HistoryID = []
  · simp only [hid, if_true]
    cases hm : env.marshalMessages (rc.UserMessages ++
        [{ Role := utf8 "assistant", Content := rc.ResponseContent }]) with
    | none => left; simp only [createChatHistoryFromStream, hm]
    | some ser =>
      simp only [createChatHistoryFromStream, hm]
      split_ifs
      · right; right; exact ⟨_, rfl⟩
      · left; trivial
  · simp only [hid, if_false]
    right; left; trivial

theorem Write_relaysAs (env : Env) (rc : ResponseCollector) (w : World) (data : Bytes) :
    ∃ out, relayed (rc.Write env w data).events = [out] ∧
      RelaysAs env rc.HistoryID data out := by
  cases ht : isTerminal env data with
  | false =>
    refine ⟨data, ?_, Or.inl rfl⟩
    rw [Write_of_not_terminal env rc w data ht]
    rfl
  | true =>
    rcases Nat.eq_zero_or_pos rc.UserID with h0 | hpos
    · obtain ⟨rc1, hw⟩ := Write_anonymous env rc w data h0
      refine ⟨data, ?_, Or.inl rfl⟩
      rw [hw]
      rfl
    · obtain ⟨obj, hobj, -, hw⟩ := Write_done env rc w data ht hpos
      refine ⟨_, by rw [hw, forward_events, relayed_append,
        relayed_of_persist _ (persist_events env _ w)]; rfl, ?_⟩
      unfold outgoing
      by_cases hne : ((rc.atDone env data).persist env w).1 = []
      · left
        simp [hne]
      · simp only [ne_eq, hne, not_false_eq_true, if_true]
        cases hj : env.marshal (JObject.set obj (utf8 "history_id")
            (JValue.str ((rc.atDone env data).persist env w).1)) with
        | none => left; rfl
        | some j =>
          right
          refine ⟨ht, obj, _, j, hobj, ?_, hj, rfl⟩
          rcases persist_cases env (rc.atDone env data) w with h1 | h1 | ⟨n, h1⟩
          · exact absurd h1 hne
          · left; exact h1
          · right; exact ⟨n, h1⟩

theorem pump_relaysAs (env : Env) (hclient : ∀ n d, (env.client n d).failed = false)
    (session : Bytes) (body : List ReadResult) :
    ∀ (rc : ResponseCollector) (w : World), rc.HistoryID = session →
      List.Forall₂ (RelaysAs env session) (delivered body)
        (relayed (pump env body rc w).events) := by
  induction body with
  | nil => intro rc w _; simp [delivered, pump, relayed]
  | cons r rest ih =>
    intro rc w hid
    obtain ⟨out, ho, hr⟩ := Write_relaysAs env rc w r.data
    rw [hid] at hr
    have hok := Write_ok env hclient rc w r.data
    have hid1 : (rc.Write env w r.data).rc.HistoryID = session := by
      rw [Write_historyID]; exact hid
    by_cases hn : 0 < r.data.length <;> by_cases he : r.err.isSome = true
    · simp [delivered, pump, hn, he, hok, relayed, relayed_append, ho, hr,
        ResponseCollector.Flush]
    · simp only [delivered, pump, hn, he, hok, relayed, if_true, if_false,
        Bool.false_eq_true, List.append_eq, relayed_append, ho, ResponseCollector.Flush,
        List.append_nil, List.singleton_append]
      exact List.Forall₂.cons hr (ih _ _ hid1)
    · simp [delivered, pump, hn, he, relayed]
    · simp only [delivered, pump, hn, he, relayed, if_false, Bool.false_eq_true]
      exact ih _ _ hid

/-- Claim C2 as amended: with the codec of `encoding/json`, well-formed
identifiers and a client writer that never fails, the chunks written to the
client correspond one to one and in order to the chunks the upstream delivers.
Each is the same bytes as the upstream chunk, except that a chunk which parses
with `done = true` may instead be the text `json.Marshal` gives for its object
with `history_id` set, followed by a blank line; read back as JSON that text
differs from the upstream chunk in `history_id` only. -/
theorem relay_is_chunk_for_chunk (env : Env) (rc : ResponseCollector) (w : World)
    (body : List ReadResult) (hu : env.unmarshal = unmarshalObject)
    (hm : env.marshal = marshalObject) (huuid : ∀ n, WellFormed (env.uuid n))
    (hid : WellFormed rc.HistoryID) (hclient : ∀ n d, (env.client n d).failed = false) :
    List.Forall₂ (RelaysRewritten env) (delivered body)
      (relayed (LLMClient.StreamChat env rc w (Upstream.response 200 body)).events) := by
  simp only [LLMClient.StreamChat, ne_eq, not_true_eq_false, if_false, relayed]
  refine (pump_relaysAs env hclient rc.HistoryID body rc w rfl).imp ?_
  intro data out hr
  rcases hr with rfl | ⟨ht, obj, h, j, hobj, hprov, hj, rfl⟩
  · exact Or.inl rfl
  · refine Or.inr ⟨ht, h, ?_⟩
    rw [hm] at hj
    simp only [marshalObject, Option.some.injEq] at hj
    rw [hu] at hobj
    rw [← hj]
    apply rewritten_of data obj h hobj
    rcases hprov with rfl | ⟨n, rfl⟩
    · exact hid
    · exact huuid n

/-- Claim C12: when persistence of the chunk with `done = true` succeeded with
the identifier `h`, the one chunk written to the client is the chunk rewritten
with `h`: the text `json.Marshal` gives for the chunk's object with `history_id`
set to the string `h`, and a blank line. Parsed as JSON, as `encoding/json`
reads it, that text has `history_id` equal to `h`, and every other key has the
value it has in the chunk that came, or is absent as it is there. -/
theorem terminal_chunk_carries_history_id (env : Env) (rc : ResponseCollector) (w : World)
    (data : Bytes) (h : Bytes) (hu : env.unmarshal = unmarshalObject)
    (hm : env.marshal = marshalObject) (hterm : isTerminal env data = true)
    (hsucc : PersistedAs (rc.Write env w data).events h) (hne : h ≠ [])
    (hwf : WellFormed h) :
    ∃ out, relayed (rc.Write env w data).events = [out] ∧ Rewritten data out h := by
  have huser : 0 < rc.UserID := by
    rcases Nat.eq_zero_or_pos rc.UserID with h0 | hpos
    · exfalso
      obtain ⟨rc1, hw⟩ := Write_anonymous env rc w data h0
      obtain ⟨row, -, hin⟩ := hsucc
      rw [hw] at hin
      simp [forward, clientWrite] at hin
    · exact hpos
  obtain ⟨obj, hobj, -, hw⟩ := Write_done env rc w data hterm huser
  rw [hw, forward_events] at hsucc
  have hid := persist_identifier env _ w h (mem_persist_of_mem _ _ _ h hsucc)
  refine ⟨_, by rw [hw, forward_events, relayed_append,
    relayed_of_persist _ (persist_events env _ w)]; rfl, ?_⟩
  rw [hid]
  unfold outgoing
  simp only [ne_eq, hne, not_false_eq_true, if_true, hm, marshalObject]
  rw [hu] at hobj
  exact rewritten_of data obj h hobj hwf

theorem digitChar_ascii (k : Nat) : ∀ b ∈ String.utf8EncodeChar (Nat.digitChar k), b < 0x80 := by
  by_cases hk : k < 16
  · interval_cases k <;> decide
  · have e : Nat.digitChar k = '*' := by
      unfold Nat.digitChar
      rw [if_neg (by omega), if_neg (by omega), if_neg (by omega), if_neg (by omega),
        if_neg (by omega), if_neg (by omega), if_neg (by omega), if_neg (by omega),
        if_neg (by omega), if_neg (by omega), if_neg (by omega), if_neg (by omega),
        if_neg (by omega), if_neg (by omega), if_neg (by omega), if_neg (by omega)]
    rw [e]
    decide

theorem toDigitsCore_ascii (base : Nat) : ∀ (fuel n : Nat) (ds : List Char),
    (∀ c ∈ ds, ∀ b ∈ String.utf8EncodeChar c, b < 0x80) →
    ∀ c ∈ Nat.toDigitsCore base fuel n ds, ∀ b ∈ String.utf8EncodeChar c, b < 0x80 := by
  intro fuel
  induction fuel with
  | zero => intro n ds h; simpa [Nat.toDigitsCore] using h
  | succ k ih =>
    intro n ds h
    have h1 : ∀ c ∈ (n % base).digitChar :: ds, ∀ b ∈ String.utf8EncodeChar c, b < 0x80 := by
      intro c hc
      rcases List.mem_cons.1 hc with rfl | hc
      · exact digitChar_ascii _
      · exact h c hc
    simp only [Nat.toDigitsCore]
    split_ifs
    · exact h1
    · exact ih _ _ h1

theorem utf8_toString_ascii (n : Nat) : ∀ b ∈ utf8 (toString n), b < 0x80 := by
  intro b hb
  have hb1 : b ∈ (Nat.toDigits 10 n).flatMap String.utf8EncodeChar := hb
  obtain ⟨c, hc, hbc⟩ := List.mem_flatMap.1 hb1
  exact toDigitsCore_ascii 10 _ _ [] (by simp) c hc b hbc

theorem sampleUUID_wellFormed (n : Nat) : WellFormed (sampleUUID n) := by
  apply wellFormed_ascii
  intro b hb
  simp only [sampleUUID, List.mem_append, List.mem_replicate] at hb
  rcases hb with (hb | hb) | hb
  · revert b
    decide
  · rw [hb.2]
    decide
  · exact utf8_toString_ascii n b hb

/-- Claim C4, continuing session: when `updateChatHistoryFromStream` succeeds for
the identifier `h`, with `json.Marshal` as the serializer and messages that are
well-formed UTF-8, the row stored under `h` has all its columns as before except
`messages`, and what `json.Unmarshal` reads from that column is the prompt
followed by the assistant message, whatever the column held before. A read of
`h` that follows returns that row; the table has as many rows as before and no
insert was sent. -/
theorem update_replaces_messages (env : Env) (w : World) (h : Bytes) (P : List Message)
    (ai : Message) (hcodec : env.marshalMessages = marshalMessages)
    (hwf : ∀ m ∈ P ++ [ai], WellFormed m.Role ∧ WellFormed m.Content)
    (hsucc : (updateChatHistoryFromStream env w h P ai).1 = true) :
    ∃ old ser, w.db.first h = some old ∧ marshalMessages (P ++ [ai]) = some ser ∧
      unmarshalMessages ser = some (P ++ [ai]) ∧
      (updateChatHistoryFromStream env w h P ai).2.1.db.first h =
        some { old with Messages := ser } ∧
      (env.dbFault (updateChatHistoryFromStream env w h P ai).2.1.dbCalls = false →
        (GetChatHistoryByHistoryID env (updateChatHistoryFromStream env w h P ai).2.1 h).1 =
          some { old with Messages := ser }) ∧
      (updateChatHistoryFromStream env w h P ai).2.1.db.rows.length = w.db.rows.length ∧
      (updateChatHistoryFromStream env w h P ai).2.2 =
        [Event.callUpdate h P ai, Event.dbFirst h (some old),
          Event.dbSave { old with Messages := ser } true] := by
  obtain ⟨old, ser, h1, h2, h3, h4, h5, h6⟩ := update_row env w h P ai hsucc
  rw [hcodec] at h2
  have h7 : unmarshalMessages ser = some (P ++ [ai]) := by
    have e : 0x5b :: joinComma ((P ++ [ai]).map marshalMessage) ++ [0x5d] = ser := by
      simpa only [marshalMessages, Option.some.injEq] using h2
    rw [← e]
    exact unmarshal_messages_text _ hwf
  exact ⟨old, ser, h1, h2, h7, h3, h4, h5, h6⟩

set_option maxRecDepth 100000 in
/-- Claim C4 at a table that holds the session with the transcript of an earlier
exchange: after the update the column is the text of the prompt and the reply,
nothing of the earlier transcript, and it reads back as those two messages. -/
theorem update_replaces_messages_witness :
    unmarshalMessages earlierRow.Messages =
        some [{ Role := utf8 "user", Content := utf8 "first question" },
              { Role := utf8 "assistant", Content := utf8 "first answer" }] ∧
      earlierWorld.db.first (sampleUUID 0) = some earlierRow ∧
      (updateChatHistoryFromStream goEnv earlierWorld (sampleUUID 0) sampleInput.Messages
        { Role := utf8 "assistant", Content := utf8 "Hello" }).2.1.db.first (sampleUUID 0) =
        some { earlierRow with
          Messages := utf8 ("[\x7b\"role\":\"user\",\"content\":\"hi\"\x7d," ++
            "\x7b\"role\":\"assistant\",\"content\":\"Hello\"\x7d]") } ∧
      unmarshalMessages (utf8 ("[\x7b\"role\":\"user\",\"content\":\"hi\"\x7d," ++
            "\x7b\"role\":\"assistant\",\"content\":\"Hello\"\x7d]")) =
        some [{ Role := utf8 "user", Content := utf8 "hi" },
              { Role := utf8 "assistant", Content := utf8 "Hello" }] := by
  obtain ⟨old, ser, h1, h2, h3, h4, -⟩ := update_replaces_messages goEnv earlierWorld
    (sampleUUID 0) sampleInput.Messages { Role := utf8 "assistant", Content := utf8 "Hello" } rfl
    (by
      intro m hm
      have hm1 : m = { Role := utf8 "user", Content := utf8 "hi" } ∨
          m = { Role := utf8 "assistant", Content := utf8 "Hello" } := by
        simpa [sampleInput] using hm
      rcases hm1 with rfl | rfl
      · exact ⟨wellFormed_ascii (utf8 "user") (by decide), wellFormed_ascii (utf8 "hi") (by decide)⟩
      · exact ⟨wellFormed_ascii (utf8 "assistant") (by decide),
          wellFormed_ascii (utf8 "Hello") (by decide)⟩)
    (by decide)
  have e1 : earlierWorld.db.first (sampleUUID 0) = some earlierRow := by decide
  have e2 : marshalMessages (sampleInput.Messages ++
      [{ Role := utf8 "assistant", Content := utf8 "Hello" }]) =
      some (utf8 ("[\x7b\"role\":\"user\",\"content\":\"hi\"\x7d," ++
            "\x7b\"role\":\"assistant\",\"content\":\"Hello\"\x7d]")) := by decide
  rw [e1] at h1
  rw [e2] at h2
  cases h1
  cases h2
  exact ⟨by decide, e1, h4, h3⟩

set_option maxRecDepth 100000 in
/-- Claim C12 at a last chunk with a nested `message`, a reason and counters: the
one chunk relayed is `ollamaDoneRelayed`, and it is `ollamaDone` rewritten with
the identifier of the row that was stored; its keys are those of `ollamaDone`
and `history_id`. -/
theorem terminal_chunk_carries_history_id_witness :
    isTerminal goEnv ollamaDone = true ∧
      PersistedAs (helloCollector.Write goEnv emptyWorld ollamaDone).events (sampleUUID 0) ∧
      relayed (helloCollector.Write goEnv emptyWorld ollamaDone).events = [ollamaDoneRelayed] ∧
      Rewritten ollamaDone ollamaDoneRelayed (sampleUUID 0) ∧
      (unmarshalObject ollamaDone).map (fun o => o.map Prod.fst) =
        some [utf8 "model", utf8 "message", utf8 "done_reason", utf8 "done",
          utf8 "total_duration", utf8 "eval_count"] ∧
      (unmarshalObject ollamaDoneRelayed).map (fun o => o.map Prod.fst) =
        some [utf8 "done", utf8 "done_reason", utf8 "eval_count", utf8 "history_id",
          utf8 "message", utf8 "model", utf8 "total_duration"] := by
  have ht : isTerminal goEnv ollamaDone = true := by decide!
  have hp : PersistedAs (helloCollector.Write goEnv emptyWorld ollamaDone).events
      (sampleUUID 0) := ⟨sampleRow, rfl, Or.inl (by decide!)⟩
  have hr : relayed (helloCollector.Write goEnv emptyWorld ollamaDone).events =
      [ollamaDoneRelayed] := by decide!
  obtain ⟨out, h1, h2⟩ := terminal_chunk_carries_history_id goEnv helloCollector emptyWorld
    ollamaDone (sampleUUID 0) rfl rfl ht hp (by decide) (sampleUUID_wellFormed 0)
  rw [hr] at h1
  cases h1
  exact ⟨ht, hp, hr, h2, by decide!, by decide!⟩

set_option maxRecDepth 100000 in
/-- Claim C2 refuted as stated: the last chunk of this body parses with
`done = true` and is relayed as `ollamaDoneRelayed`, which is not the chunk that
came with something added: the chunk that came is not even a subsequence of it
(the keys come in another order). -/
theorem relayed_chunk_is_reordered :
    delivered ollamaBody = [chunkHe, chunkLlo, ollamaDone] ∧
      relayed (LLMClient.StreamChat goEnv (newCollector 1 sampleInput) emptyWorld
        (Upstream.response 200 ollamaBody)).events = [chunkHe, chunkLlo, ollamaDoneRelayed] ∧
      ollamaDoneRelayed ≠ ollamaDone ∧ ¬ List.Sublist ollamaDone ollamaDoneRelayed := by
  decide!

set_option maxRecDepth 100000 in
/-- Claim C2 as amended, at that body and a client that takes every write: the
two content chunks are relayed as they came, the last one rewritten. -/
theorem relay_is_chunk_for_chunk_witness :
    (∀ n d, (goEnv.client n d).failed = false) ∧
      relayed (LLMClient.StreamChat goEnv (newCollector 1 sampleInput) emptyWorld
        (Upstream.response 200 ollamaBody)).events = [chunkHe, chunkLlo, ollamaDoneRelayed] ∧
      List.Forall₂ (RelaysRewritten goEnv) [chunkHe, chunkLlo, ollamaDone]
        [chunkHe, chunkLlo, ollamaDoneRelayed] := by
  have hr : relayed (LLMClient.StreamChat goEnv (newCollector 1 sampleInput) emptyWorld
      (Upstream.response 200 ollamaBody)).events = [chunkHe, chunkLlo, ollamaDoneRelayed] := by
    decide!
  have hd : delivered ollamaBody = [chunkHe, chunkLlo, ollamaDone] := by decide
  have h := relay_is_chunk_for_chunk goEnv (newCollector 1 sampleInput) emptyWorld ollamaBody
    rfl rfl sampleUUID_wellFormed wellFormed_nil (fun _ _ => rfl)
  rw [hr, hd] at h
  exact ⟨fun _ _ => rfl, hr, h⟩

set_option maxRecDepth 100000 in
/-- The number codec at the texts `1.50`, `1e2`, `0.0000001` and `1e999`, and at
an integer beyond the precision of `float64`, which comes back as another
integer. -/
theorem canonNumber_examples :
    canonNumber (utf8 "1.50") = some (utf8 "1.5") ∧
      canonNumber (utf8 "1e2") = some (utf8 "100") ∧
      canonNumber (utf8 "0.0000001") = some (utf8 "1e-7") ∧
      canonNumber (utf8 "1e999") = none ∧
      canonNumber (utf8 "12345678901234567890") = some (utf8 "12345678901234567000") := by
  have h1 : decodeNumber (utf8 "12345678901234567890") =
      some { neg := false, mant := 6028163525993441, exp := 11 } := by decide!
  have h2 : formatFloat { neg := false, mant := 6028163525993441, exp := 11 } =
      some (utf8 "12345678901234567000") := by decide!
  refine ⟨by decide!, by decide!, by decide!, by decide!, ?_⟩
  rw [canonNumber, h1]
  exact h2

end ChatRelay
